import Mathlib

/-!
# Vector and angle primitives of `dlls/vector.h`

A shallow embedding of the scalar angle helpers, `Vector2D` and `Vector` of
`src/dlls/vector.h`, followed by theorems about them.  The header is embedded
twice.

## Exact layer (namespace `HalfLife`)

* `float` is an element of a linearly ordered field `F` with a floor function
  (`ℚ` for evaluation, `ℝ` for the analytic statements): arithmetic is exact,
  there is no rounding, no infinity and no NaN.
* The C library functions `sqrt`, `sinf`, `cosf`, `atan2f` are not part of the
  header; they are supplied through the class `CMath`.  Over `ℝ` they are the
  exact mathematical functions.
* The theorems on this layer are those whose statement is the same in
  binary32: fixed values at exactly representable inputs, ranges of the
  wrapped angles, and properties of the integer part of the angle helpers.

## Binary32 layer (namespace `HalfLife.Binary32`)

* `float` is `F32`: a finite rational, `+∞`, `-∞` or NaN.  Every arithmetic
  operation computes the exact result and rounds it to the binary32 grid, to
  nearest with ties to even (`rnd`); results of magnitude `2 ^ 128` or more
  become an infinity; invalid operations give NaN.  The sign of zero is not
  tracked.
* A literal such as `0.01f` is its decimal value rounded (`lit`).
* `sqrt` is the correctly rounded square root.  `sinf`, `cosf`, `atan2f` are
  the fields of a structure `Libm`, a parameter of the functions that call
  them; `Libm.rounded` is the correctly rounded instance, and `Libm.accurate`
  states an error bound that a theorem may assume of the library.
* The unqualified call `abs(e)` in `fzero` and `fequal` resolves, depending on
  the headers in scope, to a floating-point overload or to `int abs(int)`;
  `AbsKind` names the two and the functions take it as a parameter.

## Both layers

* `int` is `ℤ`; `static_cast<int>` truncates toward zero, and the bitwise
  `& 65535` is taken on the 32-bit two's-complement pattern of its operand.
* Only the scalar (`#else`) path of the `CR_HAS_SSE` conditionals is embedded.
* A member function that mutates `*this` returns the new value of `*this`;
  an output pointer is an `Option`: `none` is `nullptr`, `some v` a pointee
  currently holding `v`.
-/

namespace HalfLife

/-! ## The C library functions used by the header -/

/-- The `<cmath>` functions used by `vector.h`. -/
class CMath (F : Type) where
  /-- `sqrt` -/
  sqrt : F → F
  /-- `sinf` -/
  sinf : F → F
  /-- `cosf` -/
  cosf : F → F
  /-- `atan2f y x` -/
  atan2f : F → F → F

/-- Over the reals the library functions are the exact ones; `atan2f y x` is
the argument of `x + y i`, in `(-π, π]`, and `0` at the origin. -/
noncomputable instance instCMathReal : CMath ℝ where
  sqrt := Real.sqrt
  sinf := Real.sin
  cosf := Real.cos
  atan2f := fun y x => Complex.arg ⟨x, y⟩

section Scalar

variable {F : Type} [LinearOrderedField F] [FloorRing F]

/-! ## Constants (lines 20-25) -/

/-- `constexpr float kFloatEpsilon = 0.01f;` -/
def kFloatEpsilon : F := 0.01

/-- `constexpr float kFloatEqualEpsilon = 0.001f;` -/
def kFloatEqualEpsilon : F := 0.001

/-- `constexpr float kFloatCmpEpsilon = 1.192092896e-07f;` -/
def kFloatCmpEpsilon : F := 1.192092896e-07

/-- `constexpr float kMathPi = 3.141592653589793f;` -/
def kMathPi : F := 3.141592653589793

/-- `constexpr float kDegreeToRadians = kMathPi / 180.0f;` -/
def kDegreeToRadians : F := kMathPi / 180

/-- `constexpr float kRadiansToDegree = 180.0f / kMathPi;` -/
def kRadiansToDegree : F := 180 / kMathPi

/-! ## Scalar helpers (lines 33-66) -/

/-- `fzero(e)`: `abs(e) < kFloatEpsilon`. -/
def fzero (e : F) : Bool := decide (|e| < kFloatEpsilon)

/-- `fequal(a, b)`: `abs(a - b) < kFloatEqualEpsilon`. -/
def fequal (a b : F) : Bool := decide (|a - b| < kFloatEqualEpsilon)

/-- `rad2deg(r)`: `r * kRadiansToDegree`. -/
def rad2deg (r : F) : F := r * kRadiansToDegree

/-- `deg2rad(d)`: `d * kDegreeToRadians`. -/
def deg2rad (d : F) : F := d * kDegreeToRadians

/-- `static_cast<int>(y)` for a `float` `y`: the fractional part is discarded
(truncation toward zero).  The C++ conversion is defined only when the
truncated value fits an `int`; the theorems state that range. -/
def static_cast_int (y : F) : ℤ := if 0 ≤ y then ⌊y⌋ else ⌈y⌉

/-- `i & 65535` for an `int` `i`: the bitwise AND is taken on the 32-bit
two's-complement pattern of `i`, that is on `i mod 2^32`. -/
def and65535 (i : ℤ) : ℤ := (((i % 2 ^ 32).toNat &&& 65535 : ℕ) : ℤ)

/-- `modAngles(a)`:
`360.0f / 65536.0f * (static_cast<int>(a * (65536.0f / 360.0f)) & 65535)`. -/
def modAngles (a : F) : F :=
  360 / 65536 * ((and65535 (static_cast_int (a * (65536 / 360))) : ℤ) : F)

/-- `normalizeAngles(a)`:
`360.0f / 65536.0f * (static_cast<int>((a + 180.0f) * (65536.0f / 360.0f)) & 65535) - 180.0f`. -/
def normalizeAngles (a : F) : F :=
  360 / 65536 * ((and65535 (static_cast_int ((a + 180) * (65536 / 360))) : ℤ) : F) - 180

/-- `anglesDifference(a, b)`: `normalizeAngles(a - b)`. -/
def anglesDifference (a b : F) : F := normalizeAngles (a - b)

/-- The range of a 32-bit `int`. -/
def inIntRange (i : ℤ) : Prop := -2 ^ 31 ≤ i ∧ i < 2 ^ 31

instance (i : ℤ) : Decidable (inIntRange i) := by
  unfold inIntRange; infer_instance

end Scalar

/-! ## `Vector2D` (lines 73-117) -/

/-- `class Vector2D`: members `x`, `y`. -/
structure Vector2D (F : Type) where
  /-- member `x` -/
  x : F
  /-- member `y` -/
  y : F
  deriving DecidableEq

namespace Vector2D

variable {F : Type} [LinearOrderedField F]

/-- `Vector2D::Length()`: `sqrt(x * x + y * y)`. -/
def Length [CMath F] (a : Vector2D F) : F := CMath.sqrt (a.x * a.x + a.y * a.y)

/-- `Vector2D::Normalize()` (lines 92-104). -/
def Normalize [CMath F] (a : Vector2D F) : Vector2D F :=
  let flLen := a.Length
  if flLen = 0 then
    ⟨0, 0⟩
  else
    let flLen := 1 / flLen
    ⟨a.x * flLen, a.y * flLen⟩

end Vector2D

/-! ## `Vector` (lines 122-399) -/

/-- `class Vector`: members `x`, `y`, `z`. -/
structure Vector (F : Type) where
  /-- member `x` -/
  x : F
  /-- member `y` -/
  y : F
  /-- member `z` -/
  z : F
  deriving DecidableEq

namespace Vector

variable {F : Type} [LinearOrderedField F]

/-- `Vector::LengthSquared()`. -/
def LengthSquared (a : Vector F) : F := a.x * a.x + a.y * a.y + a.z * a.z

/-- `Vector::Length()`: `sqrt(LengthSquared())`. -/
def Length [CMath F] (a : Vector F) : F := CMath.sqrt a.LengthSquared

/-- `Vector::Normalize()` (lines 159-166). -/
def Normalize [CMath F] (a : Vector F) : Vector F :=
  let flLen := a.Length
  if flLen = 0 then
    ⟨0, 0, 1⟩
  else
    let flLen := 1 / flLen
    ⟨a.x * flLen, a.y * flLen, a.z * flLen⟩

/-- `Vector::Length2D()`: `sqrt(x * x + y * y)`. -/
def Length2D [CMath F] (a : Vector F) : F := CMath.sqrt (a.x * a.x + a.y * a.y)

/-- `Vector::normalize()`, scalar path (lines 246-253). -/
def normalize [CMath F] (a : Vector F) : Vector F :=
  let len := a.Length + kFloatCmpEpsilon
  if fzero len then
    ⟨0, 0, 1⟩
  else
    let len := 1 / len
    ⟨a.x * len, a.y * len, a.z * len⟩

/-- `Vector::normalize2d()`, scalar path (lines 262-269). -/
def normalize2d [CMath F] (a : Vector F) : Vector F :=
  let len := a.Length2D + kFloatCmpEpsilon
  if fzero len then
    ⟨0, 1, 0⟩
  else
    let len := 1 / len
    ⟨a.x * len, a.y * len, 0⟩

/-- `Vector::clampAngles()` (lines 283-290): the new value of `*this`, which is
also the value returned. -/
def clampAngles [FloorRing F] (a : Vector F) : Vector F :=
  ⟨normalizeAngles a.x, normalizeAngles a.y, 0⟩

/-- `Vector::angles()` (lines 310-317). -/
def angles [CMath F] (a : Vector F) : Vector F :=
  if fzero a.x && fzero a.y then
    ⟨if a.z > 0 then 90 else 270, 0, 0⟩
  else
    ⟨rad2deg (CMath.atan2f a.z a.Length2D), rad2deg (CMath.atan2f a.y a.x), 0⟩

/-- `Vector::angleVectors(forward, right, upward)`, scalar path (lines
325-346).  The three arguments are the output pointers; the result is what
they point to after the call.  The function-local statics `s`, `c`, `r` are
assigned before they are read, so they carry nothing between calls. -/
def angleVectors [CMath F] (a : Vector F) (forward right upward : Option (Vector F)) :
    Option (Vector F) × Option (Vector F) × Option (Vector F) :=
  let r : Vector F := ⟨deg2rad a.x, deg2rad a.y, deg2rad a.z⟩
  let s : Vector F := ⟨CMath.sinf r.x, CMath.sinf r.y, CMath.sinf r.z⟩
  let c : Vector F := ⟨CMath.cosf r.x, CMath.cosf r.y, CMath.cosf r.z⟩
  let forward := match forward with
    | some _ => some ⟨c.x * c.y, c.x * s.y, -s.x⟩
    | none => none
  let right := match right with
    | some _ =>
      some ⟨-s.z * s.x * c.y + c.z * s.y, -s.z * s.x * s.y - c.z * c.y, -s.z * c.x⟩
    | none => none
  let upward := match upward with
    | some _ =>
      some ⟨c.z * s.x * c.y + s.z * s.y, c.z * s.x * s.y - s.z * c.y, c.z * c.x⟩
    | none => none
  (forward, right, upward)

end Vector

/-! ## Binary32 layer

The definitions above take `float` as an exact field.  The definitions below
repeat the header with IEEE-754 binary32 arithmetic: every operation rounds
its exact result to nearest, ties to even, overflows to an infinity and
propagates NaN.  The sign of zero is not tracked (`+0` and `-0` are one
value); a division by zero is evaluated for `+0`. -/

namespace Binary32

/-- A binary32 value: a finite rational, an infinity or NaN.  The operations
below only produce finite values on the binary32 grid. -/
inductive F32 where
  | fin (x : ℚ)
  | pinf
  | ninf
  | nan
  deriving DecidableEq

/-- Rounding to the nearest integer, ties to the even one. -/
def rne {K : Type} [LinearOrderedField K] [FloorRing K] (t : K) : ℤ :=
  if t - (⌊t⌋ : K) < 1 / 2 then ⌊t⌋
  else if 1 / 2 < t - (⌊t⌋ : K) then ⌊t⌋ + 1
  else if ⌊t⌋ % 2 = 0 then ⌊t⌋
  else ⌊t⌋ + 1

/-- The binary32 exponent of a value: `⌊log₂ |x|⌋`, and `-126` for the
subnormal range. -/
def expo {K : Type} [LinearOrderedField K] [FloorRing K] (x : K) : ℤ :=
  max (Int.log 2 |x|) (-126)

/-- Rounding of an exact result to binary32: 24 significant bits, unit in the
last place `2 ^ (expo x - 23)`, overflow to an infinity from `2 ^ 128`. -/
def rnd {K : Type} [LinearOrderedField K] [FloorRing K] (x : K) : F32 :=
  let q : ℚ := (rne (x / (2 : K) ^ (expo x - 23)) : ℚ) * (2 : ℚ) ^ (expo x - 23)
  if (2 : ℚ) ^ 128 ≤ |q| then (if 0 < x then F32.pinf else F32.ninf) else F32.fin q

namespace F32

/-- Unary minus. -/
def neg : F32 → F32
  | fin x => fin (-x)
  | pinf => ninf
  | ninf => pinf
  | nan => nan

/-- Binary32 addition. -/
def add : F32 → F32 → F32
  | fin a, fin b => rnd (a + b)
  | nan, _ => nan
  | _, nan => nan
  | pinf, ninf => nan
  | ninf, pinf => nan
  | pinf, _ => pinf
  | _, pinf => pinf
  | ninf, _ => ninf
  | _, ninf => ninf

/-- Binary32 subtraction: `a + (-b)`. -/
def sub (a b : F32) : F32 := add a (neg b)

/-- The product of an infinity of sign `s` (`true` for `+∞`) and a finite value. -/
def infTimes (s : Bool) (b : ℚ) : F32 :=
  if b = 0 then nan else if (0 < b) = s then pinf else ninf

/-- Binary32 multiplication. -/
def mul : F32 → F32 → F32
  | fin a, fin b => rnd (a * b)
  | nan, _ => nan
  | _, nan => nan
  | pinf, fin b => infTimes true b
  | ninf, fin b => infTimes false b
  | fin a, pinf => infTimes true a
  | fin a, ninf => infTimes false a
  | pinf, pinf => pinf
  | ninf, ninf => pinf
  | pinf, ninf => ninf
  | ninf, pinf => ninf

/-- Binary32 division. -/
def div : F32 → F32 → F32
  | fin a, fin b =>
    if b = 0 then (if a = 0 then nan else if 0 < a then pinf else ninf) else rnd (a / b)
  | nan, _ => nan
  | _, nan => nan
  | fin _, pinf => fin 0
  | fin _, ninf => fin 0
  | pinf, fin b => if 0 ≤ b then pinf else ninf
  | ninf, fin b => if 0 ≤ b then ninf else pinf
  | pinf, pinf => nan
  | pinf, ninf => nan
  | ninf, pinf => nan
  | ninf, ninf => nan

/-- The comparison `a < b`; false when an operand is NaN. -/
def lt : F32 → F32 → Bool
  | fin a, fin b => decide (a < b)
  | nan, _ => false
  | _, nan => false
  | ninf, ninf => false
  | ninf, _ => true
  | _, ninf => false
  | pinf, _ => false
  | _, pinf => true

/-- The comparison `a == b`; false when an operand is NaN. -/
def eq : F32 → F32 → Bool
  | fin a, fin b => decide (a = b)
  | pinf, pinf => true
  | ninf, ninf => true
  | _, _ => false

/-- Conversion of an `int` to `float`. -/
def ofInt (i : ℤ) : F32 := rnd (i : ℚ)

/-- `static_cast<int>` of a `float`: truncation toward zero.  The C++
conversion is undefined for NaN, an infinity or a value outside the `int`
range; the model returns the truncated value, and `0` where there is none. -/
def toInt : F32 → ℤ
  | fin x => static_cast_int x
  | _ => 0

/-- The floating-point `abs`. -/
def fabs : F32 → F32
  | fin x => fin |x|
  | pinf => pinf
  | ninf => pinf
  | nan => nan

instance : Add F32 := ⟨add⟩
instance : Sub F32 := ⟨sub⟩
instance : Mul F32 := ⟨mul⟩
instance : Div F32 := ⟨div⟩
instance : Neg F32 := ⟨neg⟩

end F32

open F32 in
/-- The two functions the unqualified call `abs(e)` of `fzero` and `fequal` can
resolve to with only `<cmath>` included: a floating-point overload, or the C
library's `int abs(int)`. -/
inductive AbsKind where
  | floating
  | integer
  deriving DecidableEq

/-- The value of `abs(e)` as the comparison that follows sees it: with
`int abs(int)` the argument is converted to `int`, and the `int` result is
converted back to `float` for the comparison. -/
def absCall (k : AbsKind) (e : F32) : F32 :=
  match k with
  | AbsKind.floating => F32.fabs e
  | AbsKind.integer => F32.ofInt |F32.toInt e|

/-- A float literal or constant expression of the source: its exact value
rounded to binary32. -/
def lit (q : ℚ) : F32 := rnd q

/-- `constexpr float kFloatEpsilon = 0.01f;` -/
def kFloatEpsilon : F32 := lit 0.01

/-- `constexpr float kFloatEqualEpsilon = 0.001f;` -/
def kFloatEqualEpsilon : F32 := lit 0.001

/-- `constexpr float kFloatCmpEpsilon = 1.192092896e-07f;` -/
def kFloatCmpEpsilon : F32 := lit 1.192092896e-07

/-- `constexpr float kMathPi = 3.141592653589793f;` -/
def kMathPi : F32 := lit 3.141592653589793

/-- `constexpr float kDegreeToRadians = kMathPi / 180.0f;` -/
def kDegreeToRadians : F32 := kMathPi / lit 180

/-- `constexpr float kRadiansToDegree = 180.0f / kMathPi;` -/
def kRadiansToDegree : F32 := lit 180 / kMathPi

/-- `fzero(e)`: `abs(e) < kFloatEpsilon`. -/
def fzero (k : AbsKind) (e : F32) : Bool := F32.lt (absCall k e) kFloatEpsilon

/-- `fequal(a, b)`: `abs(a - b) < kFloatEqualEpsilon`. -/
def fequal (k : AbsKind) (a b : F32) : Bool := F32.lt (absCall k (a - b)) kFloatEqualEpsilon

/-- `rad2deg(r)`: `r * kRadiansToDegree`. -/
def rad2deg (r : F32) : F32 := r * kRadiansToDegree

/-- `deg2rad(d)`: `d * kDegreeToRadians`. -/
def deg2rad (d : F32) : F32 := d * kDegreeToRadians

/-- `modAngles(a)`:
`360.0f / 65536.0f * (static_cast<int>(a * (65536.0f / 360.0f)) & 65535)`. -/
def modAngles (a : F32) : F32 :=
  lit 360 / lit 65536 * F32.ofInt (and65535 (F32.toInt (a * (lit 65536 / lit 360))))

/-- `normalizeAngles(a)`:
`360.0f / 65536.0f * (static_cast<int>((a + 180.0f) * (65536.0f / 360.0f)) & 65535) - 180.0f`. -/
def normalizeAngles (a : F32) : F32 :=
  lit 360 / lit 65536
      * F32.ofInt (and65535 (F32.toInt ((a + lit 180) * (lit 65536 / lit 360))))
    - lit 180

/-- `anglesDifference(a, b)`: `normalizeAngles(a - b)`. -/
def anglesDifference (a b : F32) : F32 := normalizeAngles (a - b)

/-- The correctly rounded square root (`sqrt` applied to a `float` and
narrowed to `float`). -/
noncomputable def F32.sqrt : F32 → F32
  | F32.fin x => if x < 0 then F32.nan else rnd (Real.sqrt (x : ℝ))
  | F32.pinf => F32.pinf
  | F32.ninf => F32.nan
  | F32.nan => F32.nan

/-- The C library functions `sinf`, `cosf`, `atan2f`, which the header calls
and does not define. -/
structure Libm where
  /-- `sinf` -/
  sinf : F32 → F32
  /-- `cosf` -/
  cosf : F32 → F32
  /-- `atan2f y x` -/
  atan2f : F32 → F32 → F32

/-- Modelled from the C standard: a library whose `sinf`, `cosf` and `atan2f`
return the exact value rounded to binary32 on finite arguments (`atan2f y x`
is the argument of `x + y i`), `NaN` for `sinf` and `cosf` of an infinity,
and for `atan2f` with an infinite argument the limit angle; `NaN` is
propagated. -/
noncomputable def Libm.rounded : Libm where
  sinf := fun a => match a with
    | F32.fin x => rnd (Real.sin (x : ℝ))
    | _ => F32.nan
  cosf := fun a => match a with
    | F32.fin x => rnd (Real.cos (x : ℝ))
    | _ => F32.nan
  atan2f := fun a b => match a, b with
    | F32.fin y, F32.fin x => rnd (Complex.arg ⟨(x : ℝ), (y : ℝ)⟩)
    | F32.nan, _ => F32.nan
    | _, F32.nan => F32.nan
    | F32.fin _, F32.pinf => F32.fin 0
    | F32.fin y, F32.ninf => if 0 ≤ y then rnd Real.pi else rnd (-Real.pi)
    | F32.pinf, F32.fin _ => rnd (Real.pi / 2)
    | F32.ninf, F32.fin _ => rnd (-(Real.pi / 2))
    | F32.pinf, F32.pinf => rnd (Real.pi / 4)
    | F32.ninf, F32.pinf => rnd (-(Real.pi / 4))
    | F32.pinf, F32.ninf => rnd (3 * Real.pi / 4)
    | F32.ninf, F32.ninf => rnd (-(3 * Real.pi / 4))

/-- The value `a` is finite and within `δ` of the real number `r`. -/
def F32.near (δ : ℝ) (a : F32) (r : ℝ) : Prop :=
  ∃ q : ℚ, a = F32.fin q ∧ |(q : ℝ) - r| ≤ δ

/-- The value `a` is finite and within `δ` of the real `r`, of magnitude at
most one. -/
def F32.nearUnit (δ : ℝ) (a : F32) (r : ℝ) : Prop := a.near δ r ∧ |r| ≤ 1

/-- The value `a` is finite and within `δ` of the real `r`, of magnitude at
most two. -/
def F32.nearTwo (δ : ℝ) (a : F32) (r : ℝ) : Prop := a.near δ r ∧ |r| ≤ 2

/-- An accuracy bound that a theorem may assume of the library: on every
finite argument `sinf` and `cosf` return a finite value within `10⁻⁶` of the
sine and cosine, and `atan2f(y, x)` returns a finite value within `10⁻⁶` of
an angle `θ` in `[-π, π]` with `x = ρ cos θ`, `y = ρ sin θ`, `ρ = √(x² + y²)`.
A correctly rounded library has errors below `2.4 · 10⁻⁷`. -/
def Libm.accurate (m : Libm) : Prop :=
  (∀ a : ℚ, F32.near (1 / 1000000) (m.sinf (F32.fin a)) (Real.sin (a : ℝ))) ∧
  (∀ a : ℚ, F32.near (1 / 1000000) (m.cosf (F32.fin a)) (Real.cos (a : ℝ))) ∧
  (∀ y x : ℚ, ∃ θ : ℝ, F32.near (1 / 1000000) (m.atan2f (F32.fin y) (F32.fin x)) θ ∧
    |θ| ≤ Real.pi ∧
    (x : ℝ) = Real.sqrt ((x : ℝ) * x + (y : ℝ) * y) * Real.cos θ ∧
    (y : ℝ) = Real.sqrt ((x : ℝ) * x + (y : ℝ) * y) * Real.sin θ)

/-! ### `Vector2D` and `Vector` in binary32 -/

/-- `class Vector2D`: members `x`, `y`. -/
structure Vector2D where
  /-- member `x` -/
  x : F32
  /-- member `y` -/
  y : F32
  deriving DecidableEq

/-- `Vector2D::operator*(float)`. -/
def Vector2D.operator_mul (a : Vector2D) (fl : F32) : Vector2D := ⟨a.x * fl, a.y * fl⟩

/-- `Vector2D::Length()`: `sqrt(x * x + y * y)`. -/
noncomputable def Vector2D.Length (a : Vector2D) : F32 := F32.sqrt (a.x * a.x + a.y * a.y)

/-- `Vector2D::Normalize()` (lines 92-104). -/
noncomputable def Vector2D.Normalize (a : Vector2D) : Vector2D :=
  let flLen := a.Length
  if F32.eq flLen (lit 0) then
    ⟨lit 0, lit 0⟩
  else
    let flLen := lit 1 / flLen
    ⟨a.x * flLen, a.y * flLen⟩

/-- `DotProduct(const Vector2D&, const Vector2D&)` (lines 109-112). -/
def DotProduct2D (a b : Vector2D) : F32 := a.x * b.x + a.y * b.y

/-- `class Vector`: members `x`, `y`, `z`. -/
structure Vector where
  /-- member `x` -/
  x : F32
  /-- member `y` -/
  y : F32
  /-- member `z` -/
  z : F32
  deriving DecidableEq

namespace Vector

/-- Unary `Vector::operator-()`. -/
def operator_neg (a : Vector) : Vector := ⟨-a.x, -a.y, -a.z⟩

/-- `Vector::operator==`: `x == v.x && y == v.y && z == v.z`. -/
def operator_eq (a v : Vector) : Bool := F32.eq a.x v.x && F32.eq a.y v.y && F32.eq a.z v.z

/-- `Vector::operator*(const float)`. -/
def operator_mul (a : Vector) (fl : F32) : Vector := ⟨a.x * fl, a.y * fl, a.z * fl⟩

/-- `Vector::LengthSquared()`. -/
def LengthSquared (a : Vector) : F32 := a.x * a.x + a.y * a.y + a.z * a.z

/-- `Vector::Length()`: `sqrt(LengthSquared())`. -/
noncomputable def Length (a : Vector) : F32 := F32.sqrt a.LengthSquared

/-- `Vector::Normalize()` (lines 159-166). -/
noncomputable def Normalize (a : Vector) : Vector :=
  let flLen := a.Length
  if F32.eq flLen (lit 0) then
    ⟨lit 0, lit 0, lit 1⟩
  else
    let flLen := lit 1 / flLen
    ⟨a.x * flLen, a.y * flLen, a.z * flLen⟩

/-- `Vector::Length2D()`: `sqrt(x * x + y * y)`. -/
noncomputable def Length2D (a : Vector) : F32 := F32.sqrt (a.x * a.x + a.y * a.y)

/-- `Vector::normalize()`, scalar path (lines 246-253). -/
noncomputable def normalize (k : AbsKind) (a : Vector) : Vector :=
  let len := a.Length + kFloatCmpEpsilon
  if fzero k len then
    ⟨lit 0, lit 0, lit 1⟩
  else
    let len := lit 1 / len
    ⟨a.x * len, a.y * len, a.z * len⟩

/-- `Vector::normalize2d()`, scalar path (lines 262-269). -/
noncomputable def normalize2d (k : AbsKind) (a : Vector) : Vector :=
  let len := a.Length2D + kFloatCmpEpsilon
  if fzero k len then
    ⟨lit 0, lit 1, lit 0⟩
  else
    let len := lit 1 / len
    ⟨a.x * len, a.y * len, lit 0⟩

/-- `Vector::pitch()` (lines 292-299). -/
noncomputable def pitch (k : AbsKind) (m : Libm) (a : Vector) : F32 :=
  if fzero k a.z then lit 0 else deg2rad (m.atan2f a.z a.Length2D)

/-- `Vector::angles()` (lines 310-317). -/
noncomputable def angles (k : AbsKind) (m : Libm) (a : Vector) : Vector :=
  if fzero k a.x && fzero k a.y then
    ⟨if F32.lt (lit 0) a.z then lit 90 else lit 270, lit 0, lit 0⟩
  else
    ⟨rad2deg (m.atan2f a.z a.Length2D), rad2deg (m.atan2f a.y a.x), lit 0⟩

/-- `Vector::angleVectors(forward, right, upward)`, scalar path (lines
325-346); the arguments are the output pointers, the result what they point
to after the call. -/
def angleVectors (m : Libm) (a : Vector) (forward right upward : Option Vector) :
    Option Vector × Option Vector × Option Vector :=
  let r : Vector := ⟨deg2rad a.x, deg2rad a.y, deg2rad a.z⟩
  let s : Vector := ⟨m.sinf r.x, m.sinf r.y, m.sinf r.z⟩
  let c : Vector := ⟨m.cosf r.x, m.cosf r.y, m.cosf r.z⟩
  let forward := match forward with
    | some _ => some ⟨c.x * c.y, c.x * s.y, -s.x⟩
    | none => none
  let right := match right with
    | some _ =>
      some ⟨-s.z * s.x * c.y + c.z * s.y, -s.z * s.x * s.y - c.z * c.y, -s.z * c.x⟩
    | none => none
  let upward := match upward with
    | some _ =>
      some ⟨c.z * s.x * c.y + s.z * s.y, c.z * s.x * s.y - s.z * c.y, c.z * c.x⟩
    | none => none
  (forward, right, upward)

end Vector

/-- `DotProduct(const Vector&, const Vector&)` (lines 391-394). -/
def DotProduct (a b : Vector) : F32 := a.x * b.x + a.y * b.y + a.z * b.z

/-- `CrossProduct(const Vector&, const Vector&)` (lines 396-399). -/
def CrossProduct (a b : Vector) : Vector :=
  ⟨a.y * b.z - a.z * b.y, a.z * b.x - a.x * b.z, a.x * b.y - a.y * b.x⟩

/-- A finite value of magnitude at most `B`. -/
def F32.finiteLe (B : ℚ) (a : F32) : Prop := ∃ x : ℚ, a = F32.fin x ∧ |x| ≤ B

/-- A vector whose components are finite, of magnitude at most `B`. -/
def Vector.finiteLe (B : ℚ) (v : Vector) : Prop :=
  F32.finiteLe B v.x ∧ F32.finiteLe B v.y ∧ F32.finiteLe B v.z

/-- A 2D vector whose components are finite, of magnitude at most `B`. -/
def Vector2D.finiteLe (B : ℚ) (v : Vector2D) : Prop :=
  F32.finiteLe B v.x ∧ F32.finiteLe B v.y

end Binary32

/-! ## Lemmas on the scalar helpers -/

section ScalarLemmas

variable {F : Type} [LinearOrderedField F] [FloorRing F]

/-- Masking with `65535` is the non-negative remainder modulo `65536`. -/
theorem and65535_eq_emod (i : ℤ) : and65535 i = i % 65536 := by
  unfold and65535
  have h : (65535 : ℕ) = 2 ^ 16 - 1 := by norm_num
  rw [h, Nat.and_pow_two_sub_one_eq_mod]
  have h0 : 0 ≤ i % 2 ^ 32 := Int.emod_nonneg _ (by norm_num)
  omega

theorem and65535_nonneg (i : ℤ) : 0 ≤ and65535 i := by
  rw [and65535_eq_emod]; omega

theorem and65535_lt (i : ℤ) : and65535 i < 65536 := by
  rw [and65535_eq_emod]; omega

/-- A value between `-2^31` and `2^31` truncates to an `int`. -/
theorem inIntRange_static_cast_int (y : F) (h1 : -2 ^ 31 ≤ y) (h2 : y < 2 ^ 31) :
    inIntRange (static_cast_int y) := by
  unfold static_cast_int inIntRange
  split_ifs with h
  · constructor
    · have : (0 : ℤ) ≤ ⌊y⌋ := Int.floor_nonneg.mpr h
      omega
    · rw [Int.floor_lt]; exact_mod_cast h2
  · constructor
    · have h3 : ((-2 ^ 31 : ℤ) : F) ≤ y := by exact_mod_cast h1
      exact le_trans (Int.le_ceil_iff.mpr (by linarith)) le_rfl
    · have h3 : ⌈y⌉ ≤ 0 := Int.ceil_le.mpr (by push_cast; linarith)
      omega

omit [FloorRing F] in
/-- The 16-bit pattern scaled back to degrees lies in `[0, 360 - 360/65536]`. -/
theorem wrap_range (i : ℤ) :
    (0 : F) ≤ 360 / 65536 * ((and65535 i : ℤ) : F) ∧
      360 / 65536 * ((and65535 i : ℤ) : F) ≤ 360 - 360 / 65536 := by
  have h0 : (0 : F) ≤ ((and65535 i : ℤ) : F) := by exact_mod_cast and65535_nonneg i
  have h1 : ((and65535 i : ℤ) : F) ≤ 65535 := by
    have := and65535_lt i
    have h : and65535 i ≤ 65535 := by omega
    exact_mod_cast h
  constructor
  · positivity
  · linarith

theorem fzero_eq_true_iff {F : Type} [LinearOrderedField F] (e : F) :
    fzero e = true ↔ |e| < 0.01 := by
  simp [fzero, kFloatEpsilon]

theorem fzero_eq_false_iff {F : Type} [LinearOrderedField F] (e : F) :
    fzero e = false ↔ 0.01 ≤ |e| := by
  simp [fzero, kFloatEpsilon]

end ScalarLemmas

/-! ## Lemmas on the library functions over the reals -/

section RealLemmas

theorem sqrt_real (x : ℝ) : CMath.sqrt x = Real.sqrt x := rfl

theorem sinf_real (x : ℝ) : CMath.sinf x = Real.sin x := rfl

theorem cosf_real (x : ℝ) : CMath.cosf x = Real.cos x := rfl

theorem atan2f_real (y x : ℝ) : CMath.atan2f y x = Complex.arg ⟨x, y⟩ := rfl

end RealLemmas

/-! ## Normalisation of the zero vector -/

/-- Claim C6: on the zero vector every normalisation takes its fallback
branch, so no division is reached: `Length()` is exactly `0` for the two
`Normalize()`, `fzero` holds of the padded length for `normalize()` and
`normalize2d()`, and the results are `(0,0,1)`, `(0,0,1)`, `(0,1,0)` and
`(0,0)`. -/
theorem normalize_zero_fallback :
    ((⟨0, 0, 0⟩ : Vector ℝ).Length = 0 ∧
        (⟨0, 0, 0⟩ : Vector ℝ).Normalize = ⟨0, 0, 1⟩) ∧
      (fzero ((⟨0, 0, 0⟩ : Vector ℝ).Length + kFloatCmpEpsilon) = true ∧
        (⟨0, 0, 0⟩ : Vector ℝ).normalize = ⟨0, 0, 1⟩) ∧
      (fzero ((⟨0, 0, 0⟩ : Vector ℝ).Length2D + kFloatCmpEpsilon) = true ∧
        (⟨0, 0, 0⟩ : Vector ℝ).normalize2d = ⟨0, 1, 0⟩) ∧
      ((⟨0, 0⟩ : Vector2D ℝ).Length = 0 ∧
        (⟨0, 0⟩ : Vector2D ℝ).Normalize = ⟨0, 0⟩) := by
  have h3 : (⟨0, 0, 0⟩ : Vector ℝ).Length = 0 := by
    simp [Vector.Length, Vector.LengthSquared, sqrt_real]
  have h2 : (⟨0, 0, 0⟩ : Vector ℝ).Length2D = 0 := by
    simp [Vector.Length2D, sqrt_real]
  have h2d : (⟨0, 0⟩ : Vector2D ℝ).Length = 0 := by
    simp [Vector2D.Length, sqrt_real]
  have hz : fzero ((0 : ℝ) + kFloatCmpEpsilon) = true := by
    simp only [fzero, kFloatCmpEpsilon, kFloatEpsilon, decide_eq_true_eq]
    rw [abs_lt]; constructor <;> norm_num
  refine ⟨⟨h3, ?_⟩, ⟨?_, ?_⟩, ⟨?_, ?_⟩, ⟨h2d, ?_⟩⟩
  · simp only [Vector.Normalize, h3, if_true]
  · rw [h3]; exact hz
  · simp only [Vector.normalize, h3, hz, if_true]
  · rw [h2]; exact hz
  · simp only [Vector.normalize2d, h2, hz, if_true]
  · simp only [Vector2D.Normalize, h2d, if_true]

/-! ## Angle wrapping -/

section AngleWrapping

variable {F : Type} [LinearOrderedField F] [FloorRing F]

/-- Claim C7: when the scaled value `(x + 180) * 65536 / 360` truncates to a
32-bit `int`, `normalizeAngles x` lies in the half-open interval `[-180, 180)`;
`x` may be negative. -/
theorem normalizeAngles_range (x : F)
    (_h : inIntRange (static_cast_int ((x + 180) * (65536 / 360)))) :
    -180 ≤ normalizeAngles x ∧ normalizeAngles x < 180 := by
  obtain ⟨h0, h1⟩ := wrap_range (F := F) (static_cast_int ((x + 180) * (65536 / 360)))
  unfold normalizeAngles
  constructor
  · linarith
  · have : (0 : F) < 360 / 65536 := by norm_num
    linarith

/-- Witness of `normalizeAngles_range` at the negative angle `x = -190`. -/
theorem normalizeAngles_range_witness :
    inIntRange (static_cast_int (((-190 : ℚ) + 180) * (65536 / 360))) ∧
      (-180 ≤ normalizeAngles (-190 : ℚ) ∧ normalizeAngles (-190 : ℚ) < 180) :=
  have h : inIntRange (static_cast_int (((-190 : ℚ) + 180) * (65536 / 360))) :=
    inIntRange_static_cast_int _ (by norm_num) (by norm_num)
  ⟨h, normalizeAngles_range (-190) h⟩

end AngleWrapping

/-! ## `angles()` -/

/-- Claim C10: `angles()` of `(1,0,0)`, `(0,0,1)` and `(0,0,-1)` is `(0,0,0)`,
`(90,0,0)` and `(270,0,0)`, and the roll component of `angles()` is `0` for
every vector. -/
theorem angles_fixed_values :
    (⟨1, 0, 0⟩ : Vector ℝ).angles = ⟨0, 0, 0⟩ ∧
      (⟨0, 0, 1⟩ : Vector ℝ).angles = ⟨90, 0, 0⟩ ∧
      (⟨0, 0, -1⟩ : Vector ℝ).angles = ⟨270, 0, 0⟩ ∧
      ∀ v : Vector ℝ, v.angles.z = 0 := by
  have h0 : fzero (0 : ℝ) = true := by
    rw [fzero_eq_true_iff]; norm_num
  have h1 : fzero (1 : ℝ) = false := by
    rw [fzero_eq_false_iff]; norm_num
  have harg : Complex.arg ⟨1, 0⟩ = 0 := by
    have : (⟨1, 0⟩ : ℂ) = 1 := rfl
    rw [this, Complex.arg_one]
  refine ⟨?_, ?_, ?_, ?_⟩
  · have hL : (⟨1, 0, 0⟩ : Vector ℝ).Length2D = 1 := by
      simp [Vector.Length2D, sqrt_real]
    simp only [Vector.angles, h0, h1, hL, atan2f_real, harg, rad2deg, zero_mul,
      Bool.false_and, if_false, Bool.false_eq_true]
  · simp only [Vector.angles, h0, Bool.and_self, if_true]
    norm_num
  · simp only [Vector.angles, h0, Bool.and_self, if_true]
    norm_num
  · intro v
    unfold Vector.angles
    split_ifs <;> rfl

/-! ## `angleVectors` at the zero angles -/

/-- The degree-to-radian conversion of `0` is `0`. -/
theorem deg2rad_zero {F : Type} [LinearOrderedField F] : deg2rad (0 : F) = 0 := by
  unfold deg2rad; exact zero_mul _

/-- Claim C12: `angleVectors` applied to the angles `(0, 0, 0)` with all
three outputs requested writes `forward = (1, 0, 0)`, `right = (0, -1, 0)` and
`upward = (0, 0, 1)`. -/
theorem angleVectors_zero (f0 r0 u0 : Vector ℝ) :
    (⟨0, 0, 0⟩ : Vector ℝ).angleVectors (some f0) (some r0) (some u0)
      = (some ⟨1, 0, 0⟩, some ⟨0, -1, 0⟩, some ⟨0, 0, 1⟩) := by
  simp only [Vector.angleVectors, deg2rad_zero, sinf_real, cosf_real, Real.sin_zero,
    Real.cos_zero]
  norm_num

/-! ## Whole turns, half turns and idempotence of the angle helpers -/

section AngleGrid

variable {F : Type} [LinearOrderedField F] [FloorRing F]

/-- Truncating a value that is already an integer returns it. -/
theorem static_cast_int_intCast (n : ℤ) : static_cast_int ((n : ℤ) : F) = n := by
  unfold static_cast_int
  split_ifs <;> simp

/-- The mask leaves a 16-bit pattern as it is. -/
theorem and65535_of_mem (m : ℤ) (h0 : 0 ≤ m) (h1 : m < 65536) : and65535 m = m := by
  rw [and65535_eq_emod]; omega

/-- The mask is idempotent. -/
theorem and65535_idem (i : ℤ) : and65535 (and65535 i) = and65535 i :=
  and65535_of_mem _ (and65535_nonneg i) (and65535_lt i)

/-- Wrapping an angle that is already on the 16-bit grid of `normalizeAngles`
returns it. -/
theorem normalizeAngles_grid (m : ℤ) :
    normalizeAngles (360 / 65536 * ((and65535 m : ℤ) : F) - 180)
      = 360 / 65536 * ((and65535 m : ℤ) : F) - 180 := by
  have hs : (360 / 65536 * ((and65535 m : ℤ) : F) - 180 + 180) * (65536 / 360)
      = ((and65535 m : ℤ) : F) := by
    field_simp
    ring
  unfold normalizeAngles
  rw [hs, static_cast_int_intCast, and65535_idem]

/-- Claim C13: `modAngles` maps every whole multiple of 360 degrees to `0`:
`modAngles (360 * k) = 0` for every integer `k`, negative ones included, whose
scaled value `65536 * k` fits a 32-bit `int`; in particular `modAngles 0 = 0`
and `modAngles 360 = 0`. -/
theorem modAngles_whole_turns (k : ℤ) (_h : inIntRange (65536 * k)) :
    modAngles (360 * (k : F)) = 0 ∧ modAngles (0 : F) = 0 ∧ modAngles (360 : F) = 0 := by
  have key : ∀ j : ℤ, modAngles (360 * (j : F)) = 0 := by
    intro j
    have hs : 360 * (j : F) * (65536 / 360) = ((65536 * j : ℤ) : F) := by
      push_cast
      field_simp
      ring
    unfold modAngles
    rw [hs, static_cast_int_intCast, and65535_eq_emod]
    simp
  refine ⟨key k, ?_, ?_⟩
  · simpa using key 0
  · simpa using key 1

/-- Witness of `modAngles_whole_turns` at `k = -2`, that is at `-720` degrees. -/
theorem modAngles_whole_turns_witness :
    inIntRange (65536 * (-2)) ∧ modAngles (360 * ((-2 : ℤ) : ℚ)) = 0 :=
  have h : inIntRange (65536 * (-2)) := by unfold inIntRange; norm_num
  ⟨h, (modAngles_whole_turns (-2) h).1⟩

/-- Claim C15: at the half-turn boundary the signed delta wraps to `-180`:
whenever `a - b = 180`, `anglesDifference a b` is `-180` (so `fequal` to
`-180`), never `+180`. -/
theorem anglesDifference_half_turn (a b : F) (h : a - b = 180) :
    anglesDifference a b = -180 ∧ anglesDifference a b ≠ 180 ∧
      fequal (anglesDifference a b) (-180) = true := by
  have hv : anglesDifference a b = -180 := by
    have hs : ((180 : F) + 180) * (65536 / 360) = ((65536 : ℤ) : F) := by norm_num
    unfold anglesDifference normalizeAngles
    rw [h, hs, static_cast_int_intCast, and65535_eq_emod]
    norm_num
  refine ⟨hv, ?_, ?_⟩
  · rw [hv]; norm_num
  · rw [hv]
    simp only [fequal, kFloatEqualEpsilon, sub_self, abs_zero, decide_eq_true_eq]
    norm_num

/-- Witness of `anglesDifference_half_turn` at `a = 190`, `b = 10`. -/
theorem anglesDifference_half_turn_witness :
    (190 : ℚ) - 10 = 180 ∧ anglesDifference (190 : ℚ) 10 = -180 :=
  ⟨by norm_num, (anglesDifference_half_turn 190 10 (by norm_num)).1⟩

/-- Claim C19: `normalizeAngles` is idempotent on every `x` whose scaled value
fits a 32-bit `int`, and so is `clampAngles`: a second application leaves
`x`, `y` and `z = 0` unchanged. -/
theorem normalizeAngles_idempotent (x : F) (v : Vector F)
    (_hx : inIntRange (static_cast_int ((x + 180) * (65536 / 360))))
    (_hvx : inIntRange (static_cast_int ((v.x + 180) * (65536 / 360))))
    (_hvy : inIntRange (static_cast_int ((v.y + 180) * (65536 / 360)))) :
    normalizeAngles (normalizeAngles x) = normalizeAngles x ∧
      v.clampAngles.clampAngles = v.clampAngles ∧
      v.clampAngles.z = 0 := by
  have key : ∀ t : F, normalizeAngles (normalizeAngles t) = normalizeAngles t := by
    intro t
    have ht : normalizeAngles t
        = 360 / 65536 * ((and65535 (static_cast_int ((t + 180) * (65536 / 360))) : ℤ) : F)
          - 180 := rfl
    rw [ht, normalizeAngles_grid]
  refine ⟨key x, ?_, rfl⟩
  simp only [Vector.clampAngles, key]

/-- Witness of `normalizeAngles_idempotent` at `x = -190`, `v = (200, -370, 45)`. -/
theorem normalizeAngles_idempotent_witness :
    (inIntRange (static_cast_int (((-190 : ℚ) + 180) * (65536 / 360))) ∧
        inIntRange (static_cast_int (((200 : ℚ) + 180) * (65536 / 360))) ∧
        inIntRange (static_cast_int (((-370 : ℚ) + 180) * (65536 / 360)))) ∧
      normalizeAngles (normalizeAngles (-190 : ℚ)) = normalizeAngles (-190 : ℚ) ∧
      (Vector.clampAngles (Vector.clampAngles (⟨200, -370, 45⟩ : Vector ℚ)))
        = Vector.clampAngles (⟨200, -370, 45⟩ : Vector ℚ) :=
  have h1 : inIntRange (static_cast_int (((-190 : ℚ) + 180) * (65536 / 360))) :=
    inIntRange_static_cast_int _ (by norm_num) (by norm_num)
  have h2 : inIntRange (static_cast_int (((200 : ℚ) + 180) * (65536 / 360))) :=
    inIntRange_static_cast_int _ (by norm_num) (by norm_num)
  have h3 : inIntRange (static_cast_int (((-370 : ℚ) + 180) * (65536 / 360))) :=
    inIntRange_static_cast_int _ (by norm_num) (by norm_num)
  ⟨⟨h1, h2, h3⟩, (normalizeAngles_idempotent (-190) ⟨200, -370, 45⟩ h1 h2 h3).1,
    (normalizeAngles_idempotent (-190) ⟨200, -370, 45⟩ h1 h2 h3).2.1⟩

end AngleGrid

/-! ## Theorems on the binary32 layer -/

namespace Binary32

section Rounding

variable {K : Type} [LinearOrderedField K] [FloorRing K]

/-- The rounded integer is nearest, and even at a tie. -/
theorem rne_spec (t : K) :
    |t - (rne t : K)| < 1 / 2 ∨ (|t - (rne t : K)| = 1 / 2 ∧ rne t % 2 = 0) := by
  have h0 := Int.floor_le t
  have h1 := Int.lt_floor_add_one t
  unfold rne
  split_ifs with ha hb hc
  · left
    rw [abs_lt]; constructor <;> linarith
  · left
    push_cast
    rw [abs_lt]; constructor <;> linarith
  · right
    have hd : t - (⌊t⌋ : K) = 1 / 2 := le_antisymm (not_lt.mp hb) (not_lt.mp ha)
    exact ⟨by rw [hd, abs_of_pos (by norm_num)], hc⟩
  · right
    have hd : t - (⌊t⌋ : K) = 1 / 2 := le_antisymm (not_lt.mp hb) (not_lt.mp ha)
    refine ⟨?_, by omega⟩
    push_cast
    rw [show t - ((⌊t⌋ : K) + 1) = -(1 / 2) by linarith, abs_neg, abs_of_pos (by norm_num)]

/-- The nearest integer, even at a tie, is unique. -/
theorem rne_unique (t : K) (n : ℤ)
    (h : |t - (n : K)| < 1 / 2 ∨ (|t - (n : K)| = 1 / 2 ∧ n % 2 = 0)) : rne t = n := by
  have hs := rne_spec t
  have hle : |t - (rne t : K)| ≤ 1 / 2 := by
    rcases hs with hs | hs
    · exact hs.le
    · exact hs.1.le
  have hle2 : |t - (n : K)| ≤ 1 / 2 := by
    rcases h with h | h
    · exact h.le
    · exact h.1.le
  have hd : |((rne t - n : ℤ) : K)| ≤ 1 := by
    have : ((rne t - n : ℤ) : K) = (t - (n : K)) - (t - (rne t : K)) := by push_cast; ring
    rw [this]
    calc |t - (n : K) - (t - (rne t : K))| ≤ |t - (n : K)| + |t - (rne t : K)| := abs_sub _ _
      _ ≤ 1 := by linarith
  have hd' : |rne t - n| ≤ 1 := by
    have : ((|rne t - n| : ℤ) : K) ≤ ((1 : ℤ) : K) := by
      rw [Int.cast_abs]; simpa using hd
    exact_mod_cast this
  by_contra hne
  have h1 : |rne t - n| = 1 := by
    have : 0 < |rne t - n| := abs_pos.mpr (sub_ne_zero.mpr hne)
    omega
  -- both distances are exactly one half, so both integers are even
  have hsum : (1 : K) ≤ |t - (n : K)| + |t - (rne t : K)| := by
    have : ((rne t - n : ℤ) : K) = (t - (n : K)) - (t - (rne t : K)) := by push_cast; ring
    have h1' : |((rne t - n : ℤ) : K)| = 1 := by
      rw [← Int.cast_abs, h1]; simp
    rw [this] at h1'
    calc (1 : K) = |t - (n : K) - (t - (rne t : K))| := h1'.symm
      _ ≤ |t - (n : K)| + |t - (rne t : K)| := abs_sub _ _
  have e1 : rne t % 2 = 0 := by
    rcases hs with hs | hs
    · exfalso; linarith
    · exact hs.2
  have e2 : n % 2 = 0 := by
    rcases h with h | h
    · exfalso; linarith
    · exact h.2
  rcases abs_eq (by norm_num : (0 : ℤ) ≤ 1) |>.mp h1 with h2 | h2 <;> omega

theorem rne_intCast (n : ℤ) : rne ((n : ℤ) : K) = n :=
  rne_unique _ n (Or.inl (by simp))

theorem rne_neg (t : K) : rne (-t) = -rne t := by
  apply rne_unique
  have hs := rne_spec t
  have he : -t - ((-rne t : ℤ) : K) = -(t - (rne t : K)) := by push_cast; ring
  rw [he, abs_neg]
  rcases hs with hs | hs
  · exact Or.inl hs
  · exact Or.inr ⟨hs.1, by omega⟩

theorem rne_abs_sub_le (t : K) : |t - (rne t : K)| ≤ 1 / 2 := by
  rcases rne_spec t with hs | hs
  · exact hs.le
  · exact hs.1.le

end Rounding

section RoundingValue

variable {K : Type} [LinearOrderedField K] [FloorRing K]

theorem expo_neg (x : K) : expo (-x) = expo x := by
  unfold expo; rw [abs_neg]

/-- The exponent of a value between two consecutive powers of two. -/
theorem expo_eq_of (x : K) (e : ℤ) (h1 : (2 : K) ^ e ≤ |x|) (h2 : |x| < (2 : K) ^ (e + 1))
    (he : -126 ≤ e) : expo x = e := by
  have hpos : 0 < |x| := lt_of_lt_of_le (by positivity) h1
  have a1 : e ≤ Int.log 2 |x| := by
    rw [← Int.zpow_le_iff_le_log (by norm_num) hpos]
    simpa using h1
  have a2 : Int.log 2 |x| < e + 1 := by
    rw [← Int.lt_zpow_iff_log_lt (by norm_num) hpos]
    simpa using h2
  unfold expo
  omega

/-- The exponent of a non-zero value in the subnormal range. -/
theorem expo_eq_min (x : K) (hx : x ≠ 0) (h : |x| < (2 : K) ^ (-126 : ℤ)) : expo x = -126 := by
  have hpos : 0 < |x| := abs_pos.mpr hx
  have a2 : Int.log 2 |x| < -126 := by
    rw [← Int.lt_zpow_iff_log_lt (by norm_num) hpos]
    simpa using h
  unfold expo
  omega

theorem expo_ge (x : K) : -126 ≤ expo x := le_max_right _ _

/-- A non-zero value is below the next power of two above its exponent. -/
theorem abs_lt_zpow_expo (x : K) : |x| < (2 : K) ^ (expo x + 1) := by
  rcases eq_or_ne x 0 with rfl | hx
  · rw [abs_zero]; positivity
  have hpos : 0 < |x| := abs_pos.mpr hx
  have h := Int.lt_zpow_succ_log_self (b := 2) (by norm_num) |x|
  have h' : |x| < (2 : K) ^ (Int.log 2 |x| + 1) := by simpa using h
  refine lt_of_lt_of_le h' ?_
  apply zpow_le_zpow_right₀ (by norm_num)
  unfold expo
  omega

/-- Rounding, given the exponent and the rounded significand. -/
theorem rnd_of_expo (x : K) (e n : ℤ) (q : ℚ) (he : expo x = e)
    (hn : rne (x / (2 : K) ^ (e - 23)) = n) (hq : q = (n : ℚ) * (2 : ℚ) ^ (e - 23))
    (hfin : |q| < (2 : ℚ) ^ 128) : rnd x = F32.fin q := by
  unfold rnd
  simp only [he, hn, ← hq]
  rw [if_neg (not_le.mpr hfin)]

/-- Rounding of a value in the normal range whose scaled value is within one
half of an integer. -/
theorem rnd_eval (x : K) (e n : ℤ) (q : ℚ) (h1 : (2 : K) ^ e ≤ |x|)
    (h2 : |x| < (2 : K) ^ (e + 1)) (he : -126 ≤ e)
    (hn : |x / (2 : K) ^ (e - 23) - (n : K)| < 1 / 2)
    (hq : q = (n : ℚ) * (2 : ℚ) ^ (e - 23)) (hfin : |q| < (2 : ℚ) ^ 128) :
    rnd x = F32.fin q :=
  rnd_of_expo x e n q (expo_eq_of x e h1 h2 he) (rne_unique _ n (Or.inl hn)) hq hfin

theorem rnd_zero : rnd (0 : K) = F32.fin 0 := by
  unfold rnd
  simp only [zero_div, show rne (0 : K) = 0 from by simpa using rne_intCast (K := K) 0]
  norm_num

theorem rnd_neg (x : K) : rnd (-x) = F32.neg (rnd x) := by
  unfold rnd
  simp only [expo_neg, neg_div, rne_neg, Int.cast_neg, neg_mul, abs_neg]
  split_ifs with h1 h2 h3 h4
  · exfalso; linarith
  · rfl
  · rfl
  · -- overflow of a value that is neither positive nor negative
    exfalso
    have hx : x = 0 := le_antisymm (not_lt.mp h4) (by linarith [not_lt.mp h2])
    subst hx
    simp only [zero_div, show rne (0 : K) = 0 from by simpa using rne_intCast (K := K) 0] at h1
    norm_num at h1
  · rfl

/-- A value `n * 2 ^ k` with `|n| < 2 ^ 24` and `k ≥ -149`, below `2 ^ 128`, is
a binary32 value: rounding returns it. -/
theorem rnd_grid (n k : ℤ) (hn : |n| < 2 ^ 24) (hk : -149 ≤ k)
    (hfin : |(n : ℚ) * (2 : ℚ) ^ k| < (2 : ℚ) ^ 128) :
    rnd ((n : K) * (2 : K) ^ k) = F32.fin ((n : ℚ) * (2 : ℚ) ^ k) := by
  rcases eq_or_ne n 0 with rfl | hn0
  · simp only [Int.cast_zero, zero_mul]
    exact rnd_zero
  obtain ⟨x, hx⟩ : ∃ x : K, x = (n : K) * (2 : K) ^ k := ⟨_, rfl⟩
  rw [← hx]
  have h2pos : ∀ j : ℤ, (0 : K) < (2 : K) ^ j := fun j => by positivity
  have hxpos : 0 < |x| := by
    rw [hx, abs_mul, abs_of_pos (h2pos k)]
    exact mul_pos (abs_pos.mpr (by exact_mod_cast hn0)) (h2pos k)
  have hup : |x| < (2 : K) ^ (24 + k) := by
    rw [hx, abs_mul, abs_of_pos (h2pos k), zpow_add₀ (by norm_num : (2 : K) ≠ 0)]
    apply mul_lt_mul_of_pos_right _ (h2pos k)
    have h := (Int.cast_lt (R := K)).mpr hn
    rw [Int.cast_abs] at h
    calc |(n : K)| < ((2 ^ 24 : ℤ) : K) := h
      _ = (2 : K) ^ (24 : ℤ) := by norm_num
  -- the unit in the last place divides the value
  have hle : expo x - 23 ≤ k := by
    by_contra hc
    push_neg at hc
    have hlog : expo x = Int.log 2 |x| := by
      unfold expo at hc ⊢
      have : -126 < Int.log 2 |x| := by
        by_contra h'
        push_neg at h'
        rw [max_eq_right h'] at hc
        omega
      exact max_eq_left this.le
    have hlow : (2 : K) ^ (expo x) ≤ |x| := by
      rw [hlog]
      simpa using Int.zpow_log_le_self (b := 2) (r := |x|) (by norm_num) hxpos
    have : (2 : K) ^ (expo x) < (2 : K) ^ (24 + k) := lt_of_le_of_lt hlow hup
    have := (zpow_lt_zpow_iff_right₀ (by norm_num : (1 : K) < 2)).mp this
    omega
  obtain ⟨j, hj⟩ : ∃ j : ℕ, k - (expo x - 23) = (j : ℤ) :=
    ⟨(k - (expo x - 23)).toNat, by omega⟩
  have hk' : k = (expo x - 23) + j := by omega
  have hdiv : x / (2 : K) ^ (expo x - 23) = ((n * 2 ^ j : ℤ) : K) := by
    have h2 : (2 : K) ^ k = (2 : K) ^ (expo x - 23) * (2 : K) ^ j := by
      rw [← zpow_natCast, ← zpow_add₀ (by norm_num : (2 : K) ≠ 0), ← hk']
    rw [div_eq_iff (ne_of_gt (h2pos _))]
    push_cast
    calc x = (n : K) * (2 : K) ^ k := hx
      _ = (n : K) * (2 : K) ^ j * (2 : K) ^ (expo x - 23) := by rw [h2]; ring
  have hq : ((n * 2 ^ j : ℤ) : ℚ) * (2 : ℚ) ^ (expo x - 23) = (n : ℚ) * (2 : ℚ) ^ k := by
    have h2 : (2 : ℚ) ^ k = (2 : ℚ) ^ (expo x - 23) * (2 : ℚ) ^ j := by
      rw [← zpow_natCast, ← zpow_add₀ (by norm_num : (2 : ℚ) ≠ 0), ← hk']
    rw [h2]
    push_cast
    ring
  refine rnd_of_expo x (expo x) (n * 2 ^ j) _ rfl ?_ hq.symm hfin
  rw [hdiv, rne_intCast]

end RoundingValue

/-! ### Arithmetic on finite values -/

theorem fin_add_fin (a b : ℚ) : F32.fin a + F32.fin b = rnd (a + b) := rfl

theorem fin_mul_fin (a b : ℚ) : F32.fin a * F32.fin b = rnd (a * b) := rfl

theorem neg_fin (a : ℚ) : -F32.fin a = F32.fin (-a) := rfl

theorem fin_sub_fin (a b : ℚ) : F32.fin a - F32.fin b = rnd (a - b) := by
  show F32.add (F32.fin a) (F32.neg (F32.fin b)) = _
  simp only [F32.neg, F32.add, sub_eq_add_neg]

theorem fin_div_fin (a b : ℚ) (hb : b ≠ 0) : F32.fin a / F32.fin b = rnd (a / b) := by
  show F32.div (F32.fin a) (F32.fin b) = _
  simp only [F32.div, if_neg hb]

/-- An integer below `2 ^ 24` in magnitude is a binary32 value. -/
theorem rnd_int {K : Type} [LinearOrderedField K] [FloorRing K] (n : ℤ) (hn : |n| < 2 ^ 24) :
    rnd ((n : ℤ) : K) = F32.fin (n : ℚ) := by
  have h := rnd_grid (K := K) n 0 hn (by norm_num) (by
    rw [zpow_zero, mul_one]
    have h1 : ((|n| : ℤ) : ℚ) < ((2 ^ 24 : ℤ) : ℚ) := by exact_mod_cast hn
    rw [Int.cast_abs] at h1
    refine lt_trans h1 ?_
    norm_num)
  simpa using h

theorem ofInt_eq (n : ℤ) (hn : |n| < 2 ^ 24) : F32.ofInt n = F32.fin (n : ℚ) :=
  rnd_int n hn

theorem lit_int (n : ℤ) (hn : |n| < 2 ^ 24) : lit (n : ℚ) = F32.fin (n : ℚ) :=
  rnd_int n hn

theorem lit_zero : lit 0 = F32.fin 0 := by simpa using lit_int 0 (by norm_num)

theorem lit_one : lit 1 = F32.fin 1 := by simpa using lit_int 1 (by norm_num)

theorem lit_neg_one : lit (-1) = F32.fin (-1) := by simpa using lit_int (-1) (by norm_num)

theorem lit_90 : lit 90 = F32.fin 90 := by simpa using lit_int 90 (by norm_num)

theorem lit_180 : lit 180 = F32.fin 180 := by simpa using lit_int 180 (by norm_num)

theorem lit_270 : lit 270 = F32.fin 270 := by simpa using lit_int 270 (by norm_num)

theorem lit_359 : lit 359 = F32.fin 359 := by simpa using lit_int 359 (by norm_num)

theorem lit_360 : lit 360 = F32.fin 360 := by simpa using lit_int 360 (by norm_num)

theorem lit_65536 : lit 65536 = F32.fin 65536 := by simpa using lit_int 65536 (by norm_num)

/-- The value of `0.01f`. -/
theorem kFloatEpsilon_eq : kFloatEpsilon = F32.fin (5368709 / 536870912) :=
  rnd_eval _ (-7) 10737418 _ (by norm_num [abs_of_pos]) (by norm_num [abs_of_pos]) (by norm_num)
    (by norm_num [abs_lt]) (by norm_num) (by norm_num [abs_of_pos])

/-- The value of `0.001f`. -/
theorem kFloatEqualEpsilon_eq : kFloatEqualEpsilon = F32.fin (8589935 / 8589934592) :=
  rnd_eval _ (-10) 8589935 _ (by norm_num [abs_of_pos]) (by norm_num [abs_of_pos]) (by norm_num)
    (by norm_num [abs_lt]) (by norm_num) (by norm_num [abs_of_pos])

/-- The value of `1.192092896e-07f`: `2 ^ (-23)`. -/
theorem kFloatCmpEpsilon_eq : kFloatCmpEpsilon = F32.fin (1 / 8388608) :=
  rnd_eval _ (-23) 8388608 _ (by norm_num [abs_of_pos]) (by norm_num [abs_of_pos]) (by norm_num)
    (by norm_num [abs_lt]) (by norm_num) (by norm_num [abs_of_pos])

/-- The value of `65536.0f / 360.0f`. -/
theorem scale_eq : lit 65536 / lit 360 = F32.fin (11930465 / 65536) := by
  rw [lit_65536, lit_360, fin_div_fin _ _ (by norm_num)]
  exact rnd_eval _ 7 11930465 _ (by norm_num [abs_of_pos]) (by norm_num [abs_of_pos])
    (by norm_num) (by norm_num [abs_lt]) (by norm_num) (by norm_num [abs_of_pos])

/-- The value of `360.0f / 65536.0f`: `45 / 8192`, exactly. -/
theorem step_eq : lit 360 / lit 65536 = F32.fin (45 / 8192) := by
  rw [lit_65536, lit_360, fin_div_fin _ _ (by norm_num)]
  have h := rnd_grid (K := ℚ) 45 (-13) (by norm_num) (by norm_num) (by norm_num [abs_of_pos])
  have e : ((45 : ℤ) : ℚ) * (2 : ℚ) ^ (-13 : ℤ) = 360 / 65536 := by norm_num
  rw [e] at h
  rw [h]
  norm_num

/-- Scaling a 16-bit pattern back to degrees is exact in binary32. -/
theorem step_mul_pattern (m : ℤ) (h0 : 0 ≤ m) (h1 : m < 65536) :
    lit 360 / lit 65536 * F32.ofInt m = F32.fin (45 / 8192 * (m : ℚ)) := by
  rw [step_eq, ofInt_eq m (by rw [abs_of_nonneg h0]; omega), fin_mul_fin]
  have h := rnd_grid (K := ℚ) (45 * m) (-13)
    (by rw [abs_of_nonneg (by omega)]; omega) (by norm_num) (by
      have hm : ((m : ℤ) : ℚ) < 65536 := by exact_mod_cast h1
      have hm0 : (0 : ℚ) ≤ ((m : ℤ) : ℚ) := by exact_mod_cast h0
      rw [abs_of_nonneg (by positivity)]
      push_cast
      norm_num
      nlinarith)
  have e : ((45 * m : ℤ) : ℚ) * (2 : ℚ) ^ (-13 : ℤ) = 45 / 8192 * (m : ℚ) := by
    push_cast; norm_num; ring
  rw [e] at h
  exact h

theorem toInt_fin (y : ℚ) : F32.toInt (F32.fin y) = static_cast_int y := rfl

/-- The value of `modAngles` once the binary32 scaled product is known. -/
theorem modAngles_of_scaled (a : F32) (y : ℚ) (hy : a * (lit 65536 / lit 360) = F32.fin y) :
    modAngles a = F32.fin (45 / 8192 * ((static_cast_int y % 65536 : ℤ) : ℚ)) := by
  unfold modAngles
  rw [hy, toInt_fin, step_mul_pattern _ (and65535_nonneg _) (and65535_lt _), and65535_eq_emod]

/-- A 16-bit pattern scaled to degrees lies in `[0, 360)`. -/
theorem pattern_range (i : ℤ) :
    (0 : ℚ) ≤ 45 / 8192 * ((i % 65536 : ℤ) : ℚ) ∧ 45 / 8192 * ((i % 65536 : ℤ) : ℚ) < 360 := by
  have h0 : (0 : ℚ) ≤ ((i % 65536 : ℤ) : ℚ) := by
    exact_mod_cast Int.emod_nonneg i (by norm_num)
  have h1 : ((i % 65536 : ℤ) : ℚ) < 65536 := by
    exact_mod_cast Int.emod_lt_of_pos i (by norm_num)
  constructor
  · positivity
  · linarith

/-- Claim C8 (as the code has it): when the binary32 product
`a * (65536.0f / 360.0f)` is a finite value `y` that truncates to a 32-bit
`int`, `modAngles a` lies in `[0, 360)` and is `360/65536` times the
non-negative remainder modulo `65536` of `y` truncated toward zero.  The
pattern is taken from the rounded product `y`, not from the exact
`a * 65536 / 360`. -/
theorem modAngles_pattern (a : F32) (y : ℚ)
    (hy : a * (lit 65536 / lit 360) = F32.fin y)
    (_h : inIntRange (static_cast_int y)) :
    ∃ r : ℚ, modAngles a = F32.fin r ∧ (0 ≤ r ∧ r < 360) ∧
      r = 360 / 65536 * (((if 0 ≤ y then ⌊y⌋ else ⌈y⌉) % 65536 : ℤ) : ℚ) := by
  refine ⟨_, modAngles_of_scaled a y hy, pattern_range _, ?_⟩
  unfold static_cast_int
  norm_num

/-- The binary32 scaled product at `1507` degrees is `274341`. -/
theorem scaled_1507 : lit 1507 * (lit 65536 / lit 360) = F32.fin 274341 := by
  have h : lit 1507 = F32.fin 1507 := by simpa using lit_int 1507 (by norm_num)
  rw [h, scale_eq, fin_mul_fin]
  exact rnd_eval _ 18 8778912 _ (by norm_num [abs_of_pos]) (by norm_num [abs_of_pos])
    (by norm_num) (by norm_num [abs_lt]) (by norm_num) (by norm_num [abs_of_pos])

theorem static_cast_int_274341 : static_cast_int (274341 : ℚ) = 274341 := by
  simpa using static_cast_int_intCast (F := ℚ) 274341

/-- Witness of `modAngles_pattern` at `a = 1507`. -/
theorem modAngles_pattern_witness :
    lit 1507 * (lit 65536 / lit 360) = F32.fin 274341 ∧
      inIntRange (static_cast_int (274341 : ℚ)) ∧
      ∃ r : ℚ, modAngles (lit 1507) = F32.fin r ∧ (0 ≤ r ∧ r < 360) :=
  have h : inIntRange (static_cast_int (274341 : ℚ)) := by
    rw [static_cast_int_274341]; unfold inIntRange; norm_num
  ⟨scaled_1507, h,
    (modAngles_pattern (lit 1507) 274341 scaled_1507 h).imp fun _ hr => ⟨hr.1, hr.2.1⟩⟩

/-- Claim C8 fails as stated: at `a = 1507` the exact scaled value
`1507 * 65536 / 360 = 274340.62...` truncates to `274340`, pattern `12196`,
but the binary32 product rounds to `274341`, and `modAngles` returns
`360/65536 * 12197`. -/
theorem modAngles_1507_pattern :
    inIntRange (static_cast_int ((1507 : ℚ) * (65536 / 360))) ∧
      static_cast_int ((1507 : ℚ) * (65536 / 360)) % 65536 = 12196 ∧
      modAngles (lit 1507) = F32.fin (360 / 65536 * 12197) ∧
      modAngles (lit 1507) ≠ F32.fin (360 / 65536 * 12196) := by
  have ht : static_cast_int ((1507 : ℚ) * (65536 / 360)) = 274340 := by
    unfold static_cast_int
    rw [if_pos (by norm_num), Int.floor_eq_iff]
    constructor <;> norm_num
  have hm : modAngles (lit 1507) = F32.fin (360 / 65536 * 12197) := by
    rw [modAngles_of_scaled _ _ scaled_1507, static_cast_int_274341]
    norm_num
  refine ⟨?_, ?_, hm, ?_⟩
  · rw [ht]; unfold inIntRange; norm_num
  · rw [ht]; norm_num
  · rw [hm]
    intro h
    have := F32.fin.inj h
    norm_num at this

theorem lt_fin_fin (a b : ℚ) : F32.lt (F32.fin a) (F32.fin b) = decide (a < b) := rfl

theorem eq_fin_fin (a b : ℚ) : F32.eq (F32.fin a) (F32.fin b) = decide (a = b) := rfl

/-- The value of `modAngles` at `-1` degree. -/
theorem modAngles_neg_one32 : modAngles (lit (-1)) = F32.fin (1470465 / 4096) := by
  have hs : lit (-1) * (lit 65536 / lit 360) = F32.fin (-11930465 / 65536) := by
    rw [lit_neg_one, scale_eq, fin_mul_fin]
    have h := rnd_grid (K := ℚ) (-11930465) (-16) (by norm_num) (by norm_num)
      (by norm_num [abs_of_pos])
    norm_num at h ⊢
    exact h
  have ht : static_cast_int (-11930465 / 65536 : ℚ) = -182 := by
    unfold static_cast_int
    rw [if_neg (by norm_num), Int.ceil_eq_iff]
    constructor <;> norm_num
  rw [modAngles_of_scaled _ _ hs, ht]
  norm_num

/-- The value of `modAngles` at `359` degrees. -/
theorem modAngles_359_32 : modAngles (lit 359) = F32.fin (2940885 / 8192) := by
  have hs : lit 359 * (lit 65536 / lit 360) = F32.fin (16730613 / 256) := by
    rw [lit_359, scale_eq, fin_mul_fin]
    exact rnd_eval _ 15 16730613 _ (by norm_num [abs_of_pos]) (by norm_num [abs_of_pos])
      (by norm_num) (by norm_num [abs_lt]) (by norm_num) (by norm_num [abs_of_pos])
  have ht : static_cast_int (16730613 / 256 : ℚ) = 65353 := by
    unfold static_cast_int
    rw [if_pos (by norm_num), Int.floor_eq_iff]
    constructor <;> norm_num
  rw [modAngles_of_scaled _ _ hs, ht]
  norm_num

/-- The binary32 difference of the two values: one step `45/8192`. -/
theorem modAngles_wrap_diff :
    modAngles (lit (-1)) - modAngles (lit 359) = F32.fin (45 / 8192) := by
  rw [modAngles_neg_one32, modAngles_359_32, fin_sub_fin]
  have h := rnd_grid (K := ℚ) 45 (-13) (by norm_num) (by norm_num) (by norm_num [abs_of_pos])
  norm_num at h ⊢
  exact h

/-- Claim C14 (as the code has it): in binary32 `modAngles(-1)` is
`1470465/4096` and `modAngles(359)` is `2940885/8192`, neighbouring points of
the 16-bit angle grid; their difference is exactly one step `45/8192`
(`360/65536`, about `0.0055`), above `kFloatEqualEpsilon`.  `fequal` of the
two is false when `abs` is the floating-point function and true when it is
`int abs(int)`, which truncates the difference to `0`. -/
theorem modAngles_wraparound_step :
    modAngles (lit (-1)) = F32.fin (1470465 / 4096) ∧
      modAngles (lit 359) = F32.fin (2940885 / 8192) ∧
      modAngles (lit (-1)) - modAngles (lit 359) = F32.fin (360 / 65536) ∧
      fequal AbsKind.floating (modAngles (lit (-1))) (modAngles (lit 359)) = false ∧
      fequal AbsKind.integer (modAngles (lit (-1))) (modAngles (lit 359)) = true := by
  refine ⟨modAngles_neg_one32, modAngles_359_32, ?_, ?_, ?_⟩
  · rw [modAngles_wrap_diff]; norm_num
  · unfold fequal absCall
    rw [modAngles_wrap_diff, kFloatEqualEpsilon_eq]
    simp only [F32.fabs, lt_fin_fin, decide_eq_false_iff_not]
    norm_num [abs_of_pos]
  · have ht : static_cast_int (45 / 8192 : ℚ) = 0 := by
      unfold static_cast_int
      rw [if_pos (by norm_num), Int.floor_eq_iff]
      constructor <;> norm_num
    unfold fequal absCall
    rw [modAngles_wrap_diff, kFloatEqualEpsilon_eq, toInt_fin, ht]
    simp only [abs_zero]
    rw [ofInt_eq 0 (by norm_num)]
    simp only [lt_fin_fin, decide_eq_true_eq]
    norm_num

/-- Claim C14 fails as stated: the binary32 difference of `modAngles(-1)` and
`modAngles(359)` is `45/8192`, and `kFloatEqualEpsilon` is
`8589935/8589934592`; the first is not below the second. -/
theorem modAngles_wraparound_above_tolerance :
    ∃ d e : ℚ, modAngles (lit (-1)) - modAngles (lit 359) = F32.fin d ∧
      kFloatEqualEpsilon = F32.fin e ∧ ¬ |d| < e :=
  ⟨45 / 8192, 8589935 / 8589934592, modAngles_wrap_diff, kFloatEqualEpsilon_eq,
    by norm_num [abs_of_pos]⟩

/-- Claim C11 (as the code has it): whenever `fzero` holds of both `x` and
`y`, whichever function `abs` resolves to and whatever the library functions
return, `angles()` is `(90, 0, 0)` when `z > 0.0f` holds and `(270, 0, 0)`
when it does not (`z` negative, zero or NaN): yaw and roll are `0`, and the
downward pitch is `270`, not `-90`. -/
theorem angles_vertical32 (k : AbsKind) (m : Libm) (v : Vector)
    (hx : fzero k v.x = true) (hy : fzero k v.y = true) :
    (F32.lt (lit 0) v.z = true → v.angles k m = ⟨F32.fin 90, F32.fin 0, F32.fin 0⟩) ∧
      (F32.lt (lit 0) v.z = false → v.angles k m = ⟨F32.fin 270, F32.fin 0, F32.fin 0⟩) := by
  constructor
  · intro hz
    simp only [Vector.angles, hx, hy, hz, Bool.and_self, if_true, lit_90]
    rw [lit_zero]
  · intro hz
    simp only [Vector.angles, hx, hy, hz, Bool.and_self, if_true, Bool.false_eq_true,
      if_false, lit_270]
    rw [lit_zero]

/-- The guard `fzero` holds of `0.0f` under either `abs`. -/
theorem fzero_zero (k : AbsKind) : fzero k (F32.fin 0) = true := by
  have ht : static_cast_int (0 : ℚ) = 0 := by
    simpa using static_cast_int_intCast (F := ℚ) 0
  cases k
  · simp only [fzero, absCall, F32.fabs, abs_zero, kFloatEpsilon_eq, lt_fin_fin,
      decide_eq_true_eq]
    norm_num
  · simp only [fzero, absCall, toInt_fin, ht, abs_zero, kFloatEpsilon_eq]
    rw [ofInt_eq 0 (by norm_num)]
    simp only [lt_fin_fin, decide_eq_true_eq]
    norm_num

/-- Witness of `angles_vertical32` at `v = (0, 0, -1)`. -/
theorem angles_vertical32_witness :
    (fzero AbsKind.floating (F32.fin 0) = true ∧ F32.lt (lit 0) (F32.fin (-1)) = false) ∧
      (⟨F32.fin 0, F32.fin 0, F32.fin (-1)⟩ : Vector).angles AbsKind.floating Libm.rounded
        = ⟨F32.fin 270, F32.fin 0, F32.fin 0⟩ :=
  have hz : F32.lt (lit 0) (F32.fin (-1)) = false := by
    rw [lit_zero, lt_fin_fin, decide_eq_false_iff_not]; norm_num
  ⟨⟨fzero_zero _, hz⟩,
    (angles_vertical32 AbsKind.floating Libm.rounded ⟨F32.fin 0, F32.fin 0, F32.fin (-1)⟩
      (fzero_zero _) (fzero_zero _)).2 hz⟩

/-- At `v = (0, 0, -1)` the pitch returned by `angles()` is `270`, under
either `abs`, and `270 == -90` is false. -/
theorem angles_down_any_abs (k : AbsKind) :
    ((⟨F32.fin 0, F32.fin 0, F32.fin (-1)⟩ : Vector).angles k Libm.rounded).x = F32.fin 270 ∧
      F32.eq ((⟨F32.fin 0, F32.fin 0, F32.fin (-1)⟩ : Vector).angles k Libm.rounded).x
        (lit (-90)) = false := by
  have hz : F32.lt (lit 0) (F32.fin (-1)) = false := by
    rw [lit_zero, lt_fin_fin, decide_eq_false_iff_not]; norm_num
  have h90 : lit (-90) = F32.fin (-90) := by simpa using lit_int (-90) (by norm_num)
  have ha : ((⟨F32.fin 0, F32.fin 0, F32.fin (-1)⟩ : Vector).angles k Libm.rounded).x
      = F32.fin 270 := by
    simp only [Vector.angles, fzero_zero, hz, Bool.and_self, if_true, Bool.false_eq_true,
      if_false, lit_270]
  refine ⟨ha, ?_⟩
  rw [ha, h90, eq_fin_fin, decide_eq_false_iff_not]
  norm_num

/-- Claim C11 fails as stated: at `v = (0, 0, -1)`, in the vertical special
case with `z` negative, the pitch returned by `angles()` is `270` under
either `abs`, and `270 == -90` is false. -/
theorem angles_down_is_270 :
    (((⟨F32.fin 0, F32.fin 0, F32.fin (-1)⟩ : Vector).angles AbsKind.floating
          Libm.rounded).x = F32.fin 270 ∧
      F32.eq ((⟨F32.fin 0, F32.fin 0, F32.fin (-1)⟩ : Vector).angles AbsKind.floating
          Libm.rounded).x (lit (-90)) = false) ∧
    (((⟨F32.fin 0, F32.fin 0, F32.fin (-1)⟩ : Vector).angles AbsKind.integer
          Libm.rounded).x = F32.fin 270 ∧
      F32.eq ((⟨F32.fin 0, F32.fin 0, F32.fin (-1)⟩ : Vector).angles AbsKind.integer
          Libm.rounded).x (lit (-90)) = false) :=
  ⟨angles_down_any_abs AbsKind.floating, angles_down_any_abs AbsKind.integer⟩

section RoundingError

variable {K : Type} [LinearOrderedField K] [FloorRing K]

/-- The rounded integer of a non-negative value is non-negative. -/
theorem rne_nonneg (t : K) (ht : 0 ≤ t) : 0 ≤ rne t := by
  have h := rne_abs_sub_le t
  rw [abs_le] at h
  have h1 : (-1 : K) < (rne t : K) := by linarith [h.2]
  have h2 : ((-1 : ℤ) : K) < (rne t : K) := by simpa using h1
  have h3 : (-1 : ℤ) < rne t := by exact_mod_cast h2
  omega

/-- The rounded value of a non-overflowing exact result is finite, within
half a unit in the last place, and of the same sign. -/
theorem rnd_error (x : K) (hx : |x| ≤ (2 : K) ^ (127 : ℤ)) :
    ∃ y : ℚ, rnd x = F32.fin y ∧
      |(y : K) - x| ≤ (2 : K) ^ (-24 : ℤ) * |x| + (2 : K) ^ (-150 : ℤ) ∧
      (0 ≤ x → 0 ≤ y) ∧ (x ≤ 0 → y ≤ 0) := by
  have h2pos : ∀ j : ℤ, (0 : K) < (2 : K) ^ j := fun j => by positivity
  rcases eq_or_ne x 0 with rfl | hx0
  · refine ⟨0, rnd_zero, ?_, fun _ => le_rfl, fun _ => le_rfl⟩
    simp only [Rat.cast_zero, sub_zero, abs_zero, mul_zero, zero_add]
    exact (h2pos _).le
  have hpos : 0 < |x| := abs_pos.mpr hx0
  obtain ⟨e, he⟩ : ∃ e : ℤ, e = expo x := ⟨_, rfl⟩
  obtain ⟨n, hn⟩ : ∃ n : ℤ, n = rne (x / (2 : K) ^ (e - 23)) := ⟨_, rfl⟩
  -- distance to the exact value: half a unit in the last place
  have hdist : |(n : K) * (2 : K) ^ (e - 23) - x| ≤ (2 : K) ^ (e - 24) := by
    have h := rne_abs_sub_le (x / (2 : K) ^ (e - 23))
    rw [← hn] at h
    have hx' : x = x / (2 : K) ^ (e - 23) * (2 : K) ^ (e - 23) := by
      field_simp
    have e1 : (n : K) * (2 : K) ^ (e - 23) - x
        = -((x / (2 : K) ^ (e - 23) - (n : K)) * (2 : K) ^ (e - 23)) := by
      rw [sub_mul, ← hx']; ring
    have e2 : (2 : K) ^ (e - 24) = 1 / 2 * (2 : K) ^ (e - 23) := by
      rw [show e - 23 = (e - 24) + 1 by ring, zpow_add₀ (by norm_num : (2 : K) ≠ 0), zpow_one]
      ring
    rw [e1, abs_neg, abs_mul, abs_of_pos (h2pos _), e2]
    exact mul_le_mul_of_nonneg_right h (h2pos _).le
  -- the exponent is at most 127
  have he127 : e ≤ 127 := by
    have hlt : |x| < (2 : K) ^ (128 : ℤ) :=
      lt_of_le_of_lt hx (zpow_lt_zpow_right₀ (by norm_num) (by norm_num))
    have : Int.log 2 |x| < 128 := by
      rw [← Int.lt_zpow_iff_log_lt (by norm_num) hpos]
      simpa using hlt
    rw [he]; unfold expo; omega
  -- the unit in the last place against the magnitude
  have hulp : (2 : K) ^ (e - 24) ≤ (2 : K) ^ (-24 : ℤ) * |x| + (2 : K) ^ (-150 : ℤ) := by
    by_cases hlog : -126 ≤ Int.log 2 |x|
    · have hel : e = Int.log 2 |x| := by
        rw [he]; unfold expo; exact max_eq_left hlog
      have hlow : (2 : K) ^ e ≤ |x| := by
        rw [hel]
        simpa using Int.zpow_log_le_self (b := 2) (r := |x|) (by norm_num) hpos
      have : (2 : K) ^ (e - 24) = (2 : K) ^ (-24 : ℤ) * (2 : K) ^ e := by
        rw [← zpow_add₀ (by norm_num : (2 : K) ≠ 0)]; congr 1; ring
      rw [this]
      have := mul_le_mul_of_nonneg_left hlow (h2pos (-24)).le
      linarith [h2pos (-150)]
    · have hel : e = -126 := by
        rw [he]; unfold expo; exact max_eq_right (by omega)
      rw [hel]
      have h0 : (0 : K) ≤ (2 : K) ^ (-24 : ℤ) * |x| := by positivity
      have h150 : (2 : K) ^ (-126 - 24 : ℤ) = (2 : K) ^ (-150 : ℤ) := by norm_num
      rw [h150]
      linarith
  have hcast : (((n : ℚ) * (2 : ℚ) ^ (e - 23) : ℚ) : K) = (n : K) * (2 : K) ^ (e - 23) := by
    push_cast; rfl
  -- no overflow
  have hq : |((n : ℚ) * (2 : ℚ) ^ (e - 23) : ℚ)| < (2 : ℚ) ^ 128 := by
    have hK : |(n : K) * (2 : K) ^ (e - 23)| < (2 : K) ^ (128 : ℤ) := by
      have h1 : |(n : K) * (2 : K) ^ (e - 23)| ≤ |x| + (2 : K) ^ (e - 24) := by
        have := abs_sub_abs_le_abs_sub ((n : K) * (2 : K) ^ (e - 23)) x
        linarith
      have h2 : (2 : K) ^ (e - 24) ≤ (2 : K) ^ (103 : ℤ) :=
        zpow_le_zpow_right₀ (by norm_num) (by omega)
      have h3 : (2 : K) ^ (127 : ℤ) + (2 : K) ^ (103 : ℤ) < (2 : K) ^ (128 : ℤ) := by norm_num
      linarith
    rw [← hcast] at hK
    have h128 : (((2 : ℚ) ^ 128 : ℚ) : K) = (2 : K) ^ (128 : ℤ) := by
      rw [Rat.cast_pow, Rat.cast_ofNat]
      exact (zpow_natCast (2 : K) 128).symm
    have hK' : ((|((n : ℚ) * (2 : ℚ) ^ (e - 23))| : ℚ) : K) < (((2 : ℚ) ^ 128 : ℚ) : K) := by
      rw [Rat.cast_abs, h128]
      exact hK
    exact Rat.cast_lt.mp hK'
  refine ⟨(n : ℚ) * (2 : ℚ) ^ (e - 23),
    rnd_of_expo x e n _ he.symm hn.symm rfl hq, ?_, ?_, ?_⟩
  · rw [hcast]; exact le_trans hdist hulp
  · intro h0
    have : 0 ≤ n := by
      rw [hn]; exact rne_nonneg _ (div_nonneg h0 (h2pos _).le)
    have h1 : (0 : ℚ) ≤ (n : ℚ) := by exact_mod_cast this
    exact mul_nonneg h1 (zpow_nonneg (by norm_num) _)
  · intro h0
    have hneg : rne (-(x / (2 : K) ^ (e - 23))) = -n := by rw [rne_neg, hn]
    have : 0 ≤ -n := by
      rw [← hneg]
      exact rne_nonneg _ (neg_nonneg.mpr (div_nonpos_of_nonpos_of_nonneg h0 (h2pos _).le))
    have h1 : (n : ℚ) ≤ 0 := by exact_mod_cast (by omega : n ≤ 0)
    exact mul_nonpos_of_nonpos_of_nonneg h1 (zpow_nonneg (by norm_num) _)

end RoundingError

/-! ### Symmetries of the binary32 operations -/

theorem F32.mul_comm32 (a b : F32) : a * b = b * a := by
  show F32.mul a b = F32.mul b a
  cases a <;> cases b <;> simp only [F32.mul, mul_comm]

theorem F32.neg_neg32 (a : F32) : -(-a) = a := by
  show F32.neg (F32.neg a) = a
  cases a <;> simp only [F32.neg, neg_neg]

/-- Swapping the operands of a subtraction negates the result, also when it
is an infinity or NaN. -/
theorem F32.sub_swap (a b : F32) : a - b = -(b - a) := by
  show F32.add a (F32.neg b) = F32.neg (F32.add b (F32.neg a))
  cases a with
  | fin x =>
    cases b with
    | fin y =>
      show rnd (x + -y) = F32.neg (rnd (y + -x))
      rw [← rnd_neg]
      congr 1
      ring
    | pinf => rfl
    | ninf => rfl
    | nan => rfl
  | pinf => cases b <;> rfl
  | ninf => cases b <;> rfl
  | nan => cases b <;> rfl

/-- `a == a` holds of every value but NaN. -/
theorem F32.eq_self_iff (a : F32) : F32.eq a a = true ↔ a ≠ F32.nan := by
  cases a <;> simp [F32.eq]

/-- A value at or above `2 ^ 128` rounds to `+∞`. -/
theorem rnd_overflow {K : Type} [LinearOrderedField K] [FloorRing K] (x : K)
    (hx : (2 : K) ^ (128 : ℤ) ≤ x) : rnd x = F32.pinf := by
  have h2pos : ∀ j : ℤ, (0 : K) < (2 : K) ^ j := fun j => by positivity
  have hxpos : 0 < x := lt_of_lt_of_le (h2pos _) hx
  have habs : |x| = x := abs_of_pos hxpos
  have he : (128 : ℤ) ≤ expo x := by
    have : (128 : ℤ) ≤ Int.log 2 |x| := by
      rw [← Int.zpow_le_iff_le_log (by norm_num) (by rw [habs]; exact hxpos), habs]
      simpa using hx
    unfold expo; omega
  have hlow : (2 : K) ^ (expo x) ≤ x := by
    have hlog : expo x = Int.log 2 |x| := by
      unfold expo at he ⊢
      exact max_eq_left (by
        by_contra h'
        push_neg at h'
        rw [max_eq_right h'.le] at he
        omega)
    rw [hlog, habs]
    simpa using Int.zpow_log_le_self (b := 2) (r := x) (by norm_num) hxpos
  -- the significand is at least 2 ^ 23
  have hn : (2 : ℤ) ^ 23 ≤ rne (x / (2 : K) ^ (expo x - 23)) := by
    have ht : (2 : K) ^ (23 : ℤ) ≤ x / (2 : K) ^ (expo x - 23) := by
      rw [le_div_iff₀ (h2pos _), ← zpow_add₀ (by norm_num : (2 : K) ≠ 0)]
      simpa using hlow
    have h := rne_abs_sub_le (x / (2 : K) ^ (expo x - 23))
    rw [abs_le] at h
    have h1 : (2 : K) ^ (23 : ℤ) - 1 < (rne (x / (2 : K) ^ (expo x - 23)) : K) := by
      linarith [h.2]
    have h2 : (((2 : ℤ) ^ 23 - 1 : ℤ) : K) < (rne (x / (2 : K) ^ (expo x - 23)) : K) := by
      push_cast
      norm_num at h1 ⊢
      exact h1
    have h3 : (2 : ℤ) ^ 23 - 1 < rne (x / (2 : K) ^ (expo x - 23)) := by exact_mod_cast h2
    omega
  unfold rnd
  have hq : (2 : ℚ) ^ 128 ≤
      |(rne (x / (2 : K) ^ (expo x - 23)) : ℚ) * (2 : ℚ) ^ (expo x - 23)| := by
    have hn' : ((2 : ℚ) ^ (23 : ℤ)) ≤ (rne (x / (2 : K) ^ (expo x - 23)) : ℚ) := by
      have : (((2 : ℤ) ^ 23 : ℤ) : ℚ) ≤ (rne (x / (2 : K) ^ (expo x - 23)) : ℚ) := by
        exact_mod_cast hn
      refine le_trans ?_ this
      norm_num
    have hpos2 : (0 : ℚ) < (2 : ℚ) ^ (expo x - 23) := by positivity
    rw [abs_of_nonneg (mul_nonneg (le_trans (by positivity) hn') hpos2.le)]
    calc (2 : ℚ) ^ 128 = (2 : ℚ) ^ (128 : ℤ) := by norm_num
      _ ≤ (2 : ℚ) ^ (expo x) := zpow_le_zpow_right₀ (by norm_num) he
      _ = (2 : ℚ) ^ (23 : ℤ) * (2 : ℚ) ^ (expo x - 23) := by
          rw [← zpow_add₀ (by norm_num : (2 : ℚ) ≠ 0)]; congr 1; ring
      _ ≤ _ := mul_le_mul_of_nonneg_right hn' hpos2.le
  simp only [if_pos hq, if_pos hxpos]

/-! ### Finite results -/

/-- A non-overflowing exact result of magnitude at most `B` rounds to a
finite value of magnitude at most `2 * B`. -/
theorem rnd_finiteLe (x B : ℚ) (hx : |x| ≤ B) (hB1 : 1 ≤ B) (hB : B ≤ (2 : ℚ) ^ (127 : ℤ)) :
    F32.finiteLe (2 * B) (rnd x) := by
  obtain ⟨y, hy, herr, -, -⟩ := rnd_error x (le_trans hx hB)
  refine ⟨y, hy, ?_⟩
  have herr' : |y - x| ≤ (2 : ℚ) ^ (-24 : ℤ) * |x| + (2 : ℚ) ^ (-150 : ℤ) := by
    simpa using herr
  have h1 : |y| ≤ |x| + |y - x| := by
    have := abs_add (y - x) x
    simp only [sub_add_cancel] at this
    linarith
  have h2 : (2 : ℚ) ^ (-24 : ℤ) * |x| ≤ (2 : ℚ) ^ (-24 : ℤ) * B :=
    mul_le_mul_of_nonneg_left hx (by positivity)
  have h3 : (2 : ℚ) ^ (-24 : ℤ) * B ≤ 1 / 2 * B := by
    apply mul_le_mul_of_nonneg_right _ (by linarith)
    norm_num
  have h4 : (2 : ℚ) ^ (-150 : ℤ) ≤ 1 / 2 := by
    calc (2 : ℚ) ^ (-150 : ℤ) ≤ (2 : ℚ) ^ (-1 : ℤ) :=
          zpow_le_zpow_right₀ (by norm_num) (by norm_num)
      _ = 1 / 2 := by norm_num
  calc |y| ≤ |x| + |y - x| := h1
    _ ≤ B + ((2 : ℚ) ^ (-24 : ℤ) * |x| + (2 : ℚ) ^ (-150 : ℤ)) := add_le_add hx herr'
    _ ≤ B + (1 / 2 * B + 1 / 2) := by
        have := le_trans h2 h3
        exact add_le_add le_rfl (add_le_add this h4)
    _ ≤ 2 * B := by linarith

theorem finiteLe_mul (A B : ℚ) (a b : F32) (ha : F32.finiteLe A a) (hb : F32.finiteLe B b)
    (h1 : 1 ≤ A * B) (h2 : A * B ≤ (2 : ℚ) ^ (127 : ℤ)) : F32.finiteLe (2 * (A * B)) (a * b) := by
  obtain ⟨x, rfl, hx⟩ := ha
  obtain ⟨y, rfl, hy⟩ := hb
  rw [fin_mul_fin]
  refine rnd_finiteLe _ _ ?_ h1 h2
  rw [abs_mul]
  exact mul_le_mul hx hy (abs_nonneg _) (le_trans (abs_nonneg _) hx)

theorem finiteLe_add (A B : ℚ) (a b : F32) (ha : F32.finiteLe A a) (hb : F32.finiteLe B b)
    (h1 : 1 ≤ A + B) (h2 : A + B ≤ (2 : ℚ) ^ (127 : ℤ)) : F32.finiteLe (2 * (A + B)) (a + b) := by
  obtain ⟨x, rfl, hx⟩ := ha
  obtain ⟨y, rfl, hy⟩ := hb
  rw [fin_add_fin]
  exact rnd_finiteLe _ _ (le_trans (abs_add _ _) (add_le_add hx hy)) h1 h2

theorem finiteLe_sub (A B : ℚ) (a b : F32) (ha : F32.finiteLe A a) (hb : F32.finiteLe B b)
    (h1 : 1 ≤ A + B) (h2 : A + B ≤ (2 : ℚ) ^ (127 : ℤ)) : F32.finiteLe (2 * (A + B)) (a - b) := by
  obtain ⟨x, rfl, hx⟩ := ha
  obtain ⟨y, rfl, hy⟩ := hb
  rw [fin_sub_fin]
  exact rnd_finiteLe _ _ (le_trans (abs_sub _ _) (add_le_add hx hy)) h1 h2

theorem finiteLe_ne_nan (B : ℚ) (a : F32) (h : F32.finiteLe B a) : a ≠ F32.nan := by
  obtain ⟨x, rfl, -⟩ := h
  exact fun h => F32.noConfusion h

/-- The three sums of products of `DotProduct` and the differences of
`CrossProduct` stay finite for components of magnitude at most `2 ^ 60`. -/
theorem finiteLe_two_products (p q r s : F32) (hp : F32.finiteLe ((2 : ℚ) ^ (60 : ℤ)) p)
    (hq : F32.finiteLe ((2 : ℚ) ^ (60 : ℤ)) q) (hr : F32.finiteLe ((2 : ℚ) ^ (60 : ℤ)) r)
    (hs : F32.finiteLe ((2 : ℚ) ^ (60 : ℤ)) s) :
    F32.finiteLe ((2 : ℚ) ^ (123 : ℤ)) (p * q + r * s) ∧
      F32.finiteLe ((2 : ℚ) ^ (123 : ℤ)) (p * q - r * s) := by
  have e1 : (2 : ℚ) * ((2 : ℚ) ^ (60 : ℤ) * (2 : ℚ) ^ (60 : ℤ)) = (2 : ℚ) ^ (121 : ℤ) := by
    norm_num
  have e2 : (2 : ℚ) * ((2 : ℚ) ^ (121 : ℤ) + (2 : ℚ) ^ (121 : ℤ)) = (2 : ℚ) ^ (123 : ℤ) := by
    norm_num
  have h1 := finiteLe_mul _ _ p q hp hq (by norm_num) (by norm_num)
  have h2 := finiteLe_mul _ _ r s hr hs (by norm_num) (by norm_num)
  rw [e1] at h1 h2
  have h3 := finiteLe_add _ _ _ _ h1 h2 (by norm_num) (by norm_num)
  have h4 := finiteLe_sub _ _ _ _ h1 h2 (by norm_num) (by norm_num)
  rw [e2] at h3 h4
  exact ⟨h3, h4⟩

/-- `2 ^ 70` is a binary32 value whose square overflows. -/
theorem sq_two_pow_70 :
    rnd ((2 : ℚ) ^ (70 : ℤ)) = F32.fin ((2 : ℚ) ^ (70 : ℤ)) ∧
      F32.fin ((2 : ℚ) ^ (70 : ℤ)) * F32.fin ((2 : ℚ) ^ (70 : ℤ)) = F32.pinf := by
  constructor
  · have h := rnd_grid (K := ℚ) 1 70 (by norm_num) (by norm_num) (by norm_num [abs_of_pos])
    simpa using h
  · rw [fin_mul_fin]
    exact rnd_overflow _ (by norm_num)

/-! ### `DotProduct` and `CrossProduct` in binary32 -/

theorem F32.nan_add (b : F32) : F32.nan + b = F32.nan := by
  cases b <;> rfl

theorem DotProduct_swap (a b : Vector) : DotProduct a b = DotProduct b a := by
  unfold DotProduct
  rw [F32.mul_comm32 a.x, F32.mul_comm32 a.y, F32.mul_comm32 a.z]

theorem DotProduct2D_swap (c d : Vector2D) : DotProduct2D c d = DotProduct2D d c := by
  unfold DotProduct2D
  rw [F32.mul_comm32 c.x, F32.mul_comm32 c.y]

theorem CrossProduct_swap (a b : Vector) :
    CrossProduct a b = (CrossProduct b a).operator_neg := by
  unfold CrossProduct Vector.operator_neg
  simp only
  rw [F32.sub_swap (a.y * b.z), F32.sub_swap (a.z * b.x), F32.sub_swap (a.x * b.y),
    F32.mul_comm32 a.z b.y, F32.mul_comm32 a.y b.z, F32.mul_comm32 a.x b.z,
    F32.mul_comm32 a.z b.x, F32.mul_comm32 a.y b.x, F32.mul_comm32 a.x b.y]

/-- Claim C16 (as the code has it): for all vectors the components of
`CrossProduct(a, b)` and of `-CrossProduct(b, a)` are the same binary32
values, NaN included, so `CrossProduct(a, b) == -CrossProduct(b, a)` holds
exactly when no component of `CrossProduct(a, b)` is NaN; it holds in
particular when all components of `a` and `b` are finite with magnitude at
most `2 ^ 60`. -/
theorem CrossProduct_anticommutative32 (a b : Vector) :
    CrossProduct a b = (CrossProduct b a).operator_neg ∧
      ((CrossProduct a b).operator_eq (CrossProduct b a).operator_neg = true ↔
        ((CrossProduct a b).x ≠ F32.nan ∧ (CrossProduct a b).y ≠ F32.nan ∧
          (CrossProduct a b).z ≠ F32.nan)) ∧
      (a.finiteLe ((2 : ℚ) ^ (60 : ℤ)) → b.finiteLe ((2 : ℚ) ^ (60 : ℤ)) →
        (CrossProduct a b).operator_eq (CrossProduct b a).operator_neg = true) := by
  have hiff : (CrossProduct a b).operator_eq (CrossProduct b a).operator_neg = true ↔
      ((CrossProduct a b).x ≠ F32.nan ∧ (CrossProduct a b).y ≠ F32.nan ∧
        (CrossProduct a b).z ≠ F32.nan) := by
    rw [← CrossProduct_swap]
    unfold Vector.operator_eq
    rw [Bool.and_eq_true, Bool.and_eq_true, F32.eq_self_iff, F32.eq_self_iff, F32.eq_self_iff,
      and_assoc]
  refine ⟨CrossProduct_swap a b, hiff, ?_⟩
  intro ha hb
  rw [hiff]
  obtain ⟨hax, hay, haz⟩ := ha
  obtain ⟨hbx, hby, hbz⟩ := hb
  exact ⟨finiteLe_ne_nan _ _ (finiteLe_two_products _ _ _ _ hay hbz haz hby).2,
    finiteLe_ne_nan _ _ (finiteLe_two_products _ _ _ _ haz hbx hax hbz).2,
    finiteLe_ne_nan _ _ (finiteLe_two_products _ _ _ _ hax hby hay hbx).2⟩

/-- Claim C16 fails as stated: for the finite vectors `a = (2^70, 2^70, 0)` and
`b = (2^70, 2^69, 0)` both products of the `z` component overflow to `+∞`,
their difference is NaN, and `CrossProduct(a, b) == -CrossProduct(b, a)` is
false. -/
theorem CrossProduct_overflow_not_eq :
    (CrossProduct ⟨F32.fin ((2 : ℚ) ^ (70 : ℤ)), F32.fin ((2 : ℚ) ^ (70 : ℤ)), F32.fin 0⟩
        ⟨F32.fin ((2 : ℚ) ^ (70 : ℤ)), F32.fin ((2 : ℚ) ^ (69 : ℤ)), F32.fin 0⟩).z = F32.nan ∧
      (CrossProduct ⟨F32.fin ((2 : ℚ) ^ (70 : ℤ)), F32.fin ((2 : ℚ) ^ (70 : ℤ)), F32.fin 0⟩
        ⟨F32.fin ((2 : ℚ) ^ (70 : ℤ)), F32.fin ((2 : ℚ) ^ (69 : ℤ)), F32.fin 0⟩).operator_eq
        (CrossProduct
          ⟨F32.fin ((2 : ℚ) ^ (70 : ℤ)), F32.fin ((2 : ℚ) ^ (69 : ℤ)), F32.fin 0⟩
          ⟨F32.fin ((2 : ℚ) ^ (70 : ℤ)), F32.fin ((2 : ℚ) ^ (70 : ℤ)), F32.fin 0⟩).operator_neg
        = false := by
  have h1 : F32.fin ((2 : ℚ) ^ (70 : ℤ)) * F32.fin ((2 : ℚ) ^ (69 : ℤ)) = F32.pinf := by
    rw [fin_mul_fin]; exact rnd_overflow _ (by norm_num)
  have hz : (CrossProduct
      ⟨F32.fin ((2 : ℚ) ^ (70 : ℤ)), F32.fin ((2 : ℚ) ^ (70 : ℤ)), F32.fin 0⟩
      ⟨F32.fin ((2 : ℚ) ^ (70 : ℤ)), F32.fin ((2 : ℚ) ^ (69 : ℤ)), F32.fin 0⟩).z = F32.nan := by
    simp only [CrossProduct, h1, sq_two_pow_70.2]
    rfl
  refine ⟨hz, ?_⟩
  rw [← CrossProduct_swap]
  unfold Vector.operator_eq
  rw [hz]
  simp [F32.eq]

/-- Claim C17 (as the code has it): for all vectors `DotProduct(a, b)` and
`DotProduct(b, a)` are the same binary32 value, NaN included, so
`DotProduct(a, b) == DotProduct(b, a)` holds exactly when that value is not
NaN; it holds in particular when all components are finite with magnitude at
most `2 ^ 60`.  The same holds of the `Vector2D` overload. -/
theorem DotProduct_commutative32 (a b : Vector) (c d : Vector2D) :
    (DotProduct a b = DotProduct b a ∧ DotProduct2D c d = DotProduct2D d c) ∧
      ((F32.eq (DotProduct a b) (DotProduct b a) = true ↔ DotProduct a b ≠ F32.nan) ∧
        (F32.eq (DotProduct2D c d) (DotProduct2D d c) = true ↔ DotProduct2D c d ≠ F32.nan)) ∧
      (a.finiteLe ((2 : ℚ) ^ (60 : ℤ)) → b.finiteLe ((2 : ℚ) ^ (60 : ℤ)) →
        F32.eq (DotProduct a b) (DotProduct b a) = true) ∧
      (c.finiteLe ((2 : ℚ) ^ (60 : ℤ)) → d.finiteLe ((2 : ℚ) ^ (60 : ℤ)) →
        F32.eq (DotProduct2D c d) (DotProduct2D d c) = true) := by
  have h3 : F32.eq (DotProduct a b) (DotProduct b a) = true ↔ DotProduct a b ≠ F32.nan := by
    rw [← DotProduct_swap, F32.eq_self_iff]
  have h2 : F32.eq (DotProduct2D c d) (DotProduct2D d c) = true ↔
      DotProduct2D c d ≠ F32.nan := by
    rw [← DotProduct2D_swap, F32.eq_self_iff]
  refine ⟨⟨DotProduct_swap a b, DotProduct2D_swap c d⟩, ⟨h3, h2⟩, ?_, ?_⟩
  · intro ha hb
    rw [h3]
    obtain ⟨hax, hay, haz⟩ := ha
    obtain ⟨hbx, hby, hbz⟩ := hb
    have e1 : (2 : ℚ) * ((2 : ℚ) ^ (60 : ℤ) * (2 : ℚ) ^ (60 : ℤ)) = (2 : ℚ) ^ (121 : ℤ) := by
      norm_num
    have hs := (finiteLe_two_products _ _ _ _ hax hbx hay hby).1
    have hp := finiteLe_mul _ _ _ _ haz hbz (by norm_num) (by norm_num)
    rw [e1] at hp
    exact finiteLe_ne_nan _ _ (finiteLe_add _ _ _ _ hs hp (by norm_num) (by norm_num))
  · intro hc hd
    rw [h2]
    exact finiteLe_ne_nan _ _ (finiteLe_two_products _ _ _ _ hc.1 hd.1 hc.2 hd.2).1

/-- Claim C17 fails as stated: for the finite vectors `a = (2^70, 2^70, 0)` and
`b = (2^70, -2^70, 0)` the two products overflow to `+∞` and `-∞`, the sum is
NaN in either order, and `DotProduct(a, b) == DotProduct(b, a)` is false. -/
theorem DotProduct_overflow_not_eq :
    DotProduct ⟨F32.fin ((2 : ℚ) ^ (70 : ℤ)), F32.fin ((2 : ℚ) ^ (70 : ℤ)), F32.fin 0⟩
        ⟨F32.fin ((2 : ℚ) ^ (70 : ℤ)), F32.fin (-(2 : ℚ) ^ (70 : ℤ)), F32.fin 0⟩ = F32.nan ∧
      F32.eq
        (DotProduct ⟨F32.fin ((2 : ℚ) ^ (70 : ℤ)), F32.fin ((2 : ℚ) ^ (70 : ℤ)), F32.fin 0⟩
          ⟨F32.fin ((2 : ℚ) ^ (70 : ℤ)), F32.fin (-(2 : ℚ) ^ (70 : ℤ)), F32.fin 0⟩)
        (DotProduct ⟨F32.fin ((2 : ℚ) ^ (70 : ℤ)), F32.fin (-(2 : ℚ) ^ (70 : ℤ)), F32.fin 0⟩
          ⟨F32.fin ((2 : ℚ) ^ (70 : ℤ)), F32.fin ((2 : ℚ) ^ (70 : ℤ)), F32.fin 0⟩) = false := by
  have h1 : F32.fin ((2 : ℚ) ^ (70 : ℤ)) * F32.fin (-(2 : ℚ) ^ (70 : ℤ)) = F32.ninf := by
    rw [fin_mul_fin, mul_neg, rnd_neg, ← fin_mul_fin, sq_two_pow_70.2]
    rfl
  have hd : DotProduct
      ⟨F32.fin ((2 : ℚ) ^ (70 : ℤ)), F32.fin ((2 : ℚ) ^ (70 : ℤ)), F32.fin 0⟩
      ⟨F32.fin ((2 : ℚ) ^ (70 : ℤ)), F32.fin (-(2 : ℚ) ^ (70 : ℤ)), F32.fin 0⟩ = F32.nan := by
    simp only [DotProduct, h1, sq_two_pow_70.2]
    have h2 : F32.pinf + F32.ninf = F32.nan := rfl
    rw [h2, F32.nan_add]
  refine ⟨hd, ?_⟩
  have hs := DotProduct_swap
    ⟨F32.fin ((2 : ℚ) ^ (70 : ℤ)), F32.fin ((2 : ℚ) ^ (70 : ℤ)), F32.fin 0⟩
    ⟨F32.fin ((2 : ℚ) ^ (70 : ℤ)), F32.fin (-(2 : ℚ) ^ (70 : ℤ)), F32.fin 0⟩
  rw [← hs, hd]
  rfl

/-! ### Compound division in binary32 -/

/-- The value of `kMathPi`, the binary32 value next above `π`. -/
theorem kMathPi_eq : kMathPi = F32.fin (13176795 / 4194304) :=
  rnd_eval _ 1 13176795 _ (by norm_num [abs_of_pos]) (by norm_num [abs_of_pos]) (by norm_num)
    (by norm_num [abs_lt]) (by norm_num) (by norm_num [abs_of_pos])

/-- The value of `kDegreeToRadians`. -/
theorem kDegreeToRadians_eq : kDegreeToRadians = F32.fin (9370165 / 536870912) := by
  unfold kDegreeToRadians
  rw [kMathPi_eq, lit_180, fin_div_fin _ _ (by norm_num)]
  exact rnd_eval _ (-6) 9370165 _ (by norm_num [abs_of_pos]) (by norm_num [abs_of_pos])
    (by norm_num) (by norm_num [abs_lt]) (by norm_num) (by norm_num [abs_of_pos])

theorem sqrt_fin_zero : F32.sqrt (F32.fin 0) = F32.fin 0 := by
  simp only [F32.sqrt, lt_irrefl, if_false, Rat.cast_zero, Real.sqrt_zero]
  exact rnd_zero

theorem fin_zero_mul_zero : F32.fin 0 * F32.fin 0 = F32.fin 0 := by
  rw [fin_mul_fin, mul_zero]; exact rnd_zero

theorem fin_zero_add_zero : F32.fin 0 + F32.fin 0 = F32.fin 0 := by
  rw [fin_add_fin, add_zero]; exact rnd_zero

/-- The guard `fzero` fails at `1.0f` under either `abs`. -/
theorem fzero_one (k : AbsKind) : fzero k (F32.fin 1) = false := by
  have ht : static_cast_int (1 : ℚ) = 1 := by
    simpa using static_cast_int_intCast (F := ℚ) 1
  cases k
  · simp only [fzero, absCall, F32.fabs, abs_one, kFloatEpsilon_eq, lt_fin_fin,
      decide_eq_false_iff_not]
    norm_num
  · simp only [fzero, absCall, toInt_fin, ht, abs_one, kFloatEpsilon_eq]
    rw [ofInt_eq 1 (by norm_num)]
    simp only [lt_fin_fin, decide_eq_false_iff_not]
    norm_num

/-- The rounded value of `π / 2`. -/
theorem rnd_half_pi : rnd (Real.pi / 2) = F32.fin (13176795 / 8388608) := by
  have h1 := Real.pi_gt_d20
  have h2 := Real.pi_lt_d20
  have hpos : (0 : ℝ) < Real.pi / 2 := by positivity
  refine rnd_eval _ 0 13176795 _ ?_ ?_ (by norm_num) ?_ (by norm_num) (by norm_num [abs_of_pos])
  · rw [abs_of_pos hpos]; norm_num; linarith
  · rw [abs_of_pos hpos]; norm_num; linarith
  · rw [abs_lt]; norm_num; constructor <;> linarith

/-- In the modelled library `atan2f(1, 0)` is the rounded `π / 2`. -/
theorem atan2f_one_zero :
    Libm.rounded.atan2f (F32.fin 1) (F32.fin 0) = F32.fin (13176795 / 8388608) := by
  show rnd (Complex.arg ⟨((0 : ℚ) : ℝ), ((1 : ℚ) : ℝ)⟩) = _
  have : (⟨((0 : ℚ) : ℝ), ((1 : ℚ) : ℝ)⟩ : ℂ) = Complex.I := by
    apply Complex.ext <;> simp
  rw [this, Complex.arg_I]
  exact rnd_half_pi

/-- The value of `pitch()` at `(0, 0, 1)` with the modelled library. -/
theorem pitch_unit_z (k : AbsKind) :
    (⟨F32.fin 0, F32.fin 0, F32.fin 1⟩ : Vector).pitch k Libm.rounded
      = F32.fin (14718621 / 536870912) := by
  have hL : (⟨F32.fin 0, F32.fin 0, F32.fin 1⟩ : Vector).Length2D = F32.fin 0 := by
    simp only [Vector.Length2D, fin_zero_mul_zero, fin_zero_add_zero, sqrt_fin_zero]
  simp only [Vector.pitch, fzero_one, Bool.false_eq_true, if_false, hL, atan2f_one_zero,
    deg2rad, kDegreeToRadians_eq, fin_mul_fin]
  exact rnd_eval _ (-6) 14718621 _ (by norm_num [abs_of_pos]) (by norm_num [abs_of_pos])
    (by norm_num) (by norm_num [abs_lt]) (by norm_num) (by norm_num [abs_of_pos])

/-- The binary32 value `14718621/536870912` is above `(π/2) * (π/180)`. -/
theorem pitch_value_above :
    ¬ |((14718621 / 536870912 : ℚ) : ℝ)| ≤ Real.pi / 2 * (Real.pi / 180) := by
  have h2 := Real.pi_lt_d20
  have h0 := Real.pi_pos
  rw [not_le, abs_of_pos (by positivity)]
  have hsq : Real.pi * Real.pi < 3.14159265358979323847 * 3.14159265358979323847 :=
    mul_lt_mul'' h2 h2 h0.le h0.le
  push_cast
  norm_num at hsq ⊢
  linarith

/-- Claim C20 fails as stated: with a library that rounds `atan2f` correctly,
`pitch()` of `(0, 0, 1)` is `14718621/536870912` under either `abs`, which is
above `(π/2) * (π/180)`: both `atan2f(1, 0)` and `kDegreeToRadians` are rounded
up. -/
theorem pitch_above_exact_bound :
    (⟨F32.fin 0, F32.fin 0, F32.fin 1⟩ : Vector).pitch AbsKind.floating Libm.rounded
        = F32.fin (14718621 / 536870912) ∧
      (⟨F32.fin 0, F32.fin 0, F32.fin 1⟩ : Vector).pitch AbsKind.integer Libm.rounded
        = F32.fin (14718621 / 536870912) ∧
      ¬ |((14718621 / 536870912 : ℚ) : ℝ)| ≤ Real.pi / 2 * (Real.pi / 180) :=
  ⟨pitch_unit_z AbsKind.floating, pitch_unit_z AbsKind.integer, pitch_value_above⟩

/-- Claim C20 (as the code has it): whenever the library's
`atan2f(z, Length2D())` is a finite value of magnitude at most the binary32
`π/2` (`13176795/8388608`), `pitch()` is finite with `|pitch()| < 0.0275`,
under either `abs`; `pitch()` is `0` whenever `fzero(z)` holds; and `pitch()`
never compares equal to `angles().x` when that has magnitude `1` or more.  The
exact bound `(π/2) * (π/180)` is not claimed: rounding exceeds it. -/
theorem pitch_small (k : AbsKind) (m : Libm) (v : Vector) (t : ℚ)
    (ht : m.atan2f v.z v.Length2D = F32.fin t) (htb : |t| ≤ 13176795 / 8388608) :
    ∃ p : ℚ, v.pitch k m = F32.fin p ∧ |p| < 0.0275 ∧
      (fzero k v.z = true → p = 0) ∧
      (∀ a : ℚ, (v.angles k m).x = F32.fin a → 1 ≤ |a| →
        F32.eq (v.pitch k m) (v.angles k m).x = false) := by
  have key : ∃ p : ℚ, v.pitch k m = F32.fin p ∧ |p| < 0.0275 ∧
      (fzero k v.z = true → p = 0) := by
    cases hz : fzero k v.z with
    | true =>
      refine ⟨0, ?_, by norm_num, fun _ => rfl⟩
      simp only [Vector.pitch, hz, if_true, lit_zero]
    | false =>
      have hprod : |t * (9370165 / 536870912 : ℚ)| ≤ 28 / 1000 := by
        rw [abs_mul, abs_of_pos (by norm_num : (0 : ℚ) < 9370165 / 536870912)]
        calc |t| * (9370165 / 536870912) ≤ 13176795 / 8388608 * (9370165 / 536870912) :=
              mul_le_mul_of_nonneg_right htb (by norm_num)
          _ ≤ 28 / 1000 := by norm_num
      have hprod' : |t| * (9370165 / 536870912 : ℚ) ≤ 274156 / 10000000 := by
        calc |t| * (9370165 / 536870912) ≤ 13176795 / 8388608 * (9370165 / 536870912) :=
              mul_le_mul_of_nonneg_right htb (by norm_num)
          _ ≤ 274156 / 10000000 := by norm_num
      obtain ⟨p, hp, herr, -, -⟩ := rnd_error (t * (9370165 / 536870912 : ℚ))
        (le_trans hprod (by norm_num))
      simp only [Rat.cast_id] at herr
      refine ⟨p, ?_, ?_, fun h => absurd h (by simp)⟩
      · simp only [Vector.pitch, hz, Bool.false_eq_true, if_false, ht, deg2rad,
          kDegreeToRadians_eq, fin_mul_fin, hp]
      · obtain ⟨w, hw⟩ : ∃ w : ℚ, w = |t * (9370165 / 536870912 : ℚ)| := ⟨_, rfl⟩
        rw [← hw] at herr
        have hw1 : w ≤ 274156 / 10000000 := by
          rw [hw, abs_mul, abs_of_pos (by norm_num : (0 : ℚ) < 9370165 / 536870912)]
          exact hprod'
        have hw0 : 0 ≤ w := by rw [hw]; exact abs_nonneg _
        have hu : (2 : ℚ) ^ (-24 : ℤ) ≤ 1 / 1000000 := by norm_num
        have hη : (2 : ℚ) ^ (-150 : ℤ) ≤ 1 / 1000000 := by
          calc (2 : ℚ) ^ (-150 : ℤ) ≤ (2 : ℚ) ^ (-24 : ℤ) :=
                zpow_le_zpow_right₀ (by norm_num) (by norm_num)
            _ ≤ 1 / 1000000 := hu
        have h1 : |p| ≤ w + |p - t * (9370165 / 536870912 : ℚ)| := by
          have := abs_add (p - t * (9370165 / 536870912 : ℚ)) (t * (9370165 / 536870912 : ℚ))
          simp only [sub_add_cancel] at this
          rw [hw]; linarith
        have h2 : (2 : ℚ) ^ (-24 : ℤ) * w ≤ 1 / 1000000 * w :=
          mul_le_mul_of_nonneg_right hu hw0
        have h3 : |p| ≤ w + (1 / 1000000 * w + 1 / 1000000) :=
          le_trans h1 (add_le_add le_rfl (le_trans herr (add_le_add h2 hη)))
        have h4 : w + (1 / 1000000 * w + 1 / 1000000) < 0.0275 := by
          norm_num
          linarith
        exact lt_of_le_of_lt h3 h4
  obtain ⟨p, hp, hlt, hzero⟩ := key
  refine ⟨p, hp, hlt, hzero, ?_⟩
  intro a ha h1
  rw [hp, ha, eq_fin_fin, decide_eq_false_iff_not]
  intro hpa
  rw [hpa] at hlt
  have : (0.0275 : ℚ) < 1 := by norm_num
  linarith

/-- Witness of `pitch_small` at `v = (0, 0, 1)` with the modelled library. -/
theorem pitch_small_witness :
    Libm.rounded.atan2f (F32.fin 1) (⟨F32.fin 0, F32.fin 0, F32.fin 1⟩ : Vector).Length2D
        = F32.fin (13176795 / 8388608) ∧
      ∃ p : ℚ, (⟨F32.fin 0, F32.fin 0, F32.fin 1⟩ : Vector).pitch AbsKind.floating Libm.rounded
          = F32.fin p ∧ |p| < 0.0275 :=
  have hL : (⟨F32.fin 0, F32.fin 0, F32.fin 1⟩ : Vector).Length2D = F32.fin 0 := by
    simp only [Vector.Length2D, fin_zero_mul_zero, fin_zero_add_zero, sqrt_fin_zero]
  have ht : Libm.rounded.atan2f (F32.fin 1)
      (⟨F32.fin 0, F32.fin 0, F32.fin 1⟩ : Vector).Length2D = F32.fin (13176795 / 8388608) := by
    rw [hL]; exact atan2f_one_zero
  ⟨ht, (pitch_small AbsKind.floating Libm.rounded ⟨F32.fin 0, F32.fin 0, F32.fin 1⟩ _ ht
    (by norm_num [abs_of_pos])).imp fun _ h => ⟨h.1, h.2.1⟩⟩

/-! ### Rounding error of sums of squares -/

/-- Rounding of a non-negative exact result below `2 ^ 127`. -/
theorem rnd_nonneg_error (t : ℚ) (h0 : 0 ≤ t) (h1 : t ≤ (2 : ℚ) ^ (127 : ℤ)) :
    ∃ s : ℚ, rnd t = F32.fin s ∧ 0 ≤ s ∧
      |s - t| ≤ (2 : ℚ) ^ (-24 : ℤ) * t + (2 : ℚ) ^ (-150 : ℤ) := by
  obtain ⟨s, hs, herr, hpos, -⟩ := rnd_error t (by rw [abs_of_nonneg h0]; exact h1)
  simp only [Rat.cast_id, abs_of_nonneg h0] at herr
  exact ⟨s, hs, hpos h0, herr⟩

/-- From an error bound to an upper bound. -/
theorem le_of_abs_sub_le {s t e : ℚ} (h : |s - t| ≤ e) : s ≤ t + e ∧ t - e ≤ s := by
  rw [abs_le] at h
  constructor <;> linarith [h.1, h.2]

/-- The binary32 sum of two squares against the exact one. -/
theorem sumsq2_error (x y : ℚ) (hx : |x| ≤ (2 : ℚ) ^ (60 : ℤ)) (hy : |y| ≤ (2 : ℚ) ^ (60 : ℤ)) :
    ∃ S : ℚ, F32.fin x * F32.fin x + F32.fin y * F32.fin y = F32.fin S ∧ 0 ≤ S ∧
      |S - (x * x + y * y)| ≤ 1 / 2000000 * (x * x + y * y) + (2 : ℚ) ^ (-147 : ℤ) := by
  obtain ⟨u, hu⟩ : ∃ u : ℚ, u = (2 : ℚ) ^ (-24 : ℤ) := ⟨_, rfl⟩
  obtain ⟨η, hη⟩ : ∃ η : ℚ, η = (2 : ℚ) ^ (-150 : ℤ) := ⟨_, rfl⟩
  have hu0 : 0 ≤ u := by rw [hu]; positivity
  have hu1 : u ≤ 1 / 16000000 := by rw [hu]; norm_num
  have hη0 : 0 ≤ η := by rw [hη]; positivity
  have hη1 : η ≤ 1 := by rw [hη]; norm_num
  have e147 : (2 : ℚ) ^ (-147 : ℤ) = 8 * η := by rw [hη]; norm_num
  have sq_le : ∀ w : ℚ, |w| ≤ (2 : ℚ) ^ (60 : ℤ) → w * w ≤ (2 : ℚ) ^ (120 : ℤ) := by
    intro w hw
    have h := mul_le_mul hw hw (abs_nonneg _) (by positivity)
    rw [abs_mul_abs_self] at h
    refine le_trans h ?_
    norm_num
  have hX0 : 0 ≤ x * x := mul_self_nonneg x
  have hY0 : 0 ≤ y * y := mul_self_nonneg y
  have hX1 := sq_le x hx
  have hY1 := sq_le y hy
  obtain ⟨a, ha, ha0, haerr⟩ := rnd_nonneg_error (x * x) hX0 (le_trans hX1 (by norm_num))
  obtain ⟨b, hb, hb0, hberr⟩ := rnd_nonneg_error (y * y) hY0 (le_trans hY1 (by norm_num))
  rw [← hu, ← hη] at haerr hberr
  obtain ⟨ha1, -⟩ := le_of_abs_sub_le haerr
  obtain ⟨hb1, -⟩ := le_of_abs_sub_le hberr
  have huX : u * (x * x) ≤ 1 / 16000000 * (x * x) := mul_le_mul_of_nonneg_right hu1 hX0
  have huY : u * (y * y) ≤ 1 / 16000000 * (y * y) := mul_le_mul_of_nonneg_right hu1 hY0
  have hab : a + b ≤ (2 : ℚ) ^ (127 : ℤ) := by
    have h2 : (2 : ℚ) ^ (120 : ℤ) + (2 : ℚ) ^ (120 : ℤ) + (2 : ℚ) ^ (120 : ℤ) + 2
        ≤ (2 : ℚ) ^ (127 : ℤ) := by norm_num
    linarith
  obtain ⟨S, hS, hS0, hSerr⟩ := rnd_nonneg_error (a + b) (by linarith) hab
  rw [← hu, ← hη] at hSerr
  refine ⟨S, ?_, hS0, ?_⟩
  · rw [fin_mul_fin, fin_mul_fin, ha, hb, fin_add_fin, hS]
  · rw [e147]
    have huab : u * (a + b) ≤ 1 / 16000000 * (a + b) :=
      mul_le_mul_of_nonneg_right hu1 (by linarith)
    have htri : |S - (x * x + y * y)| ≤ |S - (a + b)| + |a - x * x| + |b - y * y| := by
      have h1 := abs_add (S - (a + b)) (a - x * x)
      have h2 := abs_add (S - (a + b) + (a - x * x)) (b - y * y)
      have e : S - (a + b) + (a - x * x) + (b - y * y) = S - (x * x + y * y) := by ring
      rw [e] at h2
      linarith
    linarith

/-- The binary32 sum of three squares, added left to right as in
`LengthSquared()`, against the exact one. -/
theorem sumsq3_error (x y z : ℚ) (hx : |x| ≤ (2 : ℚ) ^ (60 : ℤ))
    (hy : |y| ≤ (2 : ℚ) ^ (60 : ℤ)) (hz : |z| ≤ (2 : ℚ) ^ (60 : ℤ)) :
    ∃ S : ℚ, F32.fin x * F32.fin x + F32.fin y * F32.fin y + F32.fin z * F32.fin z
        = F32.fin S ∧ 0 ≤ S ∧
      |S - (x * x + y * y + z * z)|
        ≤ 1 / 1000000 * (x * x + y * y + z * z) + (2 : ℚ) ^ (-146 : ℤ) := by
  obtain ⟨u, hu⟩ : ∃ u : ℚ, u = (2 : ℚ) ^ (-24 : ℤ) := ⟨_, rfl⟩
  obtain ⟨η, hη⟩ : ∃ η : ℚ, η = (2 : ℚ) ^ (-150 : ℤ) := ⟨_, rfl⟩
  have hu0 : 0 ≤ u := by rw [hu]; positivity
  have hu1 : u ≤ 1 / 16000000 := by rw [hu]; norm_num
  have hη0 : 0 ≤ η := by rw [hη]; positivity
  have e147 : (2 : ℚ) ^ (-147 : ℤ) = 8 * η := by rw [hη]; norm_num
  have e146 : (2 : ℚ) ^ (-146 : ℤ) = 16 * η := by rw [hη]; norm_num
  have hZ0 : 0 ≤ z * z := mul_self_nonneg z
  have hX0 : 0 ≤ x * x := mul_self_nonneg x
  have hY0 : 0 ≤ y * y := mul_self_nonneg y
  have hZ1 : z * z ≤ (2 : ℚ) ^ (120 : ℤ) := by
    have h := mul_le_mul hz hz (abs_nonneg _) (by positivity)
    rw [abs_mul_abs_self] at h
    refine le_trans h ?_
    norm_num
  have hXY1 : x * x + y * y ≤ (2 : ℚ) ^ (121 : ℤ) := by
    have h1 := mul_le_mul hx hx (abs_nonneg _) (by positivity)
    have h2 := mul_le_mul hy hy (abs_nonneg _) (by positivity)
    rw [abs_mul_abs_self] at h1 h2
    have h3 : (2 : ℚ) ^ (60 : ℤ) * (2 : ℚ) ^ (60 : ℤ) + (2 : ℚ) ^ (60 : ℤ) * (2 : ℚ) ^ (60 : ℤ)
        ≤ (2 : ℚ) ^ (121 : ℤ) := by norm_num
    linarith
  obtain ⟨s, hs, hs0, hserr⟩ := sumsq2_error x y hx hy
  rw [e147] at hserr
  obtain ⟨c, hc, hc0, hcerr⟩ := rnd_nonneg_error (z * z) hZ0 (le_trans hZ1 (by norm_num))
  rw [← hu, ← hη] at hcerr
  obtain ⟨hs1, -⟩ := le_of_abs_sub_le hserr
  obtain ⟨hc1, -⟩ := le_of_abs_sub_le hcerr
  have huZ : u * (z * z) ≤ 1 / 16000000 * (z * z) := mul_le_mul_of_nonneg_right hu1 hZ0
  have hη1 : η ≤ 1 := by rw [hη]; norm_num
  have hsc : s + c ≤ (2 : ℚ) ^ (127 : ℤ) := by
    have h2 : (2 : ℚ) ^ (121 : ℤ) + (2 : ℚ) ^ (121 : ℤ) + (2 : ℚ) ^ (120 : ℤ)
        + (2 : ℚ) ^ (120 : ℤ) + 9 ≤ (2 : ℚ) ^ (127 : ℤ) := by norm_num
    linarith
  obtain ⟨S, hS, hS0, hSerr⟩ := rnd_nonneg_error (s + c) (by linarith) hsc
  rw [← hu, ← hη] at hSerr
  refine ⟨S, ?_, hS0, ?_⟩
  · rw [hs, fin_mul_fin, hc, fin_add_fin, hS]
  · rw [e146]
    have husc : u * (s + c) ≤ 1 / 16000000 * (s + c) :=
      mul_le_mul_of_nonneg_right hu1 (by linarith)
    have htri : |S - (x * x + y * y + z * z)|
        ≤ |S - (s + c)| + |s - (x * x + y * y)| + |c - z * z| := by
      have h1 := abs_add (S - (s + c)) (s - (x * x + y * y))
      have h2 := abs_add (S - (s + c) + (s - (x * x + y * y))) (c - z * z)
      have e : S - (s + c) + (s - (x * x + y * y)) + (c - z * z)
          = S - (x * x + y * y + z * z) := by ring
      rw [e] at h2
      linarith
    linarith

/-! ### Rounding error of the square root and of the reciprocal -/

/-- The binary32 square root of a non-negative value: small below the normal
range, and with a relative error on the square inside it. -/
theorem sqrt_error (S : ℚ) (h0 : 0 ≤ S) (h1 : S ≤ (2 : ℚ) ^ (124 : ℤ)) :
    ∃ L : ℚ, F32.sqrt (F32.fin S) = F32.fin L ∧ 0 ≤ L ∧
      (S < (2 : ℚ) ^ (-122 : ℤ) → L ≤ (2 : ℚ) ^ (-60 : ℤ)) ∧
      ((2 : ℚ) ^ (-122 : ℤ) ≤ S → 0 < L ∧ |L * L - S| ≤ 1 / 5000000 * S) := by
  obtain ⟨r, hr⟩ : ∃ r : ℝ, r = Real.sqrt (S : ℝ) := ⟨_, rfl⟩
  have hS0 : (0 : ℝ) ≤ (S : ℝ) := by exact_mod_cast h0
  have hr0 : 0 ≤ r := by rw [hr]; exact Real.sqrt_nonneg _
  have hrr : r * r = (S : ℝ) := by rw [hr]; exact Real.mul_self_sqrt hS0
  have hr1 : r ≤ (2 : ℝ) ^ (62 : ℤ) := by
    rw [hr, Real.sqrt_le_iff]
    refine ⟨by positivity, ?_⟩
    have : ((2 : ℚ) ^ (124 : ℤ) : ℝ) = ((2 : ℝ) ^ (62 : ℤ)) ^ 2 := by norm_num
    rw [← this]
    exact_mod_cast h1
  obtain ⟨y, hy, herr, hpos, -⟩ := rnd_error r
    (by rw [abs_of_nonneg hr0]; exact le_trans hr1 (by norm_num))
  rw [abs_of_nonneg hr0] at herr
  obtain ⟨u, hu⟩ : ∃ u : ℝ, u = (2 : ℝ) ^ (-24 : ℤ) := ⟨_, rfl⟩
  obtain ⟨η, hη⟩ : ∃ η : ℝ, η = (2 : ℝ) ^ (-150 : ℤ) := ⟨_, rfl⟩
  rw [← hu, ← hη] at herr
  have hu0 : 0 ≤ u := by rw [hu]; positivity
  have hu1 : u ≤ 6 / 100000000 := by rw [hu]; norm_num
  have hη0 : 0 ≤ η := by rw [hη]; positivity
  have hur : u * r ≤ 6 / 100000000 * r := mul_le_mul_of_nonneg_right hu1 hr0
  rw [abs_le] at herr
  refine ⟨y, ?_, hpos hr0, ?_, ?_⟩
  · show (if S < 0 then F32.nan else rnd (Real.sqrt (S : ℝ))) = F32.fin y
    rw [if_neg (not_lt.mpr h0), ← hr, hy]
  · intro hsmall
    have hrs : r < (2 : ℝ) ^ (-61 : ℤ) := by
      rw [hr, Real.sqrt_lt' (by positivity)]
      have : (((2 : ℚ) ^ (-122 : ℤ) : ℚ) : ℝ) = ((2 : ℝ) ^ (-61 : ℤ)) ^ 2 := by norm_num
      rw [← this]
      exact_mod_cast hsmall
    have hη2 : η ≤ (2 : ℝ) ^ (-62 : ℤ) := by rw [hη]; norm_num
    have e60 : (2 : ℝ) ^ (-60 : ℤ) = (2 : ℝ) ^ (-61 : ℤ) + 2 * (2 : ℝ) ^ (-62 : ℤ) := by norm_num
    have hy60 : (y : ℝ) ≤ (2 : ℝ) ^ (-60 : ℤ) := by
      rw [e60]
      have : (0:ℝ) < (2 : ℝ) ^ (-62 : ℤ) := by positivity
      have hrs2 : r ≤ 2 * (2 : ℝ) ^ (-62 : ℤ) := by
        have : (2 : ℝ) ^ (-61 : ℤ) = 2 * (2 : ℝ) ^ (-62 : ℤ) := by norm_num
        linarith
      linarith [herr.2]
    have : ((2 : ℚ) ^ (-60 : ℤ) : ℝ) = (2 : ℝ) ^ (-60 : ℤ) := by norm_num
    rw [← this] at hy60
    exact_mod_cast hy60
  · intro hnormal
    have hrs : (2 : ℝ) ^ (-61 : ℤ) ≤ r := by
      rw [hr]
      apply Real.le_sqrt_of_sq_le
      have : (((2 : ℚ) ^ (-122 : ℤ) : ℚ) : ℝ) = ((2 : ℝ) ^ (-61 : ℤ)) ^ 2 := by norm_num
      rw [← this]
      exact_mod_cast hnormal
    have hrpos : 0 < r := lt_of_lt_of_le (by positivity) hrs
    have hηr : η ≤ 1 / 100000000 * r := by
      have h3 : η ≤ 1 / 100000000 * (2 : ℝ) ^ (-61 : ℤ) := by rw [hη]; norm_num
      have h4 : 1 / 100000000 * (2 : ℝ) ^ (-61 : ℤ) ≤ 1 / 100000000 * r :=
        mul_le_mul_of_nonneg_left hrs (by norm_num)
      linarith
    have hlo : (1 - 7 / 100000000) * r ≤ (y : ℝ) := by linarith [herr.1]
    have hhi : (y : ℝ) ≤ (1 + 7 / 100000000) * r := by linarith [herr.2]
    have hypos : (0 : ℝ) < (y : ℝ) := lt_of_lt_of_le (by positivity) hlo
    have hsq : |(y : ℝ) * y - S| ≤ 1 / 5000000 * (S : ℝ) := by
      rw [← hrr, abs_le]
      constructor
      · nlinarith [mul_le_mul hlo hlo (by positivity) hypos.le, mul_pos hrpos hrpos]
      · nlinarith [mul_le_mul hhi hhi hypos.le (by positivity), mul_pos hrpos hrpos]
    refine ⟨by exact_mod_cast hypos, ?_⟩
    have hc : ((|y * y - S| : ℚ) : ℝ) ≤ ((1 / 5000000 * S : ℚ) : ℝ) := by
      push_cast
      exact hsq
    exact Rat.cast_le.mp hc

/-- The binary32 reciprocal `1 / L` of a positive value of moderate size. -/
theorem recip_error (L : ℚ) (h0 : (2 : ℚ) ^ (-62 : ℤ) ≤ L) (h1 : L ≤ (2 : ℚ) ^ (62 : ℤ)) :
    ∃ i : ℚ, lit 1 / F32.fin L = F32.fin i ∧ 0 < i ∧ |i * L - 1| ≤ 1 / 10000000 := by
  have hL : 0 < L := lt_of_lt_of_le (by positivity) h0
  have hinv0 : 0 < 1 / L := by positivity
  have hinv1 : 1 / L ≤ (2 : ℚ) ^ (62 : ℤ) := by
    rw [div_le_iff₀ hL]
    have : (1 : ℚ) = (2 : ℚ) ^ (62 : ℤ) * (2 : ℚ) ^ (-62 : ℤ) := by norm_num
    rw [this]
    exact mul_le_mul_of_nonneg_left h0 (by positivity)
  obtain ⟨i, hi, hi0, herr⟩ := rnd_nonneg_error (1 / L) hinv0.le (le_trans hinv1 (by norm_num))
  obtain ⟨u, hu⟩ : ∃ u : ℚ, u = (2 : ℚ) ^ (-24 : ℤ) := ⟨_, rfl⟩
  obtain ⟨η, hη⟩ : ∃ η : ℚ, η = (2 : ℚ) ^ (-150 : ℤ) := ⟨_, rfl⟩
  rw [← hu, ← hη] at herr
  have hu1 : u ≤ 6 / 100000000 := by rw [hu]; norm_num
  have hηL : η * L ≤ 1 / 100000000 := by
    have h3 : η * L ≤ η * (2 : ℚ) ^ (62 : ℤ) :=
      mul_le_mul_of_nonneg_left h1 (by rw [hη]; positivity)
    have h4 : η * (2 : ℚ) ^ (62 : ℤ) ≤ 1 / 100000000 := by rw [hη]; norm_num
    linarith
  have hmul : |i * L - 1| ≤ u + η * L := by
    have e : i * L - 1 = (i - 1 / L) * L := by field_simp
    rw [e, abs_mul, abs_of_pos hL]
    calc |i - 1 / L| * L ≤ (u * (1 / L) + η) * L := mul_le_mul_of_nonneg_right herr hL.le
      _ = u + η * L := by field_simp
  have hb : |i * L - 1| ≤ 1 / 10000000 := by linarith
  refine ⟨i, ?_, ?_, hb⟩
  · rw [lit_one, fin_div_fin 1 L hL.ne', hi]
  · rw [abs_le] at hb
    have : 0 < i * L := by linarith [hb.1]
    exact (pos_iff_pos_of_mul_pos this).mpr hL

/-! ### The length of a scaled vector -/

/-- One component of a vector scaled to about unit length: the square of the
rounded product against the square of the exact one. -/
theorem scaled_component (x i : ℚ) (h : (x * i) * (x * i) ≤ 6 / 5) :
    ∃ r : ℚ, F32.fin x * F32.fin i = F32.fin r ∧ |r| ≤ (2 : ℚ) ^ (60 : ℤ) ∧
      |r * r - (x * i) * (x * i)| ≤ 1 / 5000000 := by
  obtain ⟨p, hp⟩ : ∃ p : ℚ, p = x * i := ⟨_, rfl⟩
  rw [← hp] at h ⊢
  have hp1 : |p| ≤ 11 / 10 := by
    apply abs_le_of_sq_le_sq _ (by norm_num)
    rw [sq]
    exact le_trans h (by norm_num)
  obtain ⟨r, hr, herr, -, -⟩ := rnd_error p (le_trans hp1 (by norm_num))
  obtain ⟨u, hu⟩ : ∃ u : ℚ, u = (2 : ℚ) ^ (-24 : ℤ) := ⟨_, rfl⟩
  obtain ⟨η, hη⟩ : ∃ η : ℚ, η = (2 : ℚ) ^ (-150 : ℤ) := ⟨_, rfl⟩
  simp only [Rat.cast_id] at herr
  rw [← hu, ← hη] at herr
  have hu0 : 0 ≤ u := by rw [hu]; positivity
  have hu1 : u ≤ 6 / 100000000 := by rw [hu]; norm_num
  have hη1 : η ≤ 1 / 1000000000 := by rw [hη]; norm_num
  have hup : u * |p| ≤ 6 / 100000000 * (11 / 10) := mul_le_mul hu1 hp1 (abs_nonneg _) (by norm_num)
  have he : |r - p| ≤ 7 / 100000000 := by linarith
  have hr1 : |r| ≤ 12 / 10 := by
    have h1 := abs_add (r - p) p
    rw [sub_add_cancel] at h1
    linarith
  refine ⟨r, by rw [fin_mul_fin, ← hp, hr], le_trans hr1 (by norm_num), ?_⟩
  have e : r * r - p * p = (r - p) * (r + p) := by ring
  rw [e, abs_mul]
  have h2 : |r + p| ≤ 23 / 10 := le_trans (abs_add r p) (by linarith)
  calc |r - p| * |r + p| ≤ 7 / 100000000 * (23 / 10) :=
        mul_le_mul he h2 (abs_nonneg _) (by norm_num)
    _ ≤ 1 / 5000000 := by norm_num

/-- The binary32 square root of a value close to one is close to one. -/
theorem sqrt_near_one (S α : ℚ) (h0 : 0 ≤ α) (h1 : α ≤ 1 / 10)
    (h : |S - 1| ≤ α + 1 / 500000) :
    ∃ n : ℚ, F32.sqrt (F32.fin S) = F32.fin n ∧ |n - 1| ≤ α + 1 / 100000 := by
  rw [abs_le] at h
  have hS0 : (8 : ℚ) / 10 ≤ S := by linarith [h.1]
  have hS1 : S ≤ 12 / 10 := by linarith [h.2]
  obtain ⟨n, hn, -, -, hnorm⟩ := sqrt_error S (by linarith) (le_trans hS1 (by norm_num))
  obtain ⟨hnpos, herr⟩ := hnorm (le_trans (by norm_num) hS0)
  refine ⟨n, hn, ?_⟩
  rw [abs_le] at herr
  have hsq : |n * n - 1| ≤ α + 3 / 1000000 := by
    rw [abs_le]
    constructor <;> linarith [herr.1, herr.2]
  have e : n * n - 1 = (n - 1) * (n + 1) := by ring
  rw [e, abs_mul, abs_of_pos (by linarith : 0 < n + 1)] at hsq
  have : |n - 1| ≤ |n - 1| * (n + 1) := by
    have := mul_le_mul_of_nonneg_left (by linarith : (1 : ℚ) ≤ n + 1) (abs_nonneg (n - 1))
    linarith
  linarith

/-- `Length()` of a vector whose components were multiplied by a scale `i`
with `i² · (x² + y² + z²)` close to one. -/
theorem length_scaled3 (x y z i α : ℚ) (h0 : 0 ≤ α) (h1 : α ≤ 1 / 10)
    (h : |i * i * (x * x + y * y + z * z) - 1| ≤ α) :
    ∃ n : ℚ, Vector.Length ⟨F32.fin x * F32.fin i, F32.fin y * F32.fin i, F32.fin z * F32.fin i⟩
        = F32.fin n ∧ |n - 1| ≤ α + 1 / 100000 := by
  rw [abs_le] at h
  have hsum : (x * i) * (x * i) + (y * i) * (y * i) + (z * i) * (z * i)
      = i * i * (x * x + y * y + z * z) := by ring
  have hX := mul_self_nonneg (x * i)
  have hY := mul_self_nonneg (y * i)
  have hZ := mul_self_nonneg (z * i)
  obtain ⟨a, ha, ha1, haerr⟩ := scaled_component x i (by linarith [h.2])
  obtain ⟨b, hb, hb1, hberr⟩ := scaled_component y i (by linarith [h.2])
  obtain ⟨c, hc, hc1, hcerr⟩ := scaled_component z i (by linarith [h.2])
  obtain ⟨S, hS, -, hSerr⟩ := sumsq3_error a b c ha1 hb1 hc1
  rw [abs_le] at haerr hberr hcerr hSerr
  have hη : (2 : ℚ) ^ (-146 : ℤ) ≤ 1 / 10000000 := by norm_num
  obtain ⟨n, hn, hnerr⟩ := sqrt_near_one S α h0 h1 (by
    rw [abs_le]
    constructor <;> linarith [haerr.1, haerr.2, hberr.1, hberr.2, hcerr.1, hcerr.2,
      hSerr.1, hSerr.2])
  refine ⟨n, ?_, hnerr⟩
  show F32.sqrt (F32.fin x * F32.fin i * (F32.fin x * F32.fin i)
    + F32.fin y * F32.fin i * (F32.fin y * F32.fin i)
    + F32.fin z * F32.fin i * (F32.fin z * F32.fin i)) = F32.fin n
  rw [ha, hb, hc, hS, hn]

/-- `Vector2D::Length()` of a 2D vector whose components were multiplied by
a scale `i` with `i² · (x² + y²)` close to one. -/
theorem length_scaled2 (x y i α : ℚ) (h0 : 0 ≤ α) (h1 : α ≤ 1 / 10)
    (h : |i * i * (x * x + y * y) - 1| ≤ α) :
    ∃ n : ℚ, Vector2D.Length ⟨F32.fin x * F32.fin i, F32.fin y * F32.fin i⟩
        = F32.fin n ∧ |n - 1| ≤ α + 1 / 100000 := by
  rw [abs_le] at h
  have hsum : (x * i) * (x * i) + (y * i) * (y * i) = i * i * (x * x + y * y) := by ring
  have hX := mul_self_nonneg (x * i)
  have hY := mul_self_nonneg (y * i)
  obtain ⟨a, ha, ha1, haerr⟩ := scaled_component x i (by linarith [h.2])
  obtain ⟨b, hb, hb1, hberr⟩ := scaled_component y i (by linarith [h.2])
  obtain ⟨S, hS, -, hSerr⟩ := sumsq2_error a b ha1 hb1
  rw [abs_le] at haerr hberr hSerr
  have hη : (2 : ℚ) ^ (-147 : ℤ) ≤ 1 / 10000000 := by norm_num
  obtain ⟨n, hn, hnerr⟩ := sqrt_near_one S α h0 h1 (by
    rw [abs_le]
    constructor <;> linarith [haerr.1, haerr.2, hberr.1, hberr.2, hSerr.1, hSerr.2])
  refine ⟨n, ?_, hnerr⟩
  show F32.sqrt (F32.fin x * F32.fin i * (F32.fin x * F32.fin i)
    + F32.fin y * F32.fin i * (F32.fin y * F32.fin i)) = F32.fin n
  rw [ha, hb, hS, hn]

/-! ### `Normalize()` in binary32 -/

/-- A scale `i` close to `1 / m` applied to a vector whose exact squared
length `T` is close to `m²`. -/
theorem scale_sq_close (T m i β : ℚ) (hβ0 : 0 ≤ β) (hβ1 : β ≤ 1 / 1000)
    (hTm : |T - m * m| ≤ β * (m * m)) (him : |i * m - 1| ≤ 1 / 10000000) :
    |i * i * T - 1| ≤ β + 1 / 1000000 := by
  obtain ⟨q, hq⟩ : ∃ q : ℚ, q = i * m := ⟨_, rfl⟩
  rw [← hq] at him
  have hqq : i * i * (m * m) = q * q := by rw [hq]; ring
  have him2 := abs_le.mp him
  have hq1 : |q * q - 1| ≤ 3 / 10000000 := by
    have e : q * q - 1 = (q - 1) * (q + 1) := by ring
    rw [e, abs_mul]
    have h2 : |q + 1| ≤ 21 / 10 := by
      rw [abs_le]
      constructor <;> linarith [him2.1, him2.2]
    calc |q - 1| * |q + 1| ≤ 1 / 10000000 * (21 / 10) :=
          mul_le_mul him h2 (abs_nonneg _) (by norm_num)
      _ ≤ 3 / 10000000 := by norm_num
  have hq2 := abs_le.mp hq1
  have h3 : |i * i * (T - m * m)| ≤ β * (q * q) := by
    rw [abs_mul, abs_of_nonneg (mul_self_nonneg i)]
    calc i * i * |T - m * m| ≤ i * i * (β * (m * m)) :=
          mul_le_mul_of_nonneg_left hTm (mul_self_nonneg i)
      _ = β * (q * q) := by rw [← hqq]; ring
  have h4 : β * (q * q) ≤ β * (1 + 3 / 10000000) :=
    mul_le_mul_of_nonneg_left (by linarith [hq2.2]) hβ0
  have e : i * i * T - 1 = i * i * (T - m * m) + (q * q - 1) := by rw [← hqq]; ring
  rw [e]
  refine le_trans (abs_add _ _) ?_
  linarith

/-- A positive value whose square is in `[2 ^ (-122), 2 ^ 123]` is in
`[2 ^ (-62), 2 ^ 62]`. -/
theorem sq_range (L : ℚ) (hL : 0 < L) (hlo : (2 : ℚ) ^ (-122 : ℤ) ≤ L * L)
    (hhi : L * L ≤ (2 : ℚ) ^ (123 : ℤ)) :
    (2 : ℚ) ^ (-62 : ℤ) ≤ L ∧ L ≤ (2 : ℚ) ^ (62 : ℤ) := by
  constructor
  · rw [mul_self_le_mul_self_iff (by positivity) hL.le]
    exact le_trans (by norm_num) hlo
  · rw [mul_self_le_mul_self_iff hL.le (by positivity)]
    exact le_trans hhi (by norm_num)

/-- The squared length is at most `3 · 2 ^ 120` for components up to `2 ^ 60`. -/
theorem sumsq_le (x y z : ℚ) (hx : |x| ≤ (2 : ℚ) ^ (60 : ℤ))
    (hy : |y| ≤ (2 : ℚ) ^ (60 : ℤ)) (hz : |z| ≤ (2 : ℚ) ^ (60 : ℤ)) :
    x * x + y * y + z * z ≤ 3 * (2 : ℚ) ^ (120 : ℤ) := by
  have h1 := mul_le_mul hx hx (abs_nonneg _) (by positivity)
  have h2 := mul_le_mul hy hy (abs_nonneg _) (by positivity)
  have h3 := mul_le_mul hz hz (abs_nonneg _) (by positivity)
  rw [abs_mul_abs_self] at h1 h2 h3
  have e : (2 : ℚ) ^ (60 : ℤ) * (2 : ℚ) ^ (60 : ℤ) = (2 : ℚ) ^ (120 : ℤ) := by norm_num
  rw [e] at h1 h2 h3
  linarith

/-- A component of magnitude at least `2 ^ (-60)` has a square of at least
`2 ^ (-120)`. -/
theorem sq_ge_of_abs_ge (x : ℚ) (hx : (2 : ℚ) ^ (-60 : ℤ) ≤ |x|) :
    (2 : ℚ) ^ (-120 : ℤ) ≤ x * x := by
  have h1 := mul_le_mul hx hx (by positivity) (abs_nonneg _)
  rw [abs_mul_abs_self] at h1
  refine le_trans ?_ h1
  norm_num

/-- From the rounded sum of squares `S` and the rounded root `L` to the
reciprocal: for an exact squared length `T` in the normal range, the scale
`i = 1 / L` satisfies `i² · T ≈ 1`. -/
theorem reciprocal_length_scale (T S : ℚ) (hT0 : (2 : ℚ) ^ (-120 : ℤ) ≤ T)
    (hT1 : T ≤ 3 * (2 : ℚ) ^ (120 : ℤ)) (hS0 : 0 ≤ S)
    (hS : |S - T| ≤ 1 / 1000000 * T + (2 : ℚ) ^ (-146 : ℤ)) :
    ∃ L i : ℚ, F32.sqrt (F32.fin S) = F32.fin L ∧ 0 < L ∧
      lit 1 / F32.fin L = F32.fin i ∧ 0 < i ∧ |i * i * T - 1| ≤ 3 / 1000000 := by
  obtain ⟨P, hP⟩ : ∃ P : ℚ, P = (2 : ℚ) ^ (-120 : ℤ) := ⟨_, rfl⟩
  obtain ⟨Q, hQ⟩ : ∃ Q : ℚ, Q = (2 : ℚ) ^ (120 : ℤ) := ⟨_, rfl⟩
  have hP0 : 0 < P := by rw [hP]; positivity
  have hQ0 : 0 < Q := by rw [hQ]; positivity
  have e146 : (2 : ℚ) ^ (-146 : ℤ) ≤ 1 / 10000000 * P := by rw [hP]; norm_num
  have e122 : (2 : ℚ) ^ (-122 : ℤ) = 1 / 4 * P := by rw [hP]; norm_num
  have e124 : (2 : ℚ) ^ (124 : ℤ) = 16 * Q := by rw [hQ]; norm_num
  have e123 : (2 : ℚ) ^ (123 : ℤ) = 8 * Q := by rw [hQ]; norm_num
  rw [← hP] at hT0
  rw [← hQ] at hT1
  have hS2 := abs_le.mp hS
  have hSlo : (2 : ℚ) ^ (-122 : ℤ) ≤ S := by rw [e122]; linarith [hS2.1]
  have hShi : S ≤ (2 : ℚ) ^ (124 : ℤ) := by rw [e124]; linarith [hS2.2]
  obtain ⟨L, hL, -, -, hnorm⟩ := sqrt_error S hS0 hShi
  obtain ⟨hLpos, hLerr⟩ := hnorm hSlo
  have hL2 := abs_le.mp hLerr
  obtain ⟨hLlo, hLhi⟩ := sq_range L hLpos (by rw [e122]; linarith [hL2.1, hS2.1])
    (by rw [e123]; linarith [hL2.2, hS2.2])
  obtain ⟨i, hi, hipos, hierr⟩ := recip_error L hLlo hLhi
  refine ⟨L, i, hL, hLpos, hi, hipos, ?_⟩
  have hTL : |T - L * L| ≤ 2 / 1000000 * (L * L) := by
    rw [abs_le]
    constructor <;> linarith [hL2.1, hL2.2, hS2.1, hS2.2]
  have := scale_sq_close T L i (2 / 1000000) (by norm_num) (by norm_num) hTL hierr
  linarith

/-- `Normalize()` on finite components of moderate size: the scalar facts. -/
theorem Normalize_scalars3 (x y z : ℚ) (hx : |x| ≤ (2 : ℚ) ^ (60 : ℤ))
    (hy : |y| ≤ (2 : ℚ) ^ (60 : ℤ)) (hz : |z| ≤ (2 : ℚ) ^ (60 : ℤ))
    (hT : (2 : ℚ) ^ (-120 : ℤ) ≤ x * x + y * y + z * z) :
    ∃ L i n : ℚ, Vector.Length ⟨F32.fin x, F32.fin y, F32.fin z⟩ = F32.fin L ∧ 0 < L ∧
      lit 1 / F32.fin L = F32.fin i ∧ 0 < i ∧
      Vector.Length ⟨F32.fin x * F32.fin i, F32.fin y * F32.fin i, F32.fin z * F32.fin i⟩
        = F32.fin n ∧ |n - 1| ≤ 1 / 50000 := by
  obtain ⟨S, hS, hS0, hSerr⟩ := sumsq3_error x y z hx hy hz
  obtain ⟨L, i, hL, hLpos, hi, hipos, hiT⟩ :=
    reciprocal_length_scale _ S hT (sumsq_le x y z hx hy hz) hS0 hSerr
  obtain ⟨n, hn, hnerr⟩ := length_scaled3 x y z i (3 / 1000000) (by norm_num) (by norm_num) hiT
  refine ⟨L, i, n, ?_, hLpos, hi, hipos, hn, le_trans hnerr (by norm_num)⟩
  show F32.sqrt (F32.fin x * F32.fin x + F32.fin y * F32.fin y + F32.fin z * F32.fin z) = _
  rw [hS, hL]

/-- `Vector2D::Normalize()` on finite components of moderate size: the
scalar facts. -/
theorem Normalize_scalars2 (x y : ℚ) (hx : |x| ≤ (2 : ℚ) ^ (60 : ℤ))
    (hy : |y| ≤ (2 : ℚ) ^ (60 : ℤ)) (hT : (2 : ℚ) ^ (-120 : ℤ) ≤ x * x + y * y) :
    ∃ L i n : ℚ, Vector2D.Length ⟨F32.fin x, F32.fin y⟩ = F32.fin L ∧ 0 < L ∧
      lit 1 / F32.fin L = F32.fin i ∧ 0 < i ∧
      Vector2D.Length ⟨F32.fin x * F32.fin i, F32.fin y * F32.fin i⟩ = F32.fin n ∧
      |n - 1| ≤ 1 / 50000 := by
  obtain ⟨S, hS, hS0, hSerr⟩ := sumsq2_error x y hx hy
  have hle := sumsq_le x y 0 hx hy (by rw [abs_zero]; positivity)
  simp only [mul_zero, add_zero] at hle
  have hη : (2 : ℚ) ^ (-147 : ℤ) ≤ (2 : ℚ) ^ (-146 : ℤ) := by norm_num
  obtain ⟨L, i, hL, hLpos, hi, hipos, hiT⟩ :=
    reciprocal_length_scale _ S hT hle hS0
      (le_trans hSerr (by linarith [mul_self_nonneg x, mul_self_nonneg y]))
  obtain ⟨n, hn, hnerr⟩ := length_scaled2 x y i (3 / 1000000) (by norm_num) (by norm_num) hiT
  refine ⟨L, i, n, ?_, hLpos, hi, hipos, hn, le_trans hnerr (by norm_num)⟩
  show F32.sqrt (F32.fin x * F32.fin x + F32.fin y * F32.fin y) = _
  rw [hS, hL]

/-- Claim C5 (as the code has it, in binary32): for every `Vector` with
finite components of magnitude at most `2 ^ 60`, one of them at least
`2 ^ (-60)`, `Length()` is a positive finite value `L`, `1 / Length()` is a
positive finite value `i`, `Normalize()` is the vector with each component
multiplied by `i`, and the `Length()` of the result is within `0.00002` of
`1.0`, hence within `kFloatEqualEpsilon`.  Likewise for every `Vector2D` with
components in that range and `Vector2D::Normalize()`. -/
theorem Normalize_unit32 (x y z a b : ℚ)
    (hx : |x| ≤ (2 : ℚ) ^ (60 : ℤ)) (hy : |y| ≤ (2 : ℚ) ^ (60 : ℤ))
    (hz : |z| ≤ (2 : ℚ) ^ (60 : ℤ))
    (hv : (2 : ℚ) ^ (-60 : ℤ) ≤ |x| ∨ (2 : ℚ) ^ (-60 : ℤ) ≤ |y| ∨ (2 : ℚ) ^ (-60 : ℤ) ≤ |z|)
    (ha : |a| ≤ (2 : ℚ) ^ (60 : ℤ)) (hb : |b| ≤ (2 : ℚ) ^ (60 : ℤ))
    (hw : (2 : ℚ) ^ (-60 : ℤ) ≤ |a| ∨ (2 : ℚ) ^ (-60 : ℤ) ≤ |b|) :
    (∃ L i n : ℚ, (⟨F32.fin x, F32.fin y, F32.fin z⟩ : Vector).Length = F32.fin L ∧ 0 < L ∧
      lit 1 / (⟨F32.fin x, F32.fin y, F32.fin z⟩ : Vector).Length = F32.fin i ∧ 0 < i ∧
      (⟨F32.fin x, F32.fin y, F32.fin z⟩ : Vector).Normalize
        = (⟨F32.fin x, F32.fin y, F32.fin z⟩ : Vector).operator_mul (F32.fin i) ∧
      (⟨F32.fin x, F32.fin y, F32.fin z⟩ : Vector).Normalize.Length = F32.fin n ∧
      |n - 1| ≤ 1 / 50000) ∧
    (∃ L i n : ℚ, (⟨F32.fin a, F32.fin b⟩ : Vector2D).Length = F32.fin L ∧ 0 < L ∧
      lit 1 / (⟨F32.fin a, F32.fin b⟩ : Vector2D).Length = F32.fin i ∧ 0 < i ∧
      (⟨F32.fin a, F32.fin b⟩ : Vector2D).Normalize
        = (⟨F32.fin a, F32.fin b⟩ : Vector2D).operator_mul (F32.fin i) ∧
      (⟨F32.fin a, F32.fin b⟩ : Vector2D).Normalize.Length = F32.fin n ∧
      |n - 1| ≤ 1 / 50000) := by
  have hT3 : (2 : ℚ) ^ (-120 : ℤ) ≤ x * x + y * y + z * z := by
    rcases hv with h | h | h
    · linarith [sq_ge_of_abs_ge x h, mul_self_nonneg y, mul_self_nonneg z]
    · linarith [sq_ge_of_abs_ge y h, mul_self_nonneg x, mul_self_nonneg z]
    · linarith [sq_ge_of_abs_ge z h, mul_self_nonneg x, mul_self_nonneg y]
  have hT2 : (2 : ℚ) ^ (-120 : ℤ) ≤ a * a + b * b := by
    rcases hw with h | h
    · linarith [sq_ge_of_abs_ge a h, mul_self_nonneg b]
    · linarith [sq_ge_of_abs_ge b h, mul_self_nonneg a]
  constructor
  · obtain ⟨L, i, n, hL, hLpos, hi, hipos, hn, hnerr⟩ := Normalize_scalars3 x y z hx hy hz hT3
    have hN : (⟨F32.fin x, F32.fin y, F32.fin z⟩ : Vector).Normalize
        = (⟨F32.fin x, F32.fin y, F32.fin z⟩ : Vector).operator_mul (F32.fin i) := by
      have hne : F32.eq (F32.fin L) (lit 0) = false := by
        rw [lit_zero, eq_fin_fin]
        exact decide_eq_false hLpos.ne'
      simp only [Vector.Normalize, hL, hne, hi, Vector.operator_mul]
      rfl
    refine ⟨L, i, n, hL, hLpos, by rw [hL, hi], hipos, hN, ?_, hnerr⟩
    rw [hN]
    exact hn
  · obtain ⟨L, i, n, hL, hLpos, hi, hipos, hn, hnerr⟩ := Normalize_scalars2 a b ha hb hT2
    have hN : (⟨F32.fin a, F32.fin b⟩ : Vector2D).Normalize
        = (⟨F32.fin a, F32.fin b⟩ : Vector2D).operator_mul (F32.fin i) := by
      have hne : F32.eq (F32.fin L) (lit 0) = false := by
        rw [lit_zero, eq_fin_fin]
        exact decide_eq_false hLpos.ne'
      simp only [Vector2D.Normalize, hL, hne, hi, Vector2D.operator_mul]
      rfl
    refine ⟨L, i, n, hL, hLpos, by rw [hL, hi], hipos, hN, ?_, hnerr⟩
    rw [hN]
    exact hn

/-- Witness of `Normalize_unit32` at the vectors `(3, 4, 12)` and `(3, 4)`. -/
theorem Normalize_unit32_witness :
    (∃ L i n : ℚ, (⟨F32.fin 3, F32.fin 4, F32.fin 12⟩ : Vector).Length = F32.fin L ∧ 0 < L ∧
      lit 1 / (⟨F32.fin 3, F32.fin 4, F32.fin 12⟩ : Vector).Length = F32.fin i ∧ 0 < i ∧
      (⟨F32.fin 3, F32.fin 4, F32.fin 12⟩ : Vector).Normalize
        = (⟨F32.fin 3, F32.fin 4, F32.fin 12⟩ : Vector).operator_mul (F32.fin i) ∧
      (⟨F32.fin 3, F32.fin 4, F32.fin 12⟩ : Vector).Normalize.Length = F32.fin n ∧
      |n - 1| ≤ 1 / 50000) ∧
    (∃ L i n : ℚ, (⟨F32.fin 3, F32.fin 4⟩ : Vector2D).Length = F32.fin L ∧ 0 < L ∧
      lit 1 / (⟨F32.fin 3, F32.fin 4⟩ : Vector2D).Length = F32.fin i ∧ 0 < i ∧
      (⟨F32.fin 3, F32.fin 4⟩ : Vector2D).Normalize
        = (⟨F32.fin 3, F32.fin 4⟩ : Vector2D).operator_mul (F32.fin i) ∧
      (⟨F32.fin 3, F32.fin 4⟩ : Vector2D).Normalize.Length = F32.fin n ∧
      |n - 1| ≤ 1 / 50000) :=
  Normalize_unit32 3 4 12 3 4 (by norm_num [abs_of_pos]) (by norm_num [abs_of_pos])
    (by norm_num [abs_of_pos]) (Or.inl (by norm_num [abs_of_pos]))
    (by norm_num [abs_of_pos]) (by norm_num [abs_of_pos]) (Or.inl (by norm_num [abs_of_pos]))

/-- Claim C5 fails as stated: the `Vector` `(2^70, 0, 0)` has finite
components and `Length()` is `+∞`, not zero (the square overflows), so
`Normalize()` takes the scaling path; the factor `1 / Length()` is `0`, not
positive, the result is `(0, 0, 0)` and its `Length()` is `0`, not within
`0.001` of `1.0`. -/
theorem Normalize_overflow_zero :
    (⟨F32.fin ((2 : ℚ) ^ (70 : ℤ)), F32.fin 0, F32.fin 0⟩ : Vector).Length = F32.pinf ∧
      F32.eq (⟨F32.fin ((2 : ℚ) ^ (70 : ℤ)), F32.fin 0, F32.fin 0⟩ : Vector).Length (lit 0)
        = false ∧
      lit 1 / (⟨F32.fin ((2 : ℚ) ^ (70 : ℤ)), F32.fin 0, F32.fin 0⟩ : Vector).Length
        = F32.fin 0 ∧
      (⟨F32.fin ((2 : ℚ) ^ (70 : ℤ)), F32.fin 0, F32.fin 0⟩ : Vector).Normalize
        = ⟨F32.fin 0, F32.fin 0, F32.fin 0⟩ ∧
      (⟨F32.fin ((2 : ℚ) ^ (70 : ℤ)), F32.fin 0, F32.fin 0⟩ : Vector).Normalize.Length
        = F32.fin 0 ∧
      ¬ |(0 : ℚ) - 1| ≤ 1 / 1000 := by
  have hL : (⟨F32.fin ((2 : ℚ) ^ (70 : ℤ)), F32.fin 0, F32.fin 0⟩ : Vector).Length
      = F32.pinf := by
    show F32.sqrt (F32.fin ((2 : ℚ) ^ (70 : ℤ)) * F32.fin ((2 : ℚ) ^ (70 : ℤ))
      + F32.fin 0 * F32.fin 0 + F32.fin 0 * F32.fin 0) = F32.pinf
    rw [sq_two_pow_70.2, fin_zero_mul_zero]
    rfl
  have hz : F32.fin ((2 : ℚ) ^ (70 : ℤ)) * F32.fin 0 = F32.fin 0 := by
    rw [fin_mul_fin, mul_zero, rnd_zero]
  have hN : (⟨F32.fin ((2 : ℚ) ^ (70 : ℤ)), F32.fin 0, F32.fin 0⟩ : Vector).Normalize
      = ⟨F32.fin 0, F32.fin 0, F32.fin 0⟩ := by
    have hne : F32.eq F32.pinf (lit 0) = false := by rw [lit_zero]; rfl
    have hdiv : lit 1 / F32.pinf = F32.fin 0 := by rw [lit_one]; rfl
    simp only [Vector.Normalize, hL, hne, hdiv, hz, fin_zero_mul_zero]
    rfl
  refine ⟨hL, ?_, ?_, hN, ?_, by norm_num⟩
  · rw [hL, lit_zero]; rfl
  · rw [hL, lit_one]; rfl
  · rw [hN]
    show F32.sqrt (F32.fin 0 * F32.fin 0 + F32.fin 0 * F32.fin 0 + F32.fin 0 * F32.fin 0) = _
    rw [fin_zero_mul_zero, fin_zero_add_zero, fin_zero_add_zero, sqrt_fin_zero]

/-! ### `normalize()` and `normalize2d()` in binary32 -/

/-- The guard `fzero` holds of every non-negative value below `0.01f`, under
either `abs`. -/
theorem fzero_of_small (k : AbsKind) (len : ℚ) (h0 : 0 ≤ len)
    (h1 : len < 5368709 / 536870912) : fzero k (F32.fin len) = true := by
  cases k
  · simp only [fzero, absCall, F32.fabs, abs_of_nonneg h0, kFloatEpsilon_eq, lt_fin_fin,
      decide_eq_true_eq]
    exact h1
  · have ht : static_cast_int len = 0 := by
      unfold static_cast_int
      rw [if_pos h0, Int.floor_eq_zero_iff]
      exact ⟨h0, lt_trans h1 (by norm_num)⟩
    simp only [fzero, absCall, toInt_fin, ht, abs_zero, kFloatEpsilon_eq]
    rw [ofInt_eq 0 (by norm_num)]
    simp only [lt_fin_fin, decide_eq_true_eq]
    norm_num

/-- Where the guard `fzero` fails on a non-negative value, the value is at
least `0.01f`. -/
theorem ge_of_fzero_false (k : AbsKind) (len : ℚ) (h0 : 0 ≤ len)
    (h : fzero k (F32.fin len) = false) : 5368709 / 536870912 ≤ len := by
  by_contra hlt
  rw [fzero_of_small k len h0 (not_le.mp hlt)] at h
  exact Bool.noConfusion h

/-- The padded length `len = Length + kFloatCmpEpsilon` and its reciprocal:
either the guard `fzero(len)` holds, or `i = 1 / len` is a positive finite
value with `i² · T` within `0.00004` of one, `T` the exact squared length. -/
theorem guarded_length_scale (k : AbsKind) (T S : ℚ)
    (hT1 : T ≤ 3 * (2 : ℚ) ^ (120 : ℤ)) (hS0 : 0 ≤ S)
    (hS : |S - T| ≤ 1 / 1000000 * T + (2 : ℚ) ^ (-146 : ℤ)) :
    ∃ L len : ℚ, F32.sqrt (F32.fin S) = F32.fin L ∧
      F32.fin L + kFloatCmpEpsilon = F32.fin len ∧
      (fzero k (F32.fin len) = true ∨
        (fzero k (F32.fin len) = false ∧
          ∃ i : ℚ, lit 1 / F32.fin len = F32.fin i ∧ 0 < i ∧
            |i * i * T - 1| ≤ 4 / 100000)) := by
  obtain ⟨Q, hQ⟩ : ∃ Q : ℚ, Q = (2 : ℚ) ^ (120 : ℤ) := ⟨_, rfl⟩
  have hQ0 : 0 < Q := by rw [hQ]; positivity
  have hQ1 : 1 ≤ Q := by rw [hQ]; norm_num
  obtain ⟨ζ, hζ⟩ : ∃ ζ : ℚ, ζ = (2 : ℚ) ^ (-146 : ℤ) := ⟨_, rfl⟩
  have hζ0 : 0 ≤ ζ := by rw [hζ]; positivity
  have hζ1 : ζ ≤ 1 / 1000000000000000 := by rw [hζ]; norm_num
  have e124 : (2 : ℚ) ^ (124 : ℤ) = 16 * Q := by rw [hQ]; norm_num
  have e122 : (2 : ℚ) ^ (61 : ℤ) * (2 : ℚ) ^ (61 : ℤ) = 4 * Q := by rw [hQ]; norm_num
  rw [← hQ] at hT1
  rw [← hζ] at hS
  have hS2 := abs_le.mp hS
  have hShi : S ≤ (2 : ℚ) ^ (124 : ℤ) := by rw [e124]; linarith [hS2.2]
  obtain ⟨L, hL, hL0, hsmall, hnorm⟩ := sqrt_error S hS0 hShi
  -- the root is at most `2 ^ 61`
  have hL61 : L ≤ (2 : ℚ) ^ (61 : ℤ) := by
    rcases lt_or_le S ((2 : ℚ) ^ (-122 : ℤ)) with hs | hs
    · exact le_trans (hsmall hs) (by norm_num)
    · obtain ⟨-, herr⟩ := hnorm hs
      have herr2 := abs_le.mp herr
      rw [mul_self_le_mul_self_iff hL0 (by positivity), e122]
      linarith [herr2.2]
  obtain ⟨B, hB⟩ : ∃ B : ℚ, B = (2 : ℚ) ^ (61 : ℤ) := ⟨_, rfl⟩
  have hB1 : 1 ≤ B := by rw [hB]; norm_num
  have e62 : (2 : ℚ) ^ (62 : ℤ) = 2 * B := by rw [hB]; norm_num
  have e127 : 2 * B ≤ (2 : ℚ) ^ (127 : ℤ) := by rw [hB]; norm_num
  rw [← hB] at hL61
  -- the padded length
  obtain ⟨len, hlen, hlen0, hlenerr⟩ := rnd_nonneg_error (L + 1 / 8388608)
    (by linarith) (by linarith)
  obtain ⟨u, hu⟩ : ∃ u : ℚ, u = (2 : ℚ) ^ (-24 : ℤ) := ⟨_, rfl⟩
  obtain ⟨η, hη⟩ : ∃ η : ℚ, η = (2 : ℚ) ^ (-150 : ℤ) := ⟨_, rfl⟩
  rw [← hu, ← hη] at hlenerr
  have hu0 : 0 ≤ u := by rw [hu]; positivity
  have hu1 : u ≤ 6 / 100000000 := by rw [hu]; norm_num
  have hη0 : 0 ≤ η := by rw [hη]; positivity
  have hη1 : η ≤ 1 / 1000000000000000 := by rw [hη]; norm_num
  have huw : u * (L + 1 / 8388608) ≤ 6 / 100000000 * (L + 1 / 8388608) :=
    mul_le_mul_of_nonneg_right hu1 (by linarith)
  have huw0 : 0 ≤ u * (L + 1 / 8388608) := mul_nonneg hu0 (by linarith)
  have hlen2 := abs_le.mp hlenerr
  refine ⟨L, len, hL, by rw [kFloatCmpEpsilon_eq, fin_add_fin, hlen], ?_⟩
  rcases hfz : fzero k (F32.fin len) with _ | _
  swap
  · exact Or.inl rfl
  right
  refine ⟨rfl, ?_⟩
  have hc0 := ge_of_fzero_false k len hlen0 hfz
  -- the sum of squares is in the normal range
  have hSn : (2 : ℚ) ^ (-122 : ℤ) ≤ S := by
    by_contra hs
    have hL60 : L ≤ 1 / 1000000000 := le_trans (hsmall (not_le.mp hs)) (by norm_num)
    linarith [hlen2.2]
  obtain ⟨hLpos, hLerr⟩ := hnorm hSn
  have hL2 := abs_le.mp hLerr
  have hlen62 : len ≤ (2 : ℚ) ^ (62 : ℤ) := by rw [e62]; linarith [hlen2.2]
  obtain ⟨i, hi, hipos, hierr⟩ := recip_error len (le_trans (by norm_num) hc0) hlen62
  refine ⟨i, hi, hipos, ?_⟩
  -- `len` against `L`
  have hd : |L - len| ≤ 13 / 1000000 * len := by
    rw [abs_le]
    constructor <;> linarith [hlen2.1, hlen2.2]
  have hd2 := abs_le.mp hd
  have hsum : |L + len| ≤ 201 / 100 * len := by
    rw [abs_le]
    constructor <;> linarith [hd2.1, hd2.2]
  have hLlen : |L * L - len * len| ≤ 27 / 1000000 * (len * len) := by
    have e : L * L - len * len = (L - len) * (L + len) := by ring
    rw [e, abs_mul]
    calc |L - len| * |L + len| ≤ 13 / 1000000 * len * (201 / 100 * len) :=
          mul_le_mul hd hsum (abs_nonneg _) (by linarith)
      _ = 13 / 1000000 * (201 / 100) * (len * len) := by ring
      _ ≤ 27 / 1000000 * (len * len) :=
          mul_le_mul_of_nonneg_right (by norm_num) (mul_self_nonneg len)
  have hLlen2 := abs_le.mp hLlen
  -- `T` against `L * L`
  have hLlo : (8 : ℚ) / 1000 ≤ L := by linarith [hd2.1]
  have hLL : (8 : ℚ) / 1000 * (8 / 1000) ≤ L * L :=
    mul_le_mul hLlo hLlo (by norm_num) hL0
  have hTL : |T - L * L| ≤ 2 / 1000000 * (L * L) := by
    rw [abs_le]
    constructor <;> linarith [hL2.1, hL2.2, hS2.1, hS2.2]
  have hTL2 := abs_le.mp hTL
  have hTlen : |T - len * len| ≤ 3 / 100000 * (len * len) := by
    rw [abs_le]
    constructor <;> linarith [hLlen2.1, hLlen2.2, hTL2.1, hTL2.2, mul_self_nonneg len]
  have := scale_sq_close T len i (3 / 100000) (by norm_num) (by norm_num) hTlen hierr
  linarith

/-- `1.0f` is a binary32 value, as a rational and as a real. -/
theorem rnd_one : rnd (1 : ℚ) = F32.fin 1 ∧ rnd (1 : ℝ) = F32.fin 1 := by
  constructor
  · simpa using rnd_int (K := ℚ) 1 (by norm_num)
  · simpa using rnd_int (K := ℝ) 1 (by norm_num)

/-- The two fallback axes have `Length()` exactly `1.0f`. -/
theorem fallback_axis_length :
    Vector.Length ⟨lit 0, lit 0, lit 1⟩ = F32.fin 1 ∧
      Vector.Length ⟨lit 0, lit 1, lit 0⟩ = F32.fin 1 := by
  have h11 : F32.fin 1 * F32.fin 1 = F32.fin 1 := by rw [fin_mul_fin, mul_one, rnd_one.1]
  have h01 : F32.fin 0 + F32.fin 1 = F32.fin 1 := by rw [fin_add_fin, zero_add, rnd_one.1]
  have h10 : F32.fin 1 + F32.fin 0 = F32.fin 1 := by rw [fin_add_fin, add_zero, rnd_one.1]
  have hs : F32.sqrt (F32.fin 1) = F32.fin 1 := by
    simp only [F32.sqrt, Rat.cast_one, Real.sqrt_one]
    rw [if_neg (by norm_num)]
    exact rnd_one.2
  constructor
  · show F32.sqrt (lit 0 * lit 0 + lit 0 * lit 0 + lit 1 * lit 1) = _
    rw [lit_zero, lit_one, fin_zero_mul_zero, fin_zero_add_zero, h11, h01, hs]
  · show F32.sqrt (lit 0 * lit 0 + lit 1 * lit 1 + lit 0 * lit 0) = _
    rw [lit_zero, lit_one, fin_zero_mul_zero, h11, h01, h10, hs]

/-- The squared length for components up to `2 ^ 30` is within the range of
the rounding lemmas. -/
theorem abs_le_of_le_two_pow_30 (x : ℚ) (hx : |x| ≤ (2 : ℚ) ^ (30 : ℤ)) :
    |x| ≤ (2 : ℚ) ^ (60 : ℤ) := le_trans hx (by norm_num)

/-- Claim C4 (as the code has it, in binary32): for every `Vector` with
finite components of magnitude at most `2 ^ 30`, however small, and under
either resolution of `abs` in `fzero`, the results of `normalize()` and of
`normalize2d()` (scalar path) have a finite `Length()` within `0.0001` of
`1.0`, hence within `kFloatEqualEpsilon`. -/
theorem normalize_length32 (k : AbsKind) (x y z : ℚ) (hx : |x| ≤ (2 : ℚ) ^ (30 : ℤ))
    (hy : |y| ≤ (2 : ℚ) ^ (30 : ℤ)) (hz : |z| ≤ (2 : ℚ) ^ (30 : ℤ)) :
    (∃ n : ℚ, ((⟨F32.fin x, F32.fin y, F32.fin z⟩ : Vector).normalize k).Length = F32.fin n ∧
      |n - 1| ≤ 1 / 10000) ∧
    (∃ n : ℚ, ((⟨F32.fin x, F32.fin y, F32.fin z⟩ : Vector).normalize2d k).Length = F32.fin n ∧
      |n - 1| ≤ 1 / 10000) := by
  have hx60 := abs_le_of_le_two_pow_30 x hx
  have hy60 := abs_le_of_le_two_pow_30 y hy
  have hz60 := abs_le_of_le_two_pow_30 z hz
  have h060 : |(0 : ℚ)| ≤ (2 : ℚ) ^ (60 : ℤ) := by rw [abs_zero]; positivity
  constructor
  · obtain ⟨S, hS, hS0, hSerr⟩ := sumsq3_error x y z hx60 hy60 hz60
    obtain ⟨L, len, hL, hlen, hcase⟩ :=
      guarded_length_scale k _ S (sumsq_le x y z hx60 hy60 hz60) hS0 hSerr
    have hLen : (⟨F32.fin x, F32.fin y, F32.fin z⟩ : Vector).Length = F32.fin L := by
      show F32.sqrt (F32.fin x * F32.fin x + F32.fin y * F32.fin y + F32.fin z * F32.fin z) = _
      rw [hS, hL]
    rcases hcase with hfz | ⟨hfz, i, hi, -, hiT⟩
    · refine ⟨1, ?_, by norm_num⟩
      simp only [Vector.normalize, hLen, hlen, hfz, if_true]
      exact fallback_axis_length.1
    · obtain ⟨n, hn, hnerr⟩ :=
        length_scaled3 x y z i (4 / 100000) (by norm_num) (by norm_num) hiT
      refine ⟨n, ?_, le_trans hnerr (by norm_num)⟩
      simp only [Vector.normalize, hLen, hlen, hfz, hi]
      exact hn
  · obtain ⟨S, hS, hS0, hSerr⟩ := sumsq2_error x y hx60 hy60
    have hle := sumsq_le x y 0 hx60 hy60 h060
    simp only [mul_zero, add_zero] at hle
    have hη : (2 : ℚ) ^ (-147 : ℤ) ≤ (2 : ℚ) ^ (-146 : ℤ) := by norm_num
    obtain ⟨L, len, hL, hlen, hcase⟩ :=
      guarded_length_scale k _ S hle hS0
        (le_trans hSerr (by linarith [mul_self_nonneg x, mul_self_nonneg y]))
    have hLen : (⟨F32.fin x, F32.fin y, F32.fin z⟩ : Vector).Length2D = F32.fin L := by
      show F32.sqrt (F32.fin x * F32.fin x + F32.fin y * F32.fin y) = _
      rw [hS, hL]
    rcases hcase with hfz | ⟨hfz, i, hi, -, hiT⟩
    · refine ⟨1, ?_, by norm_num⟩
      simp only [Vector.normalize2d, hLen, hlen, hfz, if_true]
      exact fallback_axis_length.2
    · have hiT0 : |i * i * (x * x + y * y + 0 * 0) - 1| ≤ 4 / 100000 := by
        rw [mul_zero, add_zero]
        exact hiT
      obtain ⟨n, hn, hnerr⟩ :=
        length_scaled3 x y 0 i (4 / 100000) (by norm_num) (by norm_num) hiT0
      have h0i : F32.fin 0 * F32.fin i = lit 0 := by
        rw [fin_mul_fin, zero_mul, rnd_zero, lit_zero]
      rw [h0i] at hn
      refine ⟨n, ?_, le_trans hnerr (by norm_num)⟩
      simp only [Vector.normalize2d, hLen, hlen, hfz, hi]
      exact hn

/-- Witness of `normalize_length32` at `v = (3, 4, 12)` with the integer `abs`. -/
theorem normalize_length32_witness :
    (∃ n : ℚ, ((⟨F32.fin 3, F32.fin 4, F32.fin 12⟩ : Vector).normalize AbsKind.integer).Length
        = F32.fin n ∧ |n - 1| ≤ 1 / 10000) ∧
    (∃ n : ℚ, ((⟨F32.fin 3, F32.fin 4, F32.fin 12⟩ : Vector).normalize2d AbsKind.integer).Length
        = F32.fin n ∧ |n - 1| ≤ 1 / 10000) :=
  normalize_length32 AbsKind.integer 3 4 12 (by norm_num [abs_of_pos])
    (by norm_num [abs_of_pos]) (by norm_num [abs_of_pos])

/-- Claim C4 fails as stated: with the floating-point `abs`, the `Vector`
`(2^70, 0, 0)` has `Length()` and `Length2D()` equal to `+∞` (the square
overflows), the guard `fzero` fails, the reciprocal is `0`, and both
`normalize()` and `normalize2d()` return `(0, 0, 0)`, whose `Length()` is `0`,
not within `0.001` of `1.0`. -/
theorem normalize_guarded_overflow :
    ((⟨F32.fin ((2 : ℚ) ^ (70 : ℤ)), F32.fin 0, F32.fin 0⟩ : Vector).normalize
        AbsKind.floating) = ⟨F32.fin 0, F32.fin 0, F32.fin 0⟩ ∧
      ((⟨F32.fin ((2 : ℚ) ^ (70 : ℤ)), F32.fin 0, F32.fin 0⟩ : Vector).normalize2d
        AbsKind.floating) = ⟨F32.fin 0, F32.fin 0, F32.fin 0⟩ ∧
      (⟨F32.fin 0, F32.fin 0, F32.fin 0⟩ : Vector).Length = F32.fin 0 ∧
      fequal AbsKind.floating (⟨F32.fin 0, F32.fin 0, F32.fin 0⟩ : Vector).Length (lit 1)
        = false := by
  have hL : (⟨F32.fin ((2 : ℚ) ^ (70 : ℤ)), F32.fin 0, F32.fin 0⟩ : Vector).Length
      = F32.pinf := by
    show F32.sqrt (F32.fin ((2 : ℚ) ^ (70 : ℤ)) * F32.fin ((2 : ℚ) ^ (70 : ℤ))
      + F32.fin 0 * F32.fin 0 + F32.fin 0 * F32.fin 0) = F32.pinf
    rw [sq_two_pow_70.2, fin_zero_mul_zero]
    rfl
  have hL2 : (⟨F32.fin ((2 : ℚ) ^ (70 : ℤ)), F32.fin 0, F32.fin 0⟩ : Vector).Length2D
      = F32.pinf := by
    show F32.sqrt (F32.fin ((2 : ℚ) ^ (70 : ℤ)) * F32.fin ((2 : ℚ) ^ (70 : ℤ))
      + F32.fin 0 * F32.fin 0) = F32.pinf
    rw [sq_two_pow_70.2, fin_zero_mul_zero]
    rfl
  have hpad : F32.pinf + kFloatCmpEpsilon = F32.pinf := by rw [kFloatCmpEpsilon_eq]; rfl
  have hfz : fzero AbsKind.floating F32.pinf = false := by
    simp only [fzero, absCall, F32.fabs, kFloatEpsilon_eq]
    rfl
  have hdiv : lit 1 / F32.pinf = F32.fin 0 := by rw [lit_one]; rfl
  have hz : F32.fin ((2 : ℚ) ^ (70 : ℤ)) * F32.fin 0 = F32.fin 0 := by
    rw [fin_mul_fin, mul_zero, rnd_zero]
  have hLen0 : (⟨F32.fin 0, F32.fin 0, F32.fin 0⟩ : Vector).Length = F32.fin 0 := by
    show F32.sqrt (F32.fin 0 * F32.fin 0 + F32.fin 0 * F32.fin 0 + F32.fin 0 * F32.fin 0) = _
    rw [fin_zero_mul_zero, fin_zero_add_zero, fin_zero_add_zero, sqrt_fin_zero]
  refine ⟨?_, ?_, hLen0, ?_⟩
  · simp only [Vector.normalize, hL, hpad, hfz, hdiv, hz, fin_zero_mul_zero]
    rfl
  · simp only [Vector.normalize2d, hL2, hpad, hfz, hdiv, hz, fin_zero_mul_zero, lit_zero]
    rfl
  · rw [hLen0, lit_one]
    have hsub : F32.fin 0 - F32.fin 1 = F32.fin (-1) := by
      rw [fin_sub_fin, zero_sub]
      simpa using rnd_int (K := ℚ) (-1) (by norm_num)
    simp only [fequal, absCall, hsub, F32.fabs, kFloatEqualEpsilon_eq, lt_fin_fin,
      decide_eq_false_iff_not]
    norm_num

/-! ### Approximation of real quantities by binary32 values -/

/-- A weaker tolerance. -/
theorem F32.near_mono {a : F32} {r δ δ' : ℝ} (h : a.near δ r) (hδ : δ ≤ δ') : a.near δ' r := by
  obtain ⟨q, hq, herr⟩ := h
  exact ⟨q, hq, le_trans herr hδ⟩

/-- The rounding error of a rational of magnitude at most `13`, as reals. -/
theorem rnd_error_small (t : ℚ) (ht : |t| ≤ 13) :
    ∃ w : ℚ, rnd t = F32.fin w ∧ |(w : ℝ) - (t : ℝ)| ≤ 8 / 10000000 := by
  obtain ⟨w, hw, herr, -, -⟩ := rnd_error t (le_trans ht (by norm_num))
  refine ⟨w, hw, ?_⟩
  simp only [Rat.cast_id] at herr
  have h1 : (2 : ℚ) ^ (-24 : ℤ) * |t| ≤ (2 : ℚ) ^ (-24 : ℤ) * 13 :=
    mul_le_mul_of_nonneg_left ht (by positivity)
  have h2 : (2 : ℚ) ^ (-24 : ℤ) * 13 + (2 : ℚ) ^ (-150 : ℤ) ≤ 8 / 10000000 := by norm_num
  have h3 : |w - t| ≤ 8 / 10000000 := le_trans herr (le_trans (add_le_add_right h1 _) h2)
  have h4 : ((|w - t| : ℚ) : ℝ) ≤ ((8 / 10000000 : ℚ) : ℝ) := Rat.cast_le.mpr h3
  push_cast at h4
  exact h4

/-- A finite value near a real of magnitude at most `2`, with a tolerance of
at most `1/100`, has magnitude at most `2.01`. -/
theorem abs_le_of_near {q : ℚ} {r δ : ℝ} (h : |(q : ℝ) - r| ≤ δ) (hr : |r| ≤ 2)
    (hδ : δ ≤ 1 / 100) : |(q : ℝ)| ≤ 201 / 100 := by
  have h1 := abs_add ((q : ℝ) - r) r
  rw [sub_add_cancel] at h1
  linarith

/-- Products of approximations. -/
theorem F32.near_mul {a b : F32} {r1 r2 δ1 δ2 δ : ℝ} (ha : a.near δ1 r1) (hb : b.near δ2 r2)
    (h1 : |r1| ≤ 2) (h2 : |r2| ≤ 2) (hδ1 : δ1 ≤ 1 / 100) (hδ2 : δ2 ≤ 1 / 100)
    (hδ : 201 / 100 * δ1 + 2 * δ2 + 8 / 10000000 ≤ δ) : (a * b).near δ (r1 * r2) := by
  obtain ⟨p, hp, hperr⟩ := ha
  obtain ⟨q, hq, hqerr⟩ := hb
  have hq2 := abs_le_of_near hqerr h2 hδ2
  have hp2 := abs_le_of_near hperr h1 hδ1
  have hpq : |(p * q : ℚ)| ≤ 13 := by
    have h : |((p * q : ℚ) : ℝ)| ≤ 13 := by
      push_cast
      rw [abs_mul]
      calc |(p : ℝ)| * |(q : ℝ)| ≤ 201 / 100 * (201 / 100) :=
            mul_le_mul hp2 hq2 (abs_nonneg _) (by norm_num)
        _ ≤ 13 := by norm_num
    have h' : ((|p * q| : ℚ) : ℝ) ≤ ((13 : ℚ) : ℝ) := by push_cast; simpa using h
    exact Rat.cast_le.mp h'
  obtain ⟨w, hw, hwerr⟩ := rnd_error_small (p * q) hpq
  refine ⟨w, by rw [hp, hq, fin_mul_fin, hw], ?_⟩
  have e : (w : ℝ) - r1 * r2
      = ((w : ℝ) - ((p * q : ℚ) : ℝ)) + (((p : ℝ) - r1) * q + r1 * ((q : ℝ) - r2)) := by
    push_cast; ring
  rw [e]
  refine le_trans (abs_add _ _) ?_
  have h3 : |((p : ℝ) - r1) * q| ≤ δ1 * (201 / 100) := by
    rw [abs_mul]
    exact mul_le_mul hperr hq2 (abs_nonneg _) (le_trans (abs_nonneg _) hperr)
  have h4 : |r1 * ((q : ℝ) - r2)| ≤ 2 * δ2 := by
    rw [abs_mul]
    exact mul_le_mul h1 hqerr (abs_nonneg _) (by norm_num)
  have h5 := abs_add (((p : ℝ) - r1) * q) (r1 * ((q : ℝ) - r2))
  linarith

/-- Sums of approximations. -/
theorem F32.near_add {a b : F32} {r1 r2 δ1 δ2 δ : ℝ} (ha : a.near δ1 r1) (hb : b.near δ2 r2)
    (h : |r1 + r2| ≤ 12) (hδ12 : δ1 + δ2 ≤ 1)
    (hδ : δ1 + δ2 + 8 / 10000000 ≤ δ) : (a + b).near δ (r1 + r2) := by
  obtain ⟨p, hp, hperr⟩ := ha
  obtain ⟨q, hq, hqerr⟩ := hb
  have hsum : |((p : ℝ) + q) - (r1 + r2)| ≤ δ1 + δ2 := by
    have e : ((p : ℝ) + q) - (r1 + r2) = ((p : ℝ) - r1) + ((q : ℝ) - r2) := by ring
    rw [e]
    exact le_trans (abs_add _ _) (add_le_add hperr hqerr)
  have hpq : |(p + q : ℚ)| ≤ 13 := by
    have h0 : |((p : ℝ) + q)| ≤ 13 := by
      have h1 := abs_add (((p : ℝ) + q) - (r1 + r2)) (r1 + r2)
      rw [sub_add_cancel] at h1
      linarith
    have h' : ((|p + q| : ℚ) : ℝ) ≤ ((13 : ℚ) : ℝ) := by push_cast; simpa using h0
    exact Rat.cast_le.mp h'
  obtain ⟨w, hw, hwerr⟩ := rnd_error_small (p + q) hpq
  refine ⟨w, by rw [hp, hq, fin_add_fin, hw], ?_⟩
  have e : (w : ℝ) - (r1 + r2)
      = ((w : ℝ) - ((p + q : ℚ) : ℝ)) + (((p : ℝ) + q) - (r1 + r2)) := by
    push_cast; ring
  rw [e]
  refine le_trans (abs_add _ _) ?_
  linarith

/-- Negation of an approximation. -/
theorem F32.near_neg {a : F32} {r δ : ℝ} (ha : a.near δ r) : (-a).near δ (-r) := by
  obtain ⟨p, hp, hperr⟩ := ha
  refine ⟨-p, by rw [hp, neg_fin], ?_⟩
  have e : ((-p : ℚ) : ℝ) - -r = -((p : ℝ) - r) := by push_cast; ring
  rw [e, abs_neg]
  exact hperr

/-- Differences of approximations. -/
theorem F32.near_sub {a b : F32} {r1 r2 δ1 δ2 δ : ℝ} (ha : a.near δ1 r1) (hb : b.near δ2 r2)
    (h : |r1 - r2| ≤ 12) (hδ12 : δ1 + δ2 ≤ 1)
    (hδ : δ1 + δ2 + 8 / 10000000 ≤ δ) : (a - b).near δ (r1 - r2) := by
  have hs : a - b = a + -b := rfl
  rw [hs, sub_eq_add_neg]
  exact F32.near_add ha (F32.near_neg hb) (by rw [← sub_eq_add_neg]; exact h) hδ12 hδ

/-- Two values near the same real are near each other. -/
theorem F32.near_near {a b : F32} {r δ1 δ2 : ℝ} (ha : a.near δ1 r) (hb : b.near δ2 r) :
    ∃ p q : ℚ, a = F32.fin p ∧ b = F32.fin q ∧ |(p : ℝ) - q| ≤ δ1 + δ2 := by
  obtain ⟨p, hp, hperr⟩ := ha
  obtain ⟨q, hq, hqerr⟩ := hb
  refine ⟨p, q, hp, hq, ?_⟩
  have e : (p : ℝ) - q = ((p : ℝ) - r) - ((q : ℝ) - r) := by ring
  rw [e]
  exact le_trans (abs_sub _ _) (add_le_add hperr hqerr)

/-! ### The outputs of `angleVectors` against the exact rotation -/

/-- Products of approximations of reals of magnitude at most one. -/
theorem F32.nearUnit_mul {a b : F32} {r1 r2 δ1 δ2 δ : ℝ} (ha : a.nearUnit δ1 r1)
    (hb : b.nearUnit δ2 r2) (hδ1 : δ1 ≤ 1 / 100) (hδ2 : δ2 ≤ 1 / 100)
    (hδ : 201 / 100 * δ1 + 2 * δ2 + 8 / 10000000 ≤ δ) : (a * b).nearUnit δ (r1 * r2) := by
  refine ⟨F32.near_mul ha.1 hb.1 (le_trans ha.2 (by norm_num)) (le_trans hb.2 (by norm_num))
    hδ1 hδ2 hδ, ?_⟩
  rw [abs_mul]
  exact mul_le_one₀ ha.2 (abs_nonneg _) hb.2

/-- Negation of an approximation of a real of magnitude at most one. -/
theorem F32.nearUnit_neg {a : F32} {r δ : ℝ} (ha : a.nearUnit δ r) : (-a).nearUnit δ (-r) :=
  ⟨F32.near_neg ha.1, by rw [abs_neg]; exact ha.2⟩

/-- The sum of two approximations of reals of magnitude at most one. -/
theorem F32.nearTwo_add {a b : F32} {r1 r2 δ1 δ2 δ : ℝ} (ha : a.nearUnit δ1 r1)
    (hb : b.nearUnit δ2 r2) (hδ12 : δ1 + δ2 ≤ 1) (hδ : δ1 + δ2 + 8 / 10000000 ≤ δ) :
    (a + b).nearTwo δ (r1 + r2) := by
  have h : |r1 + r2| ≤ 2 := le_trans (abs_add _ _) (by linarith [ha.2, hb.2])
  exact ⟨F32.near_add ha.1 hb.1 (le_trans h (by norm_num)) hδ12 hδ, h⟩

/-- The difference of two approximations of reals of magnitude at most one. -/
theorem F32.nearTwo_sub {a b : F32} {r1 r2 δ1 δ2 δ : ℝ} (ha : a.nearUnit δ1 r1)
    (hb : b.nearUnit δ2 r2) (hδ12 : δ1 + δ2 ≤ 1) (hδ : δ1 + δ2 + 8 / 10000000 ≤ δ) :
    (a - b).nearTwo δ (r1 - r2) := by
  have h : |r1 - r2| ≤ 2 := le_trans (abs_sub _ _) (by linarith [ha.2, hb.2])
  exact ⟨F32.near_sub ha.1 hb.1 (le_trans h (by norm_num)) hδ12 hδ, h⟩

/-- A unit approximation is an approximation of a real of magnitude at most
two, at any weaker tolerance. -/
theorem F32.nearUnit.weaken {a : F32} {r δ δ' : ℝ} (ha : a.nearUnit δ r) (hδ : δ ≤ δ') :
    a.nearTwo δ' r :=
  ⟨F32.near_mono ha.1 hδ, le_trans ha.2 (by norm_num)⟩

/-- `deg2rad` of a finite angle of magnitude at most `2 ^ 100` is finite. -/
theorem deg2rad_finite (a : ℚ) (ha : |a| ≤ (2 : ℚ) ^ (100 : ℤ)) :
    ∃ r : ℚ, deg2rad (F32.fin a) = F32.fin r := by
  have h : |a * (9370165 / 536870912)| ≤ (2 : ℚ) ^ (127 : ℤ) := by
    rw [abs_mul]
    calc |a| * |(9370165 / 536870912 : ℚ)| ≤ (2 : ℚ) ^ (100 : ℤ) * 1 :=
          mul_le_mul ha (by rw [abs_of_pos (by norm_num)]; norm_num) (abs_nonneg _)
            (by positivity)
      _ ≤ (2 : ℚ) ^ (127 : ℤ) := by norm_num
  obtain ⟨r, hr, -⟩ := rnd_error _ h
  exact ⟨r, by rw [deg2rad, kDegreeToRadians_eq, fin_mul_fin, hr]⟩

/-- The sine and cosine returned by an accurate library, as unit
approximations. -/
theorem Libm.accurate.sincos {m : Libm} (hm : m.accurate) (r : ℚ) :
    (m.sinf (F32.fin r)).nearUnit (1 / 1000000) (Real.sin r) ∧
      (m.cosf (F32.fin r)).nearUnit (1 / 1000000) (Real.cos r) :=
  ⟨⟨hm.1 r, Real.abs_sin_le_one _⟩, ⟨hm.2.1 r, Real.abs_cos_le_one _⟩⟩

/-- The nine components written by `angleVectors`, for finite angles of
magnitude at most `2 ^ 100` and an accurate library, against the entries of
the exact rotation at the binary32 radian angles `rx`, `ry`, `rz`. -/
theorem angleVectors_near (m : Libm) (hm : m.accurate) (ax ay az : ℚ)
    (hx : |ax| ≤ (2 : ℚ) ^ (100 : ℤ)) (hy : |ay| ≤ (2 : ℚ) ^ (100 : ℤ))
    (hz : |az| ≤ (2 : ℚ) ^ (100 : ℤ)) (f0 r0 u0 : Vector) :
    ∃ (rx ry rz : ℚ) (f r u : Vector),
      Vector.angleVectors m ⟨F32.fin ax, F32.fin ay, F32.fin az⟩ (some f0) (some r0) (some u0)
        = (some f, some r, some u) ∧
      (f.x.nearTwo (2 / 100000) (Real.cos rx * Real.cos ry) ∧
        f.y.nearTwo (2 / 100000) (Real.cos rx * Real.sin ry) ∧
        f.z.nearTwo (2 / 100000) (-Real.sin rx)) ∧
      (r.x.nearTwo (2 / 100000)
          (-Real.sin rz * Real.sin rx * Real.cos ry + Real.cos rz * Real.sin ry) ∧
        r.y.nearTwo (2 / 100000)
          (-Real.sin rz * Real.sin rx * Real.sin ry - Real.cos rz * Real.cos ry) ∧
        r.z.nearTwo (2 / 100000) (-Real.sin rz * Real.cos rx)) ∧
      (u.x.nearTwo (2 / 100000)
          (Real.cos rz * Real.sin rx * Real.cos ry + Real.sin rz * Real.sin ry) ∧
        u.y.nearTwo (2 / 100000)
          (Real.cos rz * Real.sin rx * Real.sin ry - Real.sin rz * Real.cos ry) ∧
        u.z.nearTwo (2 / 100000) (Real.cos rz * Real.cos rx)) := by
  obtain ⟨rx, hrx⟩ := deg2rad_finite ax hx
  obtain ⟨ry, hry⟩ := deg2rad_finite ay hy
  obtain ⟨rz, hrz⟩ := deg2rad_finite az hz
  obtain ⟨hsx, hcx⟩ := hm.sincos rx
  obtain ⟨hsy, hcy⟩ := hm.sincos ry
  obtain ⟨hsz, hcz⟩ := hm.sincos rz
  refine ⟨rx, ry, rz, _, _, _, rfl, ⟨?_, ?_, ?_⟩, ⟨?_, ?_, ?_⟩, ⟨?_, ?_, ?_⟩⟩ <;>
    simp only [hrx, hry, hrz]
  · exact (F32.nearUnit_mul hcx hcy (by norm_num) (by norm_num)
      (by norm_num : (201 : ℝ) / 100 * (1 / 1000000) + 2 * (1 / 1000000) + 8 / 10000000
        ≤ 5 / 1000000)).weaken (by norm_num)
  · exact (F32.nearUnit_mul hcx hsy (by norm_num) (by norm_num)
      (by norm_num : (201 : ℝ) / 100 * (1 / 1000000) + 2 * (1 / 1000000) + 8 / 10000000
        ≤ 5 / 1000000)).weaken (by norm_num)
  · exact (F32.nearUnit_neg hsx).weaken (by norm_num)
  · exact F32.nearTwo_add
      (F32.nearUnit_mul
        (F32.nearUnit_mul (F32.nearUnit_neg hsz) hsx (by norm_num) (by norm_num)
          (by norm_num : (201 : ℝ) / 100 * (1 / 1000000) + 2 * (1 / 1000000) + 8 / 10000000
            ≤ 5 / 1000000))
        hcy (by norm_num) (by norm_num)
        (by norm_num : (201 : ℝ) / 100 * (5 / 1000000) + 2 * (1 / 1000000) + 8 / 10000000
          ≤ 13 / 1000000))
      (F32.nearUnit_mul hcz hsy (by norm_num) (by norm_num)
        (by norm_num : (201 : ℝ) / 100 * (1 / 1000000) + 2 * (1 / 1000000) + 8 / 10000000
          ≤ 5 / 1000000))
      (by norm_num) (by norm_num)
  · exact F32.nearTwo_sub
      (F32.nearUnit_mul
        (F32.nearUnit_mul (F32.nearUnit_neg hsz) hsx (by norm_num) (by norm_num)
          (by norm_num : (201 : ℝ) / 100 * (1 / 1000000) + 2 * (1 / 1000000) + 8 / 10000000
            ≤ 5 / 1000000))
        hsy (by norm_num) (by norm_num)
        (by norm_num : (201 : ℝ) / 100 * (5 / 1000000) + 2 * (1 / 1000000) + 8 / 10000000
          ≤ 13 / 1000000))
      (F32.nearUnit_mul hcz hcy (by norm_num) (by norm_num)
        (by norm_num : (201 : ℝ) / 100 * (1 / 1000000) + 2 * (1 / 1000000) + 8 / 10000000
          ≤ 5 / 1000000))
      (by norm_num) (by norm_num)
  · exact (F32.nearUnit_mul (F32.nearUnit_neg hsz) hcx (by norm_num) (by norm_num)
      (by norm_num : (201 : ℝ) / 100 * (1 / 1000000) + 2 * (1 / 1000000) + 8 / 10000000
        ≤ 5 / 1000000)).weaken (by norm_num)
  · exact F32.nearTwo_add
      (F32.nearUnit_mul
        (F32.nearUnit_mul hcz hsx (by norm_num) (by norm_num)
          (by norm_num : (201 : ℝ) / 100 * (1 / 1000000) + 2 * (1 / 1000000) + 8 / 10000000
            ≤ 5 / 1000000))
        hcy (by norm_num) (by norm_num)
        (by norm_num : (201 : ℝ) / 100 * (5 / 1000000) + 2 * (1 / 1000000) + 8 / 10000000
          ≤ 13 / 1000000))
      (F32.nearUnit_mul hsz hsy (by norm_num) (by norm_num)
        (by norm_num : (201 : ℝ) / 100 * (1 / 1000000) + 2 * (1 / 1000000) + 8 / 10000000
          ≤ 5 / 1000000))
      (by norm_num) (by norm_num)
  · exact F32.nearTwo_sub
      (F32.nearUnit_mul
        (F32.nearUnit_mul hcz hsx (by norm_num) (by norm_num)
          (by norm_num : (201 : ℝ) / 100 * (1 / 1000000) + 2 * (1 / 1000000) + 8 / 10000000
            ≤ 5 / 1000000))
        hsy (by norm_num) (by norm_num)
        (by norm_num : (201 : ℝ) / 100 * (5 / 1000000) + 2 * (1 / 1000000) + 8 / 10000000
          ≤ 13 / 1000000))
      (F32.nearUnit_mul hsz hcy (by norm_num) (by norm_num)
        (by norm_num : (201 : ℝ) / 100 * (1 / 1000000) + 2 * (1 / 1000000) + 8 / 10000000
          ≤ 5 / 1000000))
      (by norm_num) (by norm_num)
  · exact (F32.nearUnit_mul hcz hcx (by norm_num) (by norm_num)
      (by norm_num : (201 : ℝ) / 100 * (1 / 1000000) + 2 * (1 / 1000000) + 8 / 10000000
        ≤ 5 / 1000000)).weaken (by norm_num)

/-- `DotProduct` of two vectors whose components approximate reals of
magnitude at most two. -/
theorem DotProduct_near (a b : Vector) (ex ey ez gx gy gz : ℝ)
    (hax : a.x.nearTwo (2 / 100000) ex) (hay : a.y.nearTwo (2 / 100000) ey)
    (haz : a.z.nearTwo (2 / 100000) ez) (hbx : b.x.nearTwo (2 / 100000) gx)
    (hby : b.y.nearTwo (2 / 100000) gy) (hbz : b.z.nearTwo (2 / 100000) gz) :
    (DotProduct a b).near (25 / 100000) (ex * gx + ey * gy + ez * gz) := by
  have hxx : (a.x * b.x).near (81 / 1000000) (ex * gx) :=
    F32.near_mul hax.1 hbx.1 hax.2 hbx.2 (by norm_num) (by norm_num) (by norm_num)
  have hyy : (a.y * b.y).near (81 / 1000000) (ey * gy) :=
    F32.near_mul hay.1 hby.1 hay.2 hby.2 (by norm_num) (by norm_num) (by norm_num)
  have hzz : (a.z * b.z).near (81 / 1000000) (ez * gz) :=
    F32.near_mul haz.1 hbz.1 haz.2 hbz.2 (by norm_num) (by norm_num) (by norm_num)
  have b2 : ∀ p q : ℝ, |p| ≤ 2 → |q| ≤ 2 → |p * q| ≤ 4 := by
    intro p q hp hq
    rw [abs_mul]
    calc |p| * |q| ≤ 2 * 2 := mul_le_mul hp hq (abs_nonneg _) (by norm_num)
      _ = 4 := by norm_num
  have bx := b2 ex gx hax.2 hbx.2
  have by' := b2 ey gy hay.2 hby.2
  have bz := b2 ez gz haz.2 hbz.2
  have h1 : (a.x * b.x + a.y * b.y).near (163 / 1000000) (ex * gx + ey * gy) :=
    F32.near_add hxx hyy (le_trans (abs_add _ _) (by linarith)) (by norm_num) (by norm_num)
  exact F32.near_add h1 hzz
    (le_trans (abs_add _ _) (by linarith [abs_add (ex * gx) (ey * gy)])) (by norm_num)
    (by norm_num)

/-- `Length()` of a vector whose `DotProduct` with itself is close to one. -/
theorem Length_near_one (v : Vector) (h : (DotProduct v v).near (25 / 100000) 1) :
    v.Length.near (3 / 10000) 1 := by
  obtain ⟨S, hS, hSerr⟩ := h
  have hSq : |S - 1| ≤ 25 / 100000 := by
    have h' : ((|S - 1| : ℚ) : ℝ) ≤ ((25 / 100000 : ℚ) : ℝ) := by push_cast; exact hSerr
    exact Rat.cast_le.mp h'
  obtain ⟨n, hn, hnerr⟩ := sqrt_near_one S (25 / 100000) (by norm_num) (by norm_num)
    (le_trans hSq (by norm_num))
  refine ⟨n, ?_, ?_⟩
  · show F32.sqrt (DotProduct v v) = F32.fin n
    rw [hS, hn]
  · have h' : ((|n - 1| : ℚ) : ℝ) ≤ ((25 / 100000 + 1 / 100000 : ℚ) : ℝ) := Rat.cast_le.mpr hnerr
    push_cast at h'
    exact le_trans h' (by norm_num)

/-- Claim C1 (as the code has it, in binary32): for every triple of finite
angles of magnitude at most `2 ^ 100`, and a library whose `sinf` and `cosf`
are accurate to `10⁻⁶`, the three vectors written by `angleVectors` are
orthonormal within `0.0003`: the `DotProduct` of each with itself and its
`Length()` are within `0.0003` of `1`, and the `DotProduct` of any two of them
is within `0.0003` of `0`.  They are not exactly `1` and `0`. -/
theorem angleVectors_orthonormal32 (m : Libm) (hm : m.accurate) (ax ay az : ℚ)
    (hx : |ax| ≤ (2 : ℚ) ^ (100 : ℤ)) (hy : |ay| ≤ (2 : ℚ) ^ (100 : ℤ))
    (hz : |az| ≤ (2 : ℚ) ^ (100 : ℤ)) (f0 r0 u0 : Vector) :
    ∃ f r u : Vector,
      Vector.angleVectors m ⟨F32.fin ax, F32.fin ay, F32.fin az⟩ (some f0) (some r0) (some u0)
        = (some f, some r, some u) ∧
      ((DotProduct f f).near (3 / 10000) 1 ∧ (DotProduct r r).near (3 / 10000) 1 ∧
        (DotProduct u u).near (3 / 10000) 1) ∧
      (f.Length.near (3 / 10000) 1 ∧ r.Length.near (3 / 10000) 1 ∧
        u.Length.near (3 / 10000) 1) ∧
      ((DotProduct f r).near (3 / 10000) 0 ∧ (DotProduct f u).near (3 / 10000) 0 ∧
        (DotProduct r u).near (3 / 10000) 0) := by
  obtain ⟨rx, ry, rz, f, r, u, hav, ⟨hfx, hfy, hfz⟩, ⟨hrx, hry, hrz⟩, ⟨hux, huy, huz⟩⟩ :=
    angleVectors_near m hm ax ay az hx hy hz f0 r0 u0
  have hX := Real.sin_sq_add_cos_sq (rx : ℝ)
  have hY := Real.sin_sq_add_cos_sq (ry : ℝ)
  have hZ := Real.sin_sq_add_cos_sq (rz : ℝ)
  have hff := DotProduct_near f f _ _ _ _ _ _ hfx hfy hfz hfx hfy hfz
  have hrr := DotProduct_near r r _ _ _ _ _ _ hrx hry hrz hrx hry hrz
  have huu := DotProduct_near u u _ _ _ _ _ _ hux huy huz hux huy huz
  have hfr := DotProduct_near f r _ _ _ _ _ _ hfx hfy hfz hrx hry hrz
  have hfu := DotProduct_near f u _ _ _ _ _ _ hfx hfy hfz hux huy huz
  have hru := DotProduct_near r u _ _ _ _ _ _ hrx hry hrz hux huy huz
  have eff : Real.cos rx * Real.cos ry * (Real.cos rx * Real.cos ry)
      + Real.cos rx * Real.sin ry * (Real.cos rx * Real.sin ry)
      + -Real.sin rx * -Real.sin rx = 1 := by
    linear_combination (Real.cos rx) ^ 2 * hY + hX
  have err : (-Real.sin rz * Real.sin rx * Real.cos ry + Real.cos rz * Real.sin ry)
        * (-Real.sin rz * Real.sin rx * Real.cos ry + Real.cos rz * Real.sin ry)
      + (-Real.sin rz * Real.sin rx * Real.sin ry - Real.cos rz * Real.cos ry)
        * (-Real.sin rz * Real.sin rx * Real.sin ry - Real.cos rz * Real.cos ry)
      + -Real.sin rz * Real.cos rx * (-Real.sin rz * Real.cos rx) = 1 := by
    linear_combination
      ((Real.sin rz) ^ 2 * (Real.sin rx) ^ 2 + (Real.cos rz) ^ 2) * hY
      + (Real.sin rz) ^ 2 * hX + hZ
  have euu : (Real.cos rz * Real.sin rx * Real.cos ry + Real.sin rz * Real.sin ry)
        * (Real.cos rz * Real.sin rx * Real.cos ry + Real.sin rz * Real.sin ry)
      + (Real.cos rz * Real.sin rx * Real.sin ry - Real.sin rz * Real.cos ry)
        * (Real.cos rz * Real.sin rx * Real.sin ry - Real.sin rz * Real.cos ry)
      + Real.cos rz * Real.cos rx * (Real.cos rz * Real.cos rx) = 1 := by
    linear_combination
      ((Real.cos rz) ^ 2 * (Real.sin rx) ^ 2 + (Real.sin rz) ^ 2) * hY
      + (Real.cos rz) ^ 2 * hX + hZ
  have efr : Real.cos rx * Real.cos ry
        * (-Real.sin rz * Real.sin rx * Real.cos ry + Real.cos rz * Real.sin ry)
      + Real.cos rx * Real.sin ry
        * (-Real.sin rz * Real.sin rx * Real.sin ry - Real.cos rz * Real.cos ry)
      + -Real.sin rx * (-Real.sin rz * Real.cos rx) = 0 := by
    linear_combination (-(Real.sin rz * Real.sin rx * Real.cos rx)) * hY
  have efu : Real.cos rx * Real.cos ry
        * (Real.cos rz * Real.sin rx * Real.cos ry + Real.sin rz * Real.sin ry)
      + Real.cos rx * Real.sin ry
        * (Real.cos rz * Real.sin rx * Real.sin ry - Real.sin rz * Real.cos ry)
      + -Real.sin rx * (Real.cos rz * Real.cos rx) = 0 := by
    linear_combination (Real.cos rz * Real.sin rx * Real.cos rx) * hY
  have eru : (-Real.sin rz * Real.sin rx * Real.cos ry + Real.cos rz * Real.sin ry)
        * (Real.cos rz * Real.sin rx * Real.cos ry + Real.sin rz * Real.sin ry)
      + (-Real.sin rz * Real.sin rx * Real.sin ry - Real.cos rz * Real.cos ry)
        * (Real.cos rz * Real.sin rx * Real.sin ry - Real.sin rz * Real.cos ry)
      + -Real.sin rz * Real.cos rx * (Real.cos rz * Real.cos rx) = 0 := by
    linear_combination
      (-(Real.sin rz * Real.cos rz * (Real.sin rx) ^ 2) + Real.cos rz * Real.sin rz) * hY
      + (-(Real.sin rz * Real.cos rz)) * hX
  rw [eff] at hff
  rw [err] at hrr
  rw [euu] at huu
  rw [efr] at hfr
  rw [efu] at hfu
  rw [eru] at hru
  exact ⟨f, r, u, hav,
    ⟨F32.near_mono hff (by norm_num), F32.near_mono hrr (by norm_num),
      F32.near_mono huu (by norm_num)⟩,
    ⟨Length_near_one f hff, Length_near_one r hrr, Length_near_one u huu⟩,
    ⟨F32.near_mono hfr (by norm_num), F32.near_mono hfu (by norm_num),
      F32.near_mono hru (by norm_num)⟩⟩

/-- `CrossProduct` of two vectors whose components approximate reals of
magnitude at most two. -/
theorem CrossProduct_near (a b : Vector) (ex ey ez gx gy gz : ℝ)
    (hax : a.x.nearTwo (2 / 100000) ex) (hay : a.y.nearTwo (2 / 100000) ey)
    (haz : a.z.nearTwo (2 / 100000) ez) (hbx : b.x.nearTwo (2 / 100000) gx)
    (hby : b.y.nearTwo (2 / 100000) gy) (hbz : b.z.nearTwo (2 / 100000) gz) :
    (CrossProduct a b).x.near (164 / 1000000) (ey * gz - ez * gy) ∧
      (CrossProduct a b).y.near (164 / 1000000) (ez * gx - ex * gz) ∧
      (CrossProduct a b).z.near (164 / 1000000) (ex * gy - ey * gx) := by
  have b2 : ∀ p q : ℝ, |p| ≤ 2 → |q| ≤ 2 → |p * q| ≤ 4 := by
    intro p q hp hq
    rw [abs_mul]
    calc |p| * |q| ≤ 2 * 2 := mul_le_mul hp hq (abs_nonneg _) (by norm_num)
      _ = 4 := by norm_num
  have key : ∀ (p q s t : F32) (e1 e2 e3 e4 : ℝ), p.nearTwo (2 / 100000) e1 →
      q.nearTwo (2 / 100000) e2 → s.nearTwo (2 / 100000) e3 → t.nearTwo (2 / 100000) e4 →
      (p * q - s * t).near (164 / 1000000) (e1 * e2 - e3 * e4) := by
    intro p q s t e1 e2 e3 e4 hp hq hs ht
    have h1 : (p * q).near (81 / 1000000) (e1 * e2) :=
      F32.near_mul hp.1 hq.1 hp.2 hq.2 (by norm_num) (by norm_num) (by norm_num)
    have h2 : (s * t).near (81 / 1000000) (e3 * e4) :=
      F32.near_mul hs.1 ht.1 hs.2 ht.2 (by norm_num) (by norm_num) (by norm_num)
    exact F32.near_sub h1 h2
      (le_trans (abs_sub _ _) (by linarith [b2 e1 e2 hp.2 hq.2, b2 e3 e4 hs.2 ht.2]))
      (by norm_num) (by norm_num)
  exact ⟨key _ _ _ _ _ _ _ _ hay hbz haz hby, key _ _ _ _ _ _ _ _ haz hbx hax hbz,
    key _ _ _ _ _ _ _ _ hax hby hay hbx⟩

/-- Claim C18 (as the code has it, in binary32): for every triple of finite
angles of magnitude at most `2 ^ 100`, and a library whose `sinf` and `cosf`
are accurate to `10⁻⁶`, each component of `upward` is within `0.0002` of the
same component of `CrossProduct(right, forward)`, and `CrossProduct(forward,
right)` is `-CrossProduct(right, forward)` component by component.  The
components are not exactly equal. -/
theorem angleVectors_left_handed32 (m : Libm) (hm : m.accurate) (ax ay az : ℚ)
    (hx : |ax| ≤ (2 : ℚ) ^ (100 : ℤ)) (hy : |ay| ≤ (2 : ℚ) ^ (100 : ℤ))
    (hz : |az| ≤ (2 : ℚ) ^ (100 : ℤ)) (f0 r0 u0 : Vector) :
    ∃ f r u : Vector,
      Vector.angleVectors m ⟨F32.fin ax, F32.fin ay, F32.fin az⟩ (some f0) (some r0) (some u0)
        = (some f, some r, some u) ∧
      (∃ p q : ℚ, u.x = F32.fin p ∧ (CrossProduct r f).x = F32.fin q ∧
        |(p : ℝ) - q| ≤ 2 / 10000) ∧
      (∃ p q : ℚ, u.y = F32.fin p ∧ (CrossProduct r f).y = F32.fin q ∧
        |(p : ℝ) - q| ≤ 2 / 10000) ∧
      (∃ p q : ℚ, u.z = F32.fin p ∧ (CrossProduct r f).z = F32.fin q ∧
        |(p : ℝ) - q| ≤ 2 / 10000) ∧
      CrossProduct f r = (CrossProduct r f).operator_neg := by
  obtain ⟨rx, ry, rz, f, r, u, hav, ⟨hfx, hfy, hfz⟩, ⟨hrx, hry, hrz⟩, ⟨hux, huy, huz⟩⟩ :=
    angleVectors_near m hm ax ay az hx hy hz f0 r0 u0
  have hX := Real.sin_sq_add_cos_sq (rx : ℝ)
  have hY := Real.sin_sq_add_cos_sq (ry : ℝ)
  obtain ⟨hcx, hcy, hcz⟩ := CrossProduct_near r f _ _ _ _ _ _ hrx hry hrz hfx hfy hfz
  have e1 : (-Real.sin rz * Real.sin rx * Real.sin ry - Real.cos rz * Real.cos ry)
        * -Real.sin rx - -Real.sin rz * Real.cos rx * (Real.cos rx * Real.sin ry)
      = Real.cos rz * Real.sin rx * Real.cos ry + Real.sin rz * Real.sin ry := by
    linear_combination (Real.sin rz * Real.sin ry) * hX
  have e2 : -Real.sin rz * Real.cos rx * (Real.cos rx * Real.cos ry)
        - (-Real.sin rz * Real.sin rx * Real.cos ry + Real.cos rz * Real.sin ry)
          * -Real.sin rx
      = Real.cos rz * Real.sin rx * Real.sin ry - Real.sin rz * Real.cos ry := by
    linear_combination (-(Real.sin rz * Real.cos ry)) * hX
  have e3 : (-Real.sin rz * Real.sin rx * Real.cos ry + Real.cos rz * Real.sin ry)
        * (Real.cos rx * Real.sin ry)
        - (-Real.sin rz * Real.sin rx * Real.sin ry - Real.cos rz * Real.cos ry)
          * (Real.cos rx * Real.cos ry)
      = Real.cos rz * Real.cos rx := by
    linear_combination (Real.cos rz * Real.cos rx) * hY
  rw [e1] at hcx
  rw [e2] at hcy
  rw [e3] at hcz
  refine ⟨f, r, u, hav, ?_, ?_, ?_, CrossProduct_swap f r⟩
  · obtain ⟨p, q, hp, hq, h⟩ := F32.near_near hux.1 hcx
    exact ⟨p, q, hp, hq, le_trans h (by norm_num)⟩
  · obtain ⟨p, q, hp, hq, h⟩ := F32.near_near huy.1 hcy
    exact ⟨p, q, hp, hq, le_trans h (by norm_num)⟩
  · obtain ⟨p, q, hp, hq, h⟩ := F32.near_near huz.1 hcz
    exact ⟨p, q, hp, hq, le_trans h (by norm_num)⟩

/-! ### The correctly rounded library -/

/-- Rounding of a positive real enclosed between two rationals that lie in
one rounding interval. -/
theorem rnd_of_mem_Icc (x : ℝ) (lo hi : ℚ) (e n : ℤ) (q : ℚ) (hlo : (lo : ℝ) ≤ x)
    (hhi : x ≤ (hi : ℝ)) (h0 : 0 < lo) (h1 : (2 : ℚ) ^ e ≤ lo) (h2 : hi < (2 : ℚ) ^ (e + 1))
    (he : -126 ≤ e) (h3 : ((n : ℚ) - 1 / 2) * (2 : ℚ) ^ (e - 23) < lo)
    (h4 : hi < ((n : ℚ) + 1 / 2) * (2 : ℚ) ^ (e - 23))
    (hq : q = (n : ℚ) * (2 : ℚ) ^ (e - 23)) (hfin : |q| < (2 : ℚ) ^ 128) :
    rnd x = F32.fin q := by
  have hxpos : 0 < x := lt_of_lt_of_le (by exact_mod_cast h0) hlo
  have c1 : ((2 : ℝ) ^ e) ≤ (lo : ℝ) := by
    have := (Rat.cast_le (K := ℝ)).mpr h1
    push_cast at this
    exact this
  have c2 : (hi : ℝ) < (2 : ℝ) ^ (e + 1) := by
    have := (Rat.cast_lt (K := ℝ)).mpr h2
    push_cast at this
    exact this
  have c3 : ((n : ℝ) - 1 / 2) * (2 : ℝ) ^ (e - 23) < (lo : ℝ) := by
    have := (Rat.cast_lt (K := ℝ)).mpr h3
    push_cast at this
    exact this
  have c4 : (hi : ℝ) < ((n : ℝ) + 1 / 2) * (2 : ℝ) ^ (e - 23) := by
    have := (Rat.cast_lt (K := ℝ)).mpr h4
    push_cast at this
    exact this
  have hu : (0 : ℝ) < (2 : ℝ) ^ (e - 23) := by positivity
  refine rnd_eval x e n q ?_ ?_ he ?_ hq hfin
  · rw [abs_of_pos hxpos]; linarith
  · rw [abs_of_pos hxpos]; linarith
  · rw [abs_lt]
    constructor
    · rw [lt_sub_iff_add_lt, lt_div_iff₀ hu]
      have e1 : (-(1 / 2) + (n : ℝ)) * (2 : ℝ) ^ (e - 23)
          = ((n : ℝ) - 1 / 2) * (2 : ℝ) ^ (e - 23) := by ring
      rw [e1]
      linarith
    · rw [sub_lt_iff_lt_add, div_lt_iff₀ hu]
      have e1 : ((1 : ℝ) / 2 + (n : ℝ)) * (2 : ℝ) ^ (e - 23)
          = ((n : ℝ) + 1 / 2) * (2 : ℝ) ^ (e - 23) := by ring
      rw [e1]
      linarith

/-- The rounding error of a real of magnitude at most `4`. -/
theorem rnd_real_error (x : ℝ) (hx : |x| ≤ 4) : (rnd x).near (1 / 1000000) x := by
  obtain ⟨w, hw, herr, -, -⟩ := rnd_error x (le_trans hx (by norm_num))
  refine ⟨w, hw, ?_⟩
  have h1 : (2 : ℝ) ^ (-24 : ℤ) * |x| ≤ (2 : ℝ) ^ (-24 : ℤ) * 4 :=
    mul_le_mul_of_nonneg_left hx (by positivity)
  have h2 : (2 : ℝ) ^ (-24 : ℤ) * 4 + (2 : ℝ) ^ (-150 : ℤ) ≤ 1 / 1000000 := by norm_num
  exact le_trans herr (le_trans (add_le_add_right h1 _) h2)

/-- The correctly rounded library is accurate. -/
theorem Libm.rounded_accurate : Libm.rounded.accurate := by
  refine ⟨fun a => ?_, fun a => ?_, fun y x => ?_⟩
  · exact rnd_real_error _ (le_trans (Real.abs_sin_le_one _) (by norm_num))
  · exact rnd_real_error _ (le_trans (Real.abs_cos_le_one _) (by norm_num))
  · obtain ⟨z, hz⟩ : ∃ z : ℂ, z = ⟨(x : ℝ), (y : ℝ)⟩ := ⟨_, rfl⟩
    have habs : Complex.abs z = Real.sqrt ((x : ℝ) * x + (y : ℝ) * y) := by
      rw [Complex.abs_apply, Complex.normSq_apply, hz]
    have hpi : |Complex.arg z| ≤ Real.pi := Complex.abs_arg_le_pi z
    refine ⟨Complex.arg z, ?_, hpi, ?_, ?_⟩
    · show (rnd (Complex.arg ⟨(x : ℝ), (y : ℝ)⟩)).near _ _
      rw [← hz]
      exact rnd_real_error _ (le_trans hpi (by linarith [Real.pi_lt_d4]))
    · rw [← habs]
      by_cases h0 : z = 0
      · have : (x : ℝ) = 0 := by
          have := congrArg Complex.re h0
          rw [hz] at this
          simpa using this
        rw [h0, this]
        simp
      · rw [Complex.cos_arg h0]
        have hne : Complex.abs z ≠ 0 := (map_ne_zero Complex.abs).mpr h0
        have hre : z.re = (x : ℝ) := by rw [hz]
        rw [hre]
        field_simp
    · rw [← habs, Complex.sin_arg]
      by_cases h0 : z = 0
      · have : (y : ℝ) = 0 := by
          have := congrArg Complex.im h0
          rw [hz] at this
          simpa using this
        rw [h0, this]
        simp
      · have hne : Complex.abs z ≠ 0 := (map_ne_zero Complex.abs).mpr h0
        have him : z.im = (y : ℝ) := by rw [hz]
        rw [him]
        field_simp

/-! ### `angleVectors` at a yaw of a quarter of a degree -/

/-- `deg2rad(0.25f)` is `9370165 / 2 ^ 31`. -/
theorem deg2rad_quarter : deg2rad (F32.fin (1 / 4)) = F32.fin (9370165 / 2147483648) := by
  rw [deg2rad, kDegreeToRadians_eq, fin_mul_fin]
  exact rnd_eval _ (-8) 9370165 _ (by norm_num [abs_of_pos]) (by norm_num [abs_of_pos])
    (by norm_num) (by norm_num [abs_lt]) (by norm_num) (by norm_num [abs_of_pos])

/-- `deg2rad(0.0f)` is `0`. -/
theorem deg2rad_zero32 : deg2rad (F32.fin 0) = F32.fin 0 := by
  rw [deg2rad, kDegreeToRadians_eq, fin_mul_fin, zero_mul, rnd_zero]

/-- The correctly rounded sine and cosine of `0`. -/
theorem sincos_zero : Libm.rounded.sinf (F32.fin 0) = F32.fin 0 ∧
    Libm.rounded.cosf (F32.fin 0) = F32.fin 1 := by
  constructor
  · show rnd (Real.sin ((0 : ℚ) : ℝ)) = F32.fin 0
    rw [Rat.cast_zero, Real.sin_zero, rnd_zero]
  · show rnd (Real.cos ((0 : ℚ) : ℝ)) = F32.fin 1
    rw [Rat.cast_zero, Real.cos_zero]
    exact rnd_one.2

/-- The correctly rounded sine of `9370165 / 2 ^ 31` (a quarter of a degree)
is `9370135 / 2 ^ 31`. -/
theorem sinf_quarter :
    Libm.rounded.sinf (F32.fin (9370165 / 2147483648)) = F32.fin (9370135 / 2147483648) := by
  show rnd (Real.sin ((9370165 / 2147483648 : ℚ) : ℝ)) = _
  have hb := Real.sin_bound (x := ((9370165 / 2147483648 : ℚ) : ℝ))
    (by push_cast; rw [abs_of_pos (by norm_num)]; norm_num)
  rw [abs_le] at hb
  refine rnd_of_mem_Icc _ (614081182237 / 140737488355328) (614081187551 / 140737488355328)
    (-8) 9370135 _ ?_ ?_ (by norm_num) (by norm_num) (by norm_num) (by norm_num)
    (by norm_num) (by norm_num) (by norm_num) (by norm_num [abs_of_pos])
  · have h1 := hb.1
    push_cast at h1 ⊢
    rw [abs_of_pos (by norm_num)] at h1
    norm_num at h1 ⊢
    linarith
  · have h2 := hb.2
    push_cast at h2 ⊢
    rw [abs_of_pos (by norm_num)] at h2
    norm_num at h2 ⊢
    linarith

/-- The correctly rounded cosine of `9370165 / 2 ^ 31` is `524283 / 524288`. -/
theorem cosf_quarter :
    Libm.rounded.cosf (F32.fin (9370165 / 2147483648)) = F32.fin (524283 / 524288) := by
  show rnd (Real.cos ((9370165 / 2147483648 : ℚ) : ℝ)) = _
  have hb := Real.cos_bound (x := ((9370165 / 2147483648 : ℚ) : ℝ))
    (by push_cast; rw [abs_of_pos (by norm_num)]; norm_num)
  rw [abs_le] at hb
  refine rnd_of_mem_Icc _ (281472297262223 / 281474976710656)
    (281472297272851 / 281474976710656)
    (-1) 16777056 _ ?_ ?_ (by norm_num) (by norm_num) (by norm_num) (by norm_num)
    (by norm_num) (by norm_num) (by norm_num) (by norm_num [abs_of_pos])
  · have h1 := hb.1
    push_cast at h1 ⊢
    rw [abs_of_pos (by norm_num)] at h1
    norm_num at h1 ⊢
    linarith
  · have h2 := hb.2
    push_cast at h2 ⊢
    rw [abs_of_pos (by norm_num)] at h2
    norm_num at h2 ⊢
    linarith

/-- The binary32 sum of the squares of that sine and cosine is
`1 - 2 ^ (-24)`. -/
theorem sq_add_sq_quarter :
    F32.fin (524283 / 524288) * F32.fin (524283 / 524288)
        + F32.fin (9370135 / 2147483648) * F32.fin (9370135 / 2147483648)
      = F32.fin (16777215 / 16777216) ∧
    F32.fin (9370135 / 2147483648) * F32.fin (9370135 / 2147483648)
        + F32.fin (524283 / 524288) * F32.fin (524283 / 524288)
      = F32.fin (16777215 / 16777216) := by
  have hA : F32.fin (524283 / 524288) * F32.fin (524283 / 524288)
      = F32.fin (262139 / 262144) := by
    rw [fin_mul_fin]
    exact rnd_eval _ (-1) 16776896 _ (by norm_num [abs_of_pos]) (by norm_num [abs_of_pos])
      (by norm_num) (by norm_num [abs_lt]) (by norm_num) (by norm_num [abs_of_pos])
  have hB : F32.fin (9370135 / 2147483648) * F32.fin (9370135 / 2147483648)
      = F32.fin (2616627 / 137438953472) := by
    rw [fin_mul_fin]
    exact rnd_eval _ (-16) 10466508 _ (by norm_num [abs_of_pos]) (by norm_num [abs_of_pos])
      (by norm_num) (by norm_num [abs_lt]) (by norm_num) (by norm_num [abs_of_pos])
  have hQ : rnd ((262139 / 262144 : ℚ) + 2616627 / 137438953472)
      = F32.fin (16777215 / 16777216) :=
    rnd_eval _ (-1) 16777215 _ (by norm_num [abs_of_pos]) (by norm_num [abs_of_pos])
      (by norm_num) (by norm_num [abs_lt]) (by norm_num) (by norm_num [abs_of_pos])
  rw [hA, hB, fin_add_fin, fin_add_fin, add_comm (2616627 / 137438953472 : ℚ), hQ]
  exact ⟨rfl, rfl⟩

/-- The binary32 values `524283 / 524288`, `9370135 / 2 ^ 31` and
`1 - 2 ^ (-24)` round to themselves. -/
theorem rnd_quarter_values :
    rnd (524283 / 524288 : ℚ) = F32.fin (524283 / 524288) ∧
      rnd (9370135 / 2147483648 : ℚ) = F32.fin (9370135 / 2147483648) ∧
      rnd (-(524283 / 524288) : ℚ) = F32.fin (-(524283 / 524288)) ∧
      rnd (16777215 / 16777216 : ℚ) = F32.fin (16777215 / 16777216) := by
  refine ⟨?_, ?_, ?_, ?_⟩
  · exact rnd_eval _ (-1) 16777056 _ (by norm_num [abs_of_pos]) (by norm_num [abs_of_pos])
      (by norm_num) (by norm_num [abs_lt]) (by norm_num) (by norm_num [abs_of_pos])
  · exact rnd_eval _ (-8) 9370135 _ (by norm_num [abs_of_pos]) (by norm_num [abs_of_pos])
      (by norm_num) (by norm_num [abs_lt]) (by norm_num) (by norm_num [abs_of_pos])
  · exact rnd_eval _ (-1) (-16777056) _ (by norm_num [abs_of_pos]) (by norm_num [abs_of_pos])
      (by norm_num) (by norm_num [abs_lt]) (by norm_num) (by norm_num [abs_of_pos])
  · exact rnd_eval _ (-1) 16777215 _ (by norm_num [abs_of_pos]) (by norm_num [abs_of_pos])
      (by norm_num) (by norm_num [abs_lt]) (by norm_num) (by norm_num [abs_of_pos])

/-- The three vectors written by `angleVectors` for the angles
`(0, 0.25, 0)` with the correctly rounded library. -/
theorem angleVectors_quarter (f0 r0 u0 : Vector) :
    Vector.angleVectors Libm.rounded ⟨F32.fin 0, F32.fin (1 / 4), F32.fin 0⟩
        (some f0) (some r0) (some u0)
      = (some ⟨F32.fin (524283 / 524288), F32.fin (9370135 / 2147483648), F32.fin 0⟩,
          some ⟨F32.fin (9370135 / 2147483648), F32.fin (-(524283 / 524288)), F32.fin 0⟩,
          some ⟨F32.fin 0, F32.fin 0, F32.fin 1⟩) := by
  obtain ⟨hc, hs, hnc, -⟩ := rnd_quarter_values
  have e0 : -F32.fin 0 = F32.fin 0 := by rw [neg_fin, neg_zero]
  have m00 : F32.fin 0 * F32.fin 0 = F32.fin 0 := fin_zero_mul_zero
  have m0c : F32.fin 0 * F32.fin (524283 / 524288) = F32.fin 0 := by
    rw [fin_mul_fin, zero_mul, rnd_zero]
  have m0s : F32.fin 0 * F32.fin (9370135 / 2147483648) = F32.fin 0 := by
    rw [fin_mul_fin, zero_mul, rnd_zero]
  have m01 : F32.fin 0 * F32.fin 1 = F32.fin 0 := by rw [fin_mul_fin, zero_mul, rnd_zero]
  have m10 : F32.fin 1 * F32.fin 0 = F32.fin 0 := by rw [fin_mul_fin, mul_zero, rnd_zero]
  have m11 : F32.fin 1 * F32.fin 1 = F32.fin 1 := by rw [fin_mul_fin, mul_one, rnd_one.1]
  have m1c : F32.fin 1 * F32.fin (524283 / 524288) = F32.fin (524283 / 524288) := by
    rw [fin_mul_fin, one_mul, hc]
  have m1s : F32.fin 1 * F32.fin (9370135 / 2147483648) = F32.fin (9370135 / 2147483648) := by
    rw [fin_mul_fin, one_mul, hs]
  have a0s : F32.fin 0 + F32.fin (9370135 / 2147483648) = F32.fin (9370135 / 2147483648) := by
    rw [fin_add_fin, zero_add, hs]
  have s0c : F32.fin 0 - F32.fin (524283 / 524288) = F32.fin (-(524283 / 524288)) := by
    rw [fin_sub_fin, zero_sub, hnc]
  have a00 : F32.fin 0 + F32.fin 0 = F32.fin 0 := fin_zero_add_zero
  have s00 : F32.fin 0 - F32.fin 0 = F32.fin 0 := by rw [fin_sub_fin, sub_zero, rnd_zero]
  simp only [Vector.angleVectors, deg2rad_zero32, deg2rad_quarter, sincos_zero.1, sincos_zero.2,
    sinf_quarter, cosf_quarter, e0, m00, m0c, m0s, m01, m10, m11, m1c, m1s, a0s, s0c, a00, s00]

/-- Claim C1 fails as stated: for the angles `(0, 0.25, 0)` and a correctly
rounded library, `forward` is `(524283/524288, 9370135/2^31, 0)` and its
`DotProduct` with itself is `16777215/16777216 = 1 - 2^(-24)`, which does not
compare equal to `1.0f`. -/
theorem angleVectors_forward_not_unit :
    ∃ f r u : Vector,
      Vector.angleVectors Libm.rounded ⟨F32.fin 0, F32.fin (1 / 4), F32.fin 0⟩
          (some ⟨F32.fin 0, F32.fin 0, F32.fin 0⟩) (some ⟨F32.fin 0, F32.fin 0, F32.fin 0⟩)
          (some ⟨F32.fin 0, F32.fin 0, F32.fin 0⟩) = (some f, some r, some u) ∧
        DotProduct f f = F32.fin (16777215 / 16777216) ∧
        F32.eq (DotProduct f f) (lit 1) = false := by
  refine ⟨_, _, _, angleVectors_quarter _ _ _, ?_, ?_⟩
  · show F32.fin (524283 / 524288) * F32.fin (524283 / 524288)
        + F32.fin (9370135 / 2147483648) * F32.fin (9370135 / 2147483648)
        + F32.fin 0 * F32.fin 0 = _
    rw [sq_add_sq_quarter.1, fin_zero_mul_zero, fin_add_fin, add_zero, rnd_quarter_values.2.2.2]
  · show F32.eq (F32.fin (524283 / 524288) * F32.fin (524283 / 524288)
        + F32.fin (9370135 / 2147483648) * F32.fin (9370135 / 2147483648)
        + F32.fin 0 * F32.fin 0) (lit 1) = false
    rw [sq_add_sq_quarter.1, fin_zero_mul_zero, fin_add_fin, add_zero,
      rnd_quarter_values.2.2.2, lit_one, eq_fin_fin, decide_eq_false_iff_not]
    norm_num

/-- Claim C18 fails as stated: for the angles `(0, 0.25, 0)` and a correctly
rounded library, `upward` is `(0, 0, 1)` while the `z` component of
`CrossProduct(right, forward)` is `16777215/16777216`, so
`upward == CrossProduct(right, forward)` is false. -/
theorem angleVectors_upward_not_cross :
    ∃ f r u : Vector,
      Vector.angleVectors Libm.rounded ⟨F32.fin 0, F32.fin (1 / 4), F32.fin 0⟩
          (some ⟨F32.fin 0, F32.fin 0, F32.fin 0⟩) (some ⟨F32.fin 0, F32.fin 0, F32.fin 0⟩)
          (some ⟨F32.fin 0, F32.fin 0, F32.fin 0⟩) = (some f, some r, some u) ∧
        u.z = F32.fin 1 ∧ (CrossProduct r f).z = F32.fin (16777215 / 16777216) ∧
        u.operator_eq (CrossProduct r f) = false := by
  have hz : (CrossProduct
      (⟨F32.fin (9370135 / 2147483648), F32.fin (-(524283 / 524288)), F32.fin 0⟩ : Vector)
      ⟨F32.fin (524283 / 524288), F32.fin (9370135 / 2147483648), F32.fin 0⟩).z
      = F32.fin (16777215 / 16777216) := by
    show F32.fin (9370135 / 2147483648) * F32.fin (9370135 / 2147483648)
        - F32.fin (-(524283 / 524288)) * F32.fin (524283 / 524288) = _
    have hneg : F32.fin (-(524283 / 524288)) * F32.fin (524283 / 524288)
        = -(F32.fin (524283 / 524288) * F32.fin (524283 / 524288)) := by
      rw [fin_mul_fin, fin_mul_fin, neg_mul]
      exact rnd_neg _
    have hsub : ∀ a b : F32, a - -b = a + b := by
      intro a b
      show F32.add a (F32.neg (F32.neg b)) = F32.add a b
      have : F32.neg (F32.neg b) = b := F32.neg_neg32 b
      rw [this]
    rw [hneg, hsub, sq_add_sq_quarter.2]
  refine ⟨_, _, _, angleVectors_quarter _ _ _, rfl, hz, ?_⟩
  unfold Vector.operator_eq
  rw [hz]
  have : F32.eq (F32.fin 1) (F32.fin (16777215 / 16777216)) = false := by
    rw [eq_fin_fin, decide_eq_false_iff_not]; norm_num
  show (_ && F32.eq (F32.fin 1) (F32.fin (16777215 / 16777216))) = false
  rw [this, Bool.and_false]

/-- Witness of `angleVectors_orthonormal32` at the angles `(30, 45, 60)` with
the correctly rounded library. -/
theorem angleVectors_orthonormal32_witness :
    ∃ f r u : Vector,
      Vector.angleVectors Libm.rounded ⟨F32.fin 30, F32.fin 45, F32.fin 60⟩
          (some ⟨F32.fin 0, F32.fin 0, F32.fin 0⟩) (some ⟨F32.fin 0, F32.fin 0, F32.fin 0⟩)
          (some ⟨F32.fin 0, F32.fin 0, F32.fin 0⟩) = (some f, some r, some u) ∧
      ((DotProduct f f).near (3 / 10000) 1 ∧ (DotProduct r r).near (3 / 10000) 1 ∧
        (DotProduct u u).near (3 / 10000) 1) ∧
      (f.Length.near (3 / 10000) 1 ∧ r.Length.near (3 / 10000) 1 ∧
        u.Length.near (3 / 10000) 1) ∧
      ((DotProduct f r).near (3 / 10000) 0 ∧ (DotProduct f u).near (3 / 10000) 0 ∧
        (DotProduct r u).near (3 / 10000) 0) :=
  angleVectors_orthonormal32 Libm.rounded Libm.rounded_accurate 30 45 60
    (by norm_num [abs_of_pos]) (by norm_num [abs_of_pos]) (by norm_num [abs_of_pos]) _ _ _

/-- Witness of `angleVectors_left_handed32` at the angles `(30, 45, 60)` with
the correctly rounded library. -/
theorem angleVectors_left_handed32_witness :
    ∃ f r u : Vector,
      Vector.angleVectors Libm.rounded ⟨F32.fin 30, F32.fin 45, F32.fin 60⟩
          (some ⟨F32.fin 0, F32.fin 0, F32.fin 0⟩) (some ⟨F32.fin 0, F32.fin 0, F32.fin 0⟩)
          (some ⟨F32.fin 0, F32.fin 0, F32.fin 0⟩) = (some f, some r, some u) ∧
      (∃ p q : ℚ, u.x = F32.fin p ∧ (CrossProduct r f).x = F32.fin q ∧
        |(p : ℝ) - q| ≤ 2 / 10000) ∧
      (∃ p q : ℚ, u.y = F32.fin p ∧ (CrossProduct r f).y = F32.fin q ∧
        |(p : ℝ) - q| ≤ 2 / 10000) ∧
      (∃ p q : ℚ, u.z = F32.fin p ∧ (CrossProduct r f).z = F32.fin q ∧
        |(p : ℝ) - q| ≤ 2 / 10000) ∧
      CrossProduct f r = (CrossProduct r f).operator_neg :=
  angleVectors_left_handed32 Libm.rounded Libm.rounded_accurate 30 45 60
    (by norm_num [abs_of_pos]) (by norm_num [abs_of_pos]) (by norm_num [abs_of_pos]) _ _ _

/-! ### Angles through `rad2deg` and `deg2rad` -/

/-- The sine is 1-Lipschitz. -/
theorem abs_sin_sub_sin_le (a b : ℝ) : |Real.sin a - Real.sin b| ≤ |a - b| := by
  rw [Real.sin_sub_sin, abs_mul, abs_mul]
  have h1 : |Real.sin ((a - b) / 2)| ≤ |(a - b) / 2| := Real.abs_sin_le_abs
  have h2 : |Real.cos ((a + b) / 2)| ≤ 1 := Real.abs_cos_le_one _
  have h3 : |(a - b) / 2| = |a - b| / 2 := by rw [abs_div]; norm_num
  have h4 : |(2 : ℝ)| = 2 := by norm_num
  rw [h4]
  calc 2 * |Real.sin ((a - b) / 2)| * |Real.cos ((a + b) / 2)|
      ≤ 2 * |(a - b) / 2| * 1 :=
        mul_le_mul (mul_le_mul_of_nonneg_left h1 (by norm_num)) h2 (abs_nonneg _)
          (by positivity)
    _ = |a - b| := by rw [h3]; ring

/-- The cosine is 1-Lipschitz. -/
theorem abs_cos_sub_cos_le (a b : ℝ) : |Real.cos a - Real.cos b| ≤ |a - b| := by
  rw [Real.cos_sub_cos, abs_mul, abs_mul]
  have h1 : |Real.sin ((a - b) / 2)| ≤ |(a - b) / 2| := Real.abs_sin_le_abs
  have h2 : |Real.sin ((a + b) / 2)| ≤ 1 := Real.abs_sin_le_one _
  have h3 : |(a - b) / 2| = |a - b| / 2 := by rw [abs_div]; norm_num
  have h4 : |(-2 : ℝ)| = 2 := by norm_num
  rw [h4]
  calc 2 * |Real.sin ((a + b) / 2)| * |Real.sin ((a - b) / 2)|
      ≤ 2 * 1 * |(a - b) / 2| :=
        mul_le_mul (mul_le_mul_of_nonneg_left h2 (by norm_num)) h1 (abs_nonneg _)
          (by norm_num)
    _ = |a - b| := by rw [h3]; ring

/-- `kRadiansToDegree` is `469367/8192` in binary32. -/
theorem kRadiansToDegree_eq : kRadiansToDegree = F32.fin (469367 / 8192) := by
  rw [kRadiansToDegree, kMathPi_eq, lit_180, fin_div_fin _ _ (by norm_num)]
  exact rnd_eval _ 5 15019744 _ (by norm_num [abs_of_pos]) (by norm_num [abs_of_pos])
    (by norm_num) (by norm_num [abs_lt]) (by norm_num) (by norm_num [abs_of_pos])

/-- An angle of magnitude at most `4` radians converted to degrees and back
changes by at most `10⁻⁶`. -/
theorem deg2rad_rad2deg_close (t : ℚ) (ht : |t| ≤ 4) :
    ∃ r : ℚ, deg2rad (rad2deg (F32.fin t)) = F32.fin r ∧ |(r : ℝ) - t| ≤ 1 / 1000000 := by
  obtain ⟨u, hu⟩ : ∃ u : ℚ, u = (2 : ℚ) ^ (-24 : ℤ) := ⟨_, rfl⟩
  obtain ⟨η, hη⟩ : ∃ η : ℚ, η = (2 : ℚ) ^ (-150 : ℤ) := ⟨_, rfl⟩
  have hu0 : 0 ≤ u := by rw [hu]; positivity
  have hu1 : u ≤ 597 / 10000000000 := by rw [hu]; norm_num
  have hη0 : 0 ≤ η := by rw [hη]; positivity
  have hη1 : η ≤ 1 / 1000000000000 := by rw [hη]; norm_num
  -- to degrees
  have h1 : |t * (469367 / 8192)| ≤ 230 := by
    rw [abs_mul, abs_of_pos (by norm_num : (0 : ℚ) < 469367 / 8192)]
    calc |t| * (469367 / 8192) ≤ 4 * (469367 / 8192) :=
          mul_le_mul_of_nonneg_right ht (by norm_num)
      _ ≤ 230 := by norm_num
  obtain ⟨pd, hpd, hpderr, -, -⟩ := rnd_error (t * (469367 / 8192)) (le_trans h1 (by norm_num))
  simp only [Rat.cast_id] at hpderr
  rw [← hu, ← hη] at hpderr
  have hup : u * |t * (469367 / 8192)| ≤ 597 / 10000000000 * 230 :=
    mul_le_mul hu1 h1 (abs_nonneg _) (by norm_num)
  have hpd1 : |pd - t * (469367 / 8192)| ≤ 138 / 10000000 := by linarith
  have hpd2 : |pd| ≤ 231 := by
    have := abs_add (pd - t * (469367 / 8192)) (t * (469367 / 8192))
    rw [sub_add_cancel] at this
    linarith
  -- back to radians
  have h2 : |pd * (9370165 / 536870912)| ≤ 41 / 10 := by
    rw [abs_mul, abs_of_pos (by norm_num : (0 : ℚ) < 9370165 / 536870912)]
    calc |pd| * (9370165 / 536870912) ≤ 231 * (9370165 / 536870912) :=
          mul_le_mul_of_nonneg_right hpd2 (by norm_num)
      _ ≤ 41 / 10 := by norm_num
  obtain ⟨r, hr, hrerr, -, -⟩ := rnd_error (pd * (9370165 / 536870912))
    (le_trans h2 (by norm_num))
  simp only [Rat.cast_id] at hrerr
  rw [← hu, ← hη] at hrerr
  have hur : u * |pd * (9370165 / 536870912)| ≤ 597 / 10000000000 * (41 / 10) :=
    mul_le_mul hu1 h2 (abs_nonneg _) (by norm_num)
  have hr1 : |r - pd * (9370165 / 536870912)| ≤ 25 / 100000000 := by linarith
  refine ⟨r, ?_, ?_⟩
  · rw [rad2deg, kRadiansToDegree_eq, fin_mul_fin, hpd, deg2rad, kDegreeToRadians_eq,
      fin_mul_fin, hr]
  · have e : r - t = (r - pd * (9370165 / 536870912))
        + (pd - t * (469367 / 8192)) * (9370165 / 536870912)
        + t * (469367 / 8192 * (9370165 / 536870912) - 1) := by ring
    have h3 : |(pd - t * (469367 / 8192)) * (9370165 / 536870912)| ≤ 25 / 100000000 := by
      rw [abs_mul, abs_of_pos (by norm_num : (0 : ℚ) < 9370165 / 536870912)]
      calc |pd - t * (469367 / 8192)| * (9370165 / 536870912)
          ≤ 138 / 10000000 * (9370165 / 536870912) :=
            mul_le_mul_of_nonneg_right hpd1 (by norm_num)
        _ ≤ 25 / 100000000 := by norm_num
    have h4 : |t * (469367 / 8192 * (9370165 / 536870912) - 1)| ≤ 26 / 100000000 := by
      rw [abs_mul]
      have : |(469367 / 8192 * (9370165 / 536870912) - 1 : ℚ)| ≤ 63 / 1000000000 := by
        rw [abs_le]; constructor <;> norm_num
      calc |t| * |(469367 / 8192 * (9370165 / 536870912) - 1 : ℚ)|
          ≤ 4 * (63 / 1000000000) := mul_le_mul ht this (abs_nonneg _) (by norm_num)
        _ ≤ 26 / 100000000 := by norm_num
    have hq : |r - t| ≤ 1 / 1000000 := by
      rw [e]
      refine le_trans (abs_add _ _) ?_
      have := abs_add (r - pd * (9370165 / 536870912))
        ((pd - t * (469367 / 8192)) * (9370165 / 536870912))
      linarith
    have hc : ((|r - t| : ℚ) : ℝ) ≤ ((1 / 1000000 : ℚ) : ℝ) := Rat.cast_le.mpr hq
    push_cast at hc
    exact hc

/-- The sine and cosine that `angleVectors` computes from an angle returned by
`atan2f` and converted to degrees by `angles()`: unit approximations of the
sine and cosine of the exact angle. -/
theorem sincos_of_atan2f (m : Libm) (hm : m.accurate) (a : F32) (θ : ℝ)
    (ha : a.near (1 / 1000000) θ) (hθ : |θ| ≤ Real.pi) :
    (m.sinf (deg2rad (rad2deg a))).nearUnit (3 / 1000000) (Real.sin θ) ∧
      (m.cosf (deg2rad (rad2deg a))).nearUnit (3 / 1000000) (Real.cos θ) := by
  obtain ⟨t, ht, hterr⟩ := ha
  have htabs : |t| ≤ 4 := by
    have h1 := abs_add ((t : ℝ) - θ) θ
    rw [sub_add_cancel] at h1
    have h2 : |(t : ℝ)| ≤ 4 := by linarith [Real.pi_lt_d4]
    have h3 : ((|t| : ℚ) : ℝ) ≤ ((4 : ℚ) : ℝ) := by push_cast; exact h2
    exact Rat.cast_le.mp h3
  obtain ⟨r, hr, hrerr⟩ := deg2rad_rad2deg_close t htabs
  have hrθ : |(r : ℝ) - θ| ≤ 2 / 1000000 := by
    have e : (r : ℝ) - θ = ((r : ℝ) - t) + ((t : ℝ) - θ) := by ring
    rw [e]
    exact le_trans (abs_add _ _) (by linarith)
  rw [ht, hr]
  obtain ⟨⟨s, hs, hserr⟩, -⟩ := (hm.sincos r).1
  obtain ⟨⟨c, hc, hcerr⟩, -⟩ := (hm.sincos r).2
  refine ⟨⟨⟨s, hs, ?_⟩, Real.abs_sin_le_one _⟩, ⟨⟨c, hc, ?_⟩, Real.abs_cos_le_one _⟩⟩
  · have e : (s : ℝ) - Real.sin θ = ((s : ℝ) - Real.sin r) + (Real.sin r - Real.sin θ) := by
      ring
    rw [e]
    refine le_trans (abs_add _ _) ?_
    linarith [abs_sin_sub_sin_le (r : ℝ) θ]
  · have e : (c : ℝ) - Real.cos θ = ((c : ℝ) - Real.cos r) + (Real.cos r - Real.cos θ) := by
      ring
    rw [e]
    refine le_trans (abs_add _ _) ?_
    linarith [abs_cos_sub_cos_le (r : ℝ) θ]

/-! ### The scale of `normalize()` against the direction cosines -/

/-- A positive real whose square is within `γ` of one is within `γ` of one. -/
theorem abs_sub_one_le_of_sq (K γ : ℝ) (hK : 0 < K) (h : |K * K - 1| ≤ γ) : |K - 1| ≤ γ := by
  have e : K * K - 1 = (K - 1) * (K + 1) := by ring
  rw [e, abs_mul, abs_of_pos (by linarith : 0 < K + 1)] at h
  have : |K - 1| ≤ |K - 1| * (K + 1) := by
    have := mul_le_mul_of_nonneg_left (by linarith : (1 : ℝ) ≤ K + 1) (abs_nonneg (K - 1))
    linarith
  linarith

/-- A direction cosine `a` against the scaled component `x · i = a · K`, for a
factor `K` close to one. -/
theorem component_close (x i a K γ : ℝ) (ha : |a| ≤ 1) (hK : 0 < K)
    (hK2 : |K * K - 1| ≤ γ) (hxi : x * i = a * K) : |a - x * i| ≤ γ := by
  have h1 := abs_sub_one_le_of_sq K γ hK hK2
  have e : a - x * i = a * (1 - K) := by rw [hxi]; ring
  rw [e, abs_mul, abs_sub_comm 1 K]
  calc |a| * |K - 1| ≤ 1 * γ := mul_le_mul ha h1 (abs_nonneg _) (by norm_num)
    _ = γ := one_mul γ

/-- The two factors between the scale `i` of `normalize()` and the direction
cosines: `P = x² + y²`, `M` the square of the binary32 `Length2D()`, `zz = z²`. -/
theorem scale_ratio (P M zz i : ℚ) (hP : 0 < P) (hzz : 0 ≤ zz)
    (hM : |M - P| ≤ 11 / 10000000 * P) (hi : |i * i * (P + zz) - 1| ≤ 4 / 100000) :
    0 < M ∧ |(M + zz) * (i * i) * P / M - 1| ≤ 5 / 100000 ∧
      |(M + zz) * (i * i) - 1| ≤ 5 / 100000 := by
  have hM2 := abs_le.mp hM
  have hi2 := abs_le.mp hi
  have hMpos : 0 < M := by linarith [hM2.1]
  have hii : 0 ≤ i * i := mul_self_nonneg i
  -- `i² · P` is at most `i² · (P + zz)`
  have hiP : i * i * P ≤ 1 + 4 / 100000 := by
    have : i * i * P ≤ i * i * (P + zz) := mul_le_mul_of_nonneg_left (by linarith) hii
    linarith [hi2.2]
  have hiP0 : 0 ≤ i * i * P := mul_nonneg hii hP.le
  -- the second factor
  have hN : |(M + zz) * (i * i) - 1| ≤ 42 / 1000000 := by
    have e : (M + zz) * (i * i) - 1 = (M - P) * (i * i) + (i * i * (P + zz) - 1) := by ring
    rw [e]
    refine le_trans (abs_add _ _) ?_
    have h1 : |(M - P) * (i * i)| ≤ 11 / 10000000 * (i * i * P) := by
      rw [abs_mul, abs_of_nonneg hii]
      calc |M - P| * (i * i) ≤ 11 / 10000000 * P * (i * i) :=
            mul_le_mul_of_nonneg_right hM hii
        _ = 11 / 10000000 * (i * i * P) := by ring
    linarith
  have hN2 := abs_le.mp hN
  refine ⟨hMpos, ?_, le_trans hN (by norm_num)⟩
  have e : (M + zz) * (i * i) * P / M - 1 = ((M + zz) * (i * i) * P - M) / M := by
    field_simp
  rw [e, abs_div, abs_of_pos hMpos, div_le_iff₀ hMpos]
  have e2 : (M + zz) * (i * i) * P - M
      = (M + zz) * (i * i) * (P - M) + M * ((M + zz) * (i * i) - 1) := by ring
  rw [e2]
  refine le_trans (abs_add _ _) ?_
  have hNi0 : 0 ≤ (M + zz) * (i * i) := by linarith [hN2.1]
  have h1 : |(M + zz) * (i * i) * (P - M)| ≤ (1 + 42 / 1000000) * (11 / 10000000 * P) := by
    rw [abs_mul, abs_of_nonneg hNi0, abs_sub_comm]
    exact mul_le_mul (by linarith [hN2.2]) hM (abs_nonneg _) (by norm_num)
  have h2 : |M * ((M + zz) * (i * i) - 1)| ≤ M * (42 / 1000000) := by
    rw [abs_mul, abs_of_pos hMpos]
    exact mul_le_mul_of_nonneg_left hN hMpos.le
  linarith [hM2.1]

/-! ### Round trip through `angles()` and `angleVectors` -/

/-- The guard `fzero` holds of every value of magnitude below `0.01f`, under
either `abs`. -/
theorem fzero_of_abs_small (k : AbsKind) (x : ℚ) (h : |x| < 5368709 / 536870912) :
    fzero k (F32.fin x) = true := by
  cases k
  · simp only [fzero, absCall, F32.fabs, kFloatEpsilon_eq, lt_fin_fin, decide_eq_true_eq]
    exact h
  · have h2 := abs_lt.mp h
    have ht : static_cast_int x = 0 := by
      unfold static_cast_int
      split_ifs with h0
      · rw [Int.floor_eq_zero_iff]
        exact ⟨h0, lt_trans h2.2 (by norm_num)⟩
      · rw [Int.ceil_eq_zero_iff]
        exact ⟨lt_trans (by norm_num) h2.1, (not_le.mp h0).le⟩
    simp only [fzero, absCall, toInt_fin, ht, abs_zero, kFloatEpsilon_eq]
    rw [ofInt_eq 0 (by norm_num)]
    simp only [lt_fin_fin, decide_eq_true_eq]
    norm_num

/-- Outside the vertical special case of `angles()` the squared horizontal
length is at least `0.000099`. -/
theorem sumsq_ge_of_not_vertical (k : AbsKind) (x y : ℚ)
    (hv : (fzero k (F32.fin x) && fzero k (F32.fin y)) = false) :
    99 / 1000000 ≤ x * x + y * y := by
  have key : ∀ w : ℚ, fzero k (F32.fin w) = false → 99 / 1000000 ≤ w * w := by
    intro w hw
    have h1 : 5368709 / 536870912 ≤ |w| := by
      by_contra hlt
      rw [fzero_of_abs_small k w (not_le.mp hlt)] at hw
      exact Bool.noConfusion hw
    have h2 := mul_le_mul h1 h1 (by norm_num) (abs_nonneg _)
    rw [abs_mul_abs_self] at h2
    exact le_trans (by norm_num) h2
  rw [Bool.and_eq_false_iff] at hv
  rcases hv with h | h
  · linarith [key x h, mul_self_nonneg y]
  · linarith [key y h, mul_self_nonneg x]

/-- The binary32 `Length2D()` outside the vertical special case: a positive
value `ℓ` whose square is within `1.1 · 10⁻⁶` (relative) of `x² + y²`. -/
theorem Length2D_near (x y z : ℚ) (hx : |x| ≤ (2 : ℚ) ^ (60 : ℤ))
    (hy : |y| ≤ (2 : ℚ) ^ (60 : ℤ)) (hP : 99 / 1000000 ≤ x * x + y * y) :
    ∃ l : ℚ, (⟨F32.fin x, F32.fin y, F32.fin z⟩ : Vector).Length2D = F32.fin l ∧ 0 < l ∧
      |l * l - (x * x + y * y)| ≤ 11 / 10000000 * (x * x + y * y) := by
  obtain ⟨S, hS, hS0, hSerr⟩ := sumsq2_error x y hx hy
  have hle := sumsq_le x y 0 hx hy (by rw [abs_zero]; positivity)
  simp only [mul_zero, add_zero] at hle
  obtain ⟨Q, hQ⟩ : ∃ Q : ℚ, Q = (2 : ℚ) ^ (120 : ℤ) := ⟨_, rfl⟩
  have hQ0 : 0 < Q := by rw [hQ]; positivity
  have e124 : (2 : ℚ) ^ (124 : ℤ) = 16 * Q := by rw [hQ]; norm_num
  rw [← hQ] at hle
  have hη : (2 : ℚ) ^ (-147 : ℤ) ≤ 1 / 10000000000000 := by norm_num
  have hS2 := abs_le.mp hSerr
  have hSlo : (2 : ℚ) ^ (-122 : ℤ) ≤ S :=
    le_trans (by norm_num : (2 : ℚ) ^ (-122 : ℤ) ≤ 9 / 100000) (by linarith [hS2.1])
  have hShi : S ≤ (2 : ℚ) ^ (124 : ℤ) := by rw [e124]; linarith [hS2.2]
  obtain ⟨l, hl, -, -, hnorm⟩ := sqrt_error S hS0 hShi
  obtain ⟨hlpos, hlerr⟩ := hnorm hSlo
  have hl2 := abs_le.mp hlerr
  refine ⟨l, ?_, hlpos, ?_⟩
  · show F32.sqrt (F32.fin x * F32.fin x + F32.fin y * F32.fin y) = _
    rw [hS, hl]
  · rw [abs_le]
    constructor <;> linarith [hl2.1, hl2.2, hS2.1, hS2.2]

/-- The round trip, in terms of the direction cosines: outside the vertical
special case of `angles()` and outside the fallback of `normalize()`, the
`forward` vector written by `angleVectors` approximates `(a, b, -c)` while
`normalize()` multiplies the components by a scale `i` with `x · i`, `y · i`,
`z · i` within `0.00005` of `(a, b, c)`. -/
theorem roundtrip_near (k : AbsKind) (m : Libm) (hm : m.accurate) (x y z : ℚ)
    (hx : |x| ≤ (2 : ℚ) ^ (30 : ℤ)) (hy : |y| ≤ (2 : ℚ) ^ (30 : ℤ))
    (hz : |z| ≤ (2 : ℚ) ^ (30 : ℤ))
    (hv : (fzero k (F32.fin x) && fzero k (F32.fin y)) = false)
    (hn : fzero k ((⟨F32.fin x, F32.fin y, F32.fin z⟩ : Vector).Length + kFloatCmpEpsilon)
      = false) (f0 : Vector) :
    ∃ (a b c : ℝ) (i : ℚ) (f : Vector),
      Vector.angleVectors m ((⟨F32.fin x, F32.fin y, F32.fin z⟩ : Vector).angles k m)
        (some f0) none none = (some f, none, none) ∧
      (f.x.near (13 / 1000000) a ∧ f.y.near (13 / 1000000) b ∧ f.z.near (3 / 1000000) (-c)) ∧
      (⟨F32.fin x, F32.fin y, F32.fin z⟩ : Vector).normalize k
        = ⟨F32.fin x * F32.fin i, F32.fin y * F32.fin i, F32.fin z * F32.fin i⟩ ∧
      (|a| ≤ 1 ∧ |b| ≤ 1 ∧ |c| ≤ 1) ∧
      (|a - (x : ℝ) * i| ≤ 5 / 100000 ∧ |b - (y : ℝ) * i| ≤ 5 / 100000 ∧
        |c - (z : ℝ) * i| ≤ 5 / 100000) := by
  have hx60 := abs_le_of_le_two_pow_30 x hx
  have hy60 := abs_le_of_le_two_pow_30 y hy
  have hz60 := abs_le_of_le_two_pow_30 z hz
  have hP := sumsq_ge_of_not_vertical k x y hv
  have hPpos : 0 < x * x + y * y := lt_of_lt_of_le (by norm_num) hP
  -- the horizontal length
  obtain ⟨l, hl, hlpos, hlerr⟩ := Length2D_near x y z hx60 hy60 hP
  -- the two angles
  obtain ⟨θp, hθp, hθpπ, hpcos, hpsin⟩ := hm.2.2 z l
  obtain ⟨θy, hθy, hθyπ, hycos, hysin⟩ := hm.2.2 y x
  obtain ⟨hsx, hcx⟩ := sincos_of_atan2f m hm _ θp hθp hθpπ
  obtain ⟨hsy, hcy⟩ := sincos_of_atan2f m hm _ θy hθy hθyπ
  -- the scale of `normalize()`
  obtain ⟨S, hS, hS0, hSerr⟩ := sumsq3_error x y z hx60 hy60 hz60
  obtain ⟨L, len, hL, hlen, hcase⟩ :=
    guarded_length_scale k _ S (sumsq_le x y z hx60 hy60 hz60) hS0 hSerr
  have hLen : (⟨F32.fin x, F32.fin y, F32.fin z⟩ : Vector).Length = F32.fin L := by
    show F32.sqrt (F32.fin x * F32.fin x + F32.fin y * F32.fin y + F32.fin z * F32.fin z) = _
    rw [hS, hL]
  rw [hLen, hlen] at hn
  rcases hcase with hfz | ⟨hfz, i, hi, hipos, hiT⟩
  · rw [hfz] at hn
    exact Bool.noConfusion hn
  obtain ⟨hMpos, hK2, hKz2⟩ :=
    scale_ratio (x * x + y * y) (l * l) (z * z) i hPpos (mul_self_nonneg z) hlerr hiT
  -- the reals behind the angles
  obtain ⟨ρ, hρ⟩ : ∃ ρ : ℝ, ρ = Real.sqrt ((x : ℝ) * x + (y : ℝ) * y) := ⟨_, rfl⟩
  obtain ⟨σ, hσ⟩ : ∃ σ : ℝ, σ = Real.sqrt ((l : ℝ) * l + (z : ℝ) * z) := ⟨_, rfl⟩
  rw [← hρ] at hycos hysin
  rw [← hσ] at hpcos hpsin
  have hlR : (0 : ℝ) < (l : ℝ) := by exact_mod_cast hlpos
  have hiR : (0 : ℝ) < (i : ℝ) := by exact_mod_cast hipos
  have hρρ : ρ * ρ = (x : ℝ) * x + (y : ℝ) * y := by
    rw [hρ]
    exact Real.mul_self_sqrt (add_nonneg (mul_self_nonneg _) (mul_self_nonneg _))
  have hσσ : σ * σ = (l : ℝ) * l + (z : ℝ) * z := by
    rw [hσ]
    exact Real.mul_self_sqrt (add_nonneg (mul_self_nonneg _) (mul_self_nonneg _))
  have hρpos : 0 < ρ := by
    rw [hρ]
    apply Real.sqrt_pos.mpr
    exact_mod_cast hPpos
  have hσpos : 0 < σ := by
    rw [hσ]
    apply Real.sqrt_pos.mpr
    have := mul_pos hlR hlR
    nlinarith [mul_self_nonneg (z : ℝ)]
  -- the factors
  have hKx : |(σ * ρ * i / l) * (σ * ρ * i / l) - 1| ≤ 5 / 100000 := by
    have e : (σ * ρ * i / l) * (σ * ρ * i / l)
        = (((l * l + z * z) * (i * i) * (x * x + y * y) / (l * l) : ℚ) : ℝ) := by
      push_cast
      rw [← hρρ, ← hσσ]
      field_simp
      ring
    rw [e]
    have hc : ((|(l * l + z * z) * (i * i) * (x * x + y * y) / (l * l) - 1| : ℚ) : ℝ)
        ≤ ((5 / 100000 : ℚ) : ℝ) := Rat.cast_le.mpr hK2
    push_cast at hc ⊢
    exact hc
  have hKz : |(σ * i) * (σ * i) - 1| ≤ 5 / 100000 := by
    have e : (σ * i) * (σ * i) = (((l * l + z * z) * (i * i) : ℚ) : ℝ) := by
      push_cast
      rw [← hσσ]
      ring
    rw [e]
    have hc : ((|(l * l + z * z) * (i * i) - 1| : ℚ) : ℝ) ≤ ((5 / 100000 : ℚ) : ℝ) :=
      Rat.cast_le.mpr hKz2
    push_cast at hc ⊢
    exact hc
  have hKpos : 0 < σ * ρ * i / l := div_pos (mul_pos (mul_pos hσpos hρpos) hiR) hlR
  have hKzpos : 0 < σ * i := mul_pos hσpos hiR
  have b1 : ∀ p q : ℝ, |p| ≤ 1 → |q| ≤ 1 → |p * q| ≤ 1 := by
    intro p q hp hq
    rw [abs_mul]
    exact mul_le_one₀ hp (abs_nonneg _) hq
  have ha1 := b1 _ _ (Real.abs_cos_le_one θp) (Real.abs_cos_le_one θy)
  have hb1 := b1 _ _ (Real.abs_cos_le_one θp) (Real.abs_sin_le_one θy)
  have hc1 := Real.abs_sin_le_one θp
  have hfw : Vector.angleVectors m ((⟨F32.fin x, F32.fin y, F32.fin z⟩ : Vector).angles k m)
      (some f0) none none
      = (some ⟨m.cosf (deg2rad (rad2deg (m.atan2f (F32.fin z) (F32.fin l))))
            * m.cosf (deg2rad (rad2deg (m.atan2f (F32.fin y) (F32.fin x)))),
          m.cosf (deg2rad (rad2deg (m.atan2f (F32.fin z) (F32.fin l))))
            * m.sinf (deg2rad (rad2deg (m.atan2f (F32.fin y) (F32.fin x)))),
          -m.sinf (deg2rad (rad2deg (m.atan2f (F32.fin z) (F32.fin l))))⟩, none, none) := by
    simp only [Vector.angles, hv, Bool.false_eq_true, if_false, Vector.angleVectors, hl]
  refine ⟨Real.cos θp * Real.cos θy, Real.cos θp * Real.sin θy, Real.sin θp, i, _, hfw,
    ⟨?_, ?_, ?_⟩, ?_, ⟨ha1, hb1, hc1⟩, ⟨?_, ?_, ?_⟩⟩
  · exact (F32.nearUnit_mul hcx hcy (by norm_num) (by norm_num) (by norm_num)).1
  · exact (F32.nearUnit_mul hcx hsy (by norm_num) (by norm_num) (by norm_num)).1
  · exact (F32.nearUnit_neg hsx).1
  · simp only [Vector.normalize, hLen, hlen, hfz, hi, Bool.false_eq_true, if_false]
  · refine component_close _ _ _ _ _ ha1 hKpos hKx ?_
    calc (x : ℝ) * i = (l : ℝ) * x * i / l := by field_simp; ring
      _ = (σ * Real.cos θp) * (ρ * Real.cos θy) * i / l := by rw [← hpcos, ← hycos]
      _ = Real.cos θp * Real.cos θy * (σ * ρ * i / l) := by ring
  · refine component_close _ _ _ _ _ hb1 hKpos hKx ?_
    calc (y : ℝ) * i = (l : ℝ) * y * i / l := by field_simp; ring
      _ = (σ * Real.cos θp) * (ρ * Real.sin θy) * i / l := by rw [← hpcos, ← hysin]
      _ = Real.cos θp * Real.sin θy * (σ * ρ * i / l) := by ring
  · refine component_close _ _ _ _ _ hc1 hKzpos hKz ?_
    calc (z : ℝ) * i = (σ * Real.sin θp) * i := by rw [← hpsin]
      _ = Real.sin θp * (σ * i) := by ring

/-- The round trip, component by component: `forward` and `normalize()`
approximate the same direction cosines `a`, `b` in `x` and `y`, and opposite
ones, `-c` and `c`, in `z`. -/
theorem roundtrip_components (k : AbsKind) (m : Libm) (hm : m.accurate) (x y z : ℚ)
    (hx : |x| ≤ (2 : ℚ) ^ (30 : ℤ)) (hy : |y| ≤ (2 : ℚ) ^ (30 : ℤ))
    (hz : |z| ≤ (2 : ℚ) ^ (30 : ℤ))
    (hv : (fzero k (F32.fin x) && fzero k (F32.fin y)) = false)
    (hn : fzero k ((⟨F32.fin x, F32.fin y, F32.fin z⟩ : Vector).Length + kFloatCmpEpsilon)
      = false) (f0 : Vector) :
    ∃ (a b c : ℝ) (f : Vector),
      Vector.angleVectors m ((⟨F32.fin x, F32.fin y, F32.fin z⟩ : Vector).angles k m)
        (some f0) none none = (some f, none, none) ∧
      (f.x.near (13 / 1000000) a ∧
        ((⟨F32.fin x, F32.fin y, F32.fin z⟩ : Vector).normalize k).x.near (51 / 1000000) a) ∧
      (f.y.near (13 / 1000000) b ∧
        ((⟨F32.fin x, F32.fin y, F32.fin z⟩ : Vector).normalize k).y.near (51 / 1000000) b) ∧
      (f.z.near (3 / 1000000) (-c) ∧
        ((⟨F32.fin x, F32.fin y, F32.fin z⟩ : Vector).normalize k).z.near (51 / 1000000) c) := by
  obtain ⟨a, b, c, i, f, hfw, ⟨hfx, hfy, hfz⟩, hnorm, ⟨ha1, hb1, hc1⟩, ⟨hax, hby, hcz⟩⟩ :=
    roundtrip_near k m hm x y z hx hy hz hv hn f0
  have key : ∀ (w : ℚ) (e : ℝ), |e| ≤ 1 → |e - (w : ℝ) * i| ≤ 5 / 100000 →
      (F32.fin w * F32.fin i).near (51 / 1000000) e := by
    intro w e he hwe
    have h1 : |(w : ℝ) * i| ≤ 13 := by
      have h2 := abs_add ((w : ℝ) * i - e) e
      rw [sub_add_cancel, abs_sub_comm] at h2
      linarith
    have h3 : |(w * i : ℚ)| ≤ 13 := by
      have h4 : ((|w * i| : ℚ) : ℝ) ≤ ((13 : ℚ) : ℝ) := by push_cast; exact h1
      exact Rat.cast_le.mp h4
    obtain ⟨p, hp, hperr⟩ := rnd_error_small (w * i) h3
    refine ⟨p, by rw [fin_mul_fin, hp], ?_⟩
    have e2 : (p : ℝ) - e = ((p : ℝ) - ((w * i : ℚ) : ℝ)) - (e - (w : ℝ) * i) := by
      push_cast; ring
    rw [e2]
    exact le_trans (abs_sub _ _) (by linarith)
  refine ⟨a, b, c, f, hfw, ⟨hfx, ?_⟩, ⟨hfy, ?_⟩, ⟨hfz, ?_⟩⟩
  · rw [hnorm]; exact key x a ha1 hax
  · rw [hnorm]; exact key y b hb1 hby
  · rw [hnorm]; exact key z c hc1 hcz

/-- A vector is determined by its three components. -/
theorem Vector.eq_mk (v : Vector) {a b c : F32} (hx : v.x = a) (hy : v.y = b) (hz : v.z = c) :
    v = ⟨a, b, c⟩ := by
  obtain ⟨v1, v2, v3⟩ := v
  simp only at hx hy hz
  rw [hx, hy, hz]

/-- Claim C2 (as the code has it, in binary32): for every direction vector
`d` with finite components of magnitude at most `2 ^ 30`, outside the vertical
special case of `angles()` (`fzero(x) && fzero(y)` false) and outside the
fallback of `normalize()` (`fzero(Length() + kFloatCmpEpsilon)` false), under
either `abs` and with a library accurate to `10⁻⁶`: the `forward` output of
`angleVectors` on `d.angles()` agrees with `d.normalize()` within `0.0001` in
the `x` and `y` components, and with the negation of `d.normalize().z` in the
`z` component. -/
theorem angles_roundtrip32 (k : AbsKind) (m : Libm) (hm : m.accurate) (x y z : ℚ)
    (hx : |x| ≤ (2 : ℚ) ^ (30 : ℤ)) (hy : |y| ≤ (2 : ℚ) ^ (30 : ℤ))
    (hz : |z| ≤ (2 : ℚ) ^ (30 : ℤ))
    (hv : (fzero k (F32.fin x) && fzero k (F32.fin y)) = false)
    (hn : fzero k ((⟨F32.fin x, F32.fin y, F32.fin z⟩ : Vector).Length + kFloatCmpEpsilon)
      = false) (f0 : Vector) :
    ∃ (f : Vector) (fx fy fz nx ny nz : ℚ),
      Vector.angleVectors m ((⟨F32.fin x, F32.fin y, F32.fin z⟩ : Vector).angles k m)
        (some f0) none none = (some f, none, none) ∧
      f = ⟨F32.fin fx, F32.fin fy, F32.fin fz⟩ ∧
      (⟨F32.fin x, F32.fin y, F32.fin z⟩ : Vector).normalize k
        = ⟨F32.fin nx, F32.fin ny, F32.fin nz⟩ ∧
      |(fx : ℝ) - nx| ≤ 1 / 10000 ∧ |(fy : ℝ) - ny| ≤ 1 / 10000 ∧
      |(fz : ℝ) + nz| ≤ 1 / 10000 := by
  obtain ⟨a, b, c, f, hfw, ⟨hfx, hnx⟩, ⟨hfy, hny⟩, ⟨hfz, hnz⟩⟩ :=
    roundtrip_components k m hm x y z hx hy hz hv hn f0
  obtain ⟨fx, nx, hfx', hnx', hxerr⟩ := F32.near_near hfx hnx
  obtain ⟨fy, ny, hfy', hny', hyerr⟩ := F32.near_near hfy hny
  obtain ⟨fz, mz, hfz', hmz', hzerr⟩ := F32.near_near hfz (F32.near_neg hnz)
  obtain ⟨nz, hnz', -⟩ := hnz
  have hmz : mz = -nz := by
    rw [hnz', neg_fin] at hmz'
    exact (F32.fin.inj hmz').symm
  refine ⟨f, fx, fy, fz, nx, ny, nz, hfw, ?_, ?_, le_trans hxerr (by norm_num),
    le_trans hyerr (by norm_num), ?_⟩
  · exact Vector.eq_mk f hfx' hfy' hfz'
  · exact Vector.eq_mk _ hnx' hny' hnz'
  · rw [hmz] at hzerr
    push_cast at hzerr
    rw [sub_neg_eq_add] at hzerr
    exact le_trans hzerr (by norm_num)

/-! ### The round trip at `d = (3, 4, 12)` -/

/-- Rounding of a value in the normal range whose scaled value is halfway
between two integers: the even one is taken. -/
theorem rnd_eval_tie (x : ℚ) (e n : ℤ) (q : ℚ) (h1 : (2 : ℚ) ^ e ≤ |x|)
    (h2 : |x| < (2 : ℚ) ^ (e + 1)) (he : -126 ≤ e)
    (hn : |x / (2 : ℚ) ^ (e - 23) - (n : ℚ)| = 1 / 2) (heven : n % 2 = 0)
    (hq : q = (n : ℚ) * (2 : ℚ) ^ (e - 23)) (hfin : |q| < (2 : ℚ) ^ 128) :
    rnd x = F32.fin q :=
  rnd_of_expo x e n q (expo_eq_of x e h1 h2 he) (rne_unique _ n (Or.inr ⟨hn, heven⟩)) hq hfin

/-- `Length()` of `(3, 4, 12)` is `13`. -/
theorem Length_3_4_12 : (⟨F32.fin 3, F32.fin 4, F32.fin 12⟩ : Vector).Length = F32.fin 13 := by
  have h9 : F32.fin 3 * F32.fin 3 = F32.fin 9 := by
    rw [fin_mul_fin]; norm_num; simpa using rnd_int (K := ℚ) 9 (by norm_num)
  have h16 : F32.fin 4 * F32.fin 4 = F32.fin 16 := by
    rw [fin_mul_fin]; norm_num; simpa using rnd_int (K := ℚ) 16 (by norm_num)
  have h144 : F32.fin 12 * F32.fin 12 = F32.fin 144 := by
    rw [fin_mul_fin]; norm_num; simpa using rnd_int (K := ℚ) 144 (by norm_num)
  have h25 : F32.fin 9 + F32.fin 16 = F32.fin 25 := by
    rw [fin_add_fin]; norm_num; simpa using rnd_int (K := ℚ) 25 (by norm_num)
  have h169 : F32.fin 25 + F32.fin 144 = F32.fin 169 := by
    rw [fin_add_fin]; norm_num; simpa using rnd_int (K := ℚ) 169 (by norm_num)
  have hs : F32.sqrt (F32.fin 169) = F32.fin 13 := by
    show (if (169 : ℚ) < 0 then F32.nan else rnd (Real.sqrt ((169 : ℚ) : ℝ))) = _
    rw [if_neg (by norm_num)]
    have e : ((169 : ℚ) : ℝ) = 13 * 13 := by norm_num
    rw [e, Real.sqrt_mul_self (by norm_num)]
    simpa using rnd_int (K := ℝ) 13 (by norm_num)
  show F32.sqrt (F32.fin 3 * F32.fin 3 + F32.fin 4 * F32.fin 4 + F32.fin 12 * F32.fin 12) = _
  rw [h9, h16, h144, h25, h169, hs]

/-- Padding `13` by `kFloatCmpEpsilon` leaves `13`. -/
theorem padded_13 : F32.fin 13 + kFloatCmpEpsilon = F32.fin 13 := by
  rw [kFloatCmpEpsilon_eq, fin_add_fin]
  exact rnd_eval _ 3 13631488 _ (by norm_num [abs_of_pos]) (by norm_num [abs_of_pos])
    (by norm_num) (by norm_num [abs_lt]) (by norm_num) (by norm_num [abs_of_pos])

/-- The guard `fzero` fails at a positive integer below `2 ^ 24`, under either
`abs`. -/
theorem fzero_posInt (k : AbsKind) (n : ℤ) (h1 : 1 ≤ n) (h2 : n < 2 ^ 24) :
    fzero k (F32.fin (n : ℚ)) = false := by
  have ht : static_cast_int ((n : ℤ) : ℚ) = n := static_cast_int_intCast (F := ℚ) n
  have habs : |n| = n := abs_of_pos (by linarith)
  have hq : (1 : ℚ) ≤ (n : ℚ) := by exact_mod_cast h1
  cases k
  · simp only [fzero, absCall, F32.fabs, kFloatEpsilon_eq, lt_fin_fin, decide_eq_false_iff_not,
      not_lt]
    rw [abs_of_pos (by linarith)]
    linarith
  · simp only [fzero, absCall, toInt_fin, ht, habs, kFloatEpsilon_eq]
    rw [ofInt_eq n (by rw [habs]; exact h2)]
    simp only [lt_fin_fin, decide_eq_false_iff_not, not_lt]
    linarith

/-- `normalize()` of `(3, 4, 12)`, under either `abs`. -/
theorem normalize_3_4_12 (k : AbsKind) :
    (⟨F32.fin 3, F32.fin 4, F32.fin 12⟩ : Vector).normalize k
      = ⟨F32.fin (7743331 / 33554432), F32.fin (10324441 / 33554432),
          F32.fin (7743331 / 8388608)⟩ := by
  have h13 : fzero k (F32.fin 13) = false := by
    simpa using fzero_posInt k 13 (by norm_num) (by norm_num)
  have hi : lit 1 / F32.fin 13 = F32.fin (10324441 / 134217728) := by
    rw [lit_one, fin_div_fin _ _ (by norm_num)]
    exact rnd_eval _ (-4) 10324441 _ (by norm_num [abs_of_pos]) (by norm_num [abs_of_pos])
      (by norm_num) (by norm_num [abs_lt]) (by norm_num) (by norm_num [abs_of_pos])
  have hx : F32.fin 3 * F32.fin (10324441 / 134217728) = F32.fin (7743331 / 33554432) := by
    rw [fin_mul_fin]
    exact rnd_eval_tie _ (-3) 15486662 _ (by norm_num [abs_of_pos]) (by norm_num [abs_of_pos])
      (by norm_num) (by rw [abs_eq (by norm_num)]; right; norm_num) (by norm_num)
      (by norm_num) (by norm_num [abs_of_pos])
  have hy : F32.fin 4 * F32.fin (10324441 / 134217728) = F32.fin (10324441 / 33554432) := by
    rw [fin_mul_fin]
    exact rnd_eval _ (-2) 10324441 _ (by norm_num [abs_of_pos]) (by norm_num [abs_of_pos])
      (by norm_num) (by norm_num [abs_lt]) (by norm_num) (by norm_num [abs_of_pos])
  have hz : F32.fin 12 * F32.fin (10324441 / 134217728) = F32.fin (7743331 / 8388608) := by
    rw [fin_mul_fin]
    exact rnd_eval_tie _ (-1) 15486662 _ (by norm_num [abs_of_pos]) (by norm_num [abs_of_pos])
      (by norm_num) (by rw [abs_eq (by norm_num)]; right; norm_num) (by norm_num)
      (by norm_num) (by norm_num [abs_of_pos])
  simp only [Vector.normalize, Length_3_4_12, padded_13, h13, Bool.false_eq_true, if_false, hi,
    hx, hy, hz]

/-- The branch conditions of the round trip at `(3, 4, 12)`, under either
`abs`. -/
theorem branches_3_4_12 (k : AbsKind) :
    (fzero k (F32.fin 3) && fzero k (F32.fin 4)) = false ∧
      fzero k ((⟨F32.fin 3, F32.fin 4, F32.fin 12⟩ : Vector).Length + kFloatCmpEpsilon)
        = false := by
  have h3 : fzero k (F32.fin 3) = false := by
    simpa using fzero_posInt k 3 (by norm_num) (by norm_num)
  have h13 : fzero k (F32.fin 13) = false := by
    simpa using fzero_posInt k 13 (by norm_num) (by norm_num)
  refine ⟨by rw [h3]; rfl, ?_⟩
  rw [Length_3_4_12, padded_13, h13]

/-- Two binary32 values about `-0.923` and `0.923`, as `forward.z` and
`normalize().z` are at `(3, 4, 12)`, do not pass `fequal`, under either `abs`. -/
theorem fequal_opposite (k : AbsKind) (p : ℚ) (hp1 : -(9232 / 10000) ≤ p)
    (hp2 : p ≤ -(9229 / 10000)) :
    fequal k (F32.fin p) (F32.fin (7743331 / 8388608)) = false := by
  have hd1 : -(18464 / 10000 : ℚ) ≤ p - 7743331 / 8388608 := by linarith
  have hd2 : p - 7743331 / 8388608 ≤ -(18459 / 10000 : ℚ) := by linarith
  obtain ⟨w, hw, herr, -, -⟩ := rnd_error (p - 7743331 / 8388608)
    (le_trans (abs_le.mpr ⟨by linarith, by linarith⟩ : |p - 7743331 / 8388608| ≤ 2)
      (by norm_num))
  simp only [Rat.cast_id] at herr
  have hb : (2 : ℚ) ^ (-24 : ℤ) * |p - 7743331 / 8388608| + (2 : ℚ) ^ (-150 : ℤ)
      ≤ 1 / 1000000 := by
    have h1 : |p - 7743331 / 8388608| ≤ 2 := abs_le.mpr ⟨by linarith, by linarith⟩
    have h2 : (2 : ℚ) ^ (-24 : ℤ) * |p - 7743331 / 8388608| ≤ (2 : ℚ) ^ (-24 : ℤ) * 2 :=
      mul_le_mul_of_nonneg_left h1 (by positivity)
    have h3 : (2 : ℚ) ^ (-24 : ℤ) * 2 + (2 : ℚ) ^ (-150 : ℤ) ≤ 1 / 1000000 := by norm_num
    exact le_trans (add_le_add_right h2 _) h3
  have herr2 := abs_le.mp (le_trans herr hb)
  have hw1 : -(185 / 100 : ℚ) ≤ w := by linarith [herr2.1]
  have hw2 : w ≤ -(184 / 100 : ℚ) := by linarith [herr2.2]
  have hsub : F32.fin p - F32.fin (7743331 / 8388608) = F32.fin w := by
    rw [fin_sub_fin, hw]
  cases k
  · simp only [fequal, absCall, hsub, F32.fabs, kFloatEqualEpsilon_eq, lt_fin_fin,
      decide_eq_false_iff_not, not_lt]
    rw [abs_of_neg (by linarith)]
    linarith
  · have ht : static_cast_int w = -1 := by
      unfold static_cast_int
      rw [if_neg (by linarith), Int.ceil_eq_iff]
      constructor
      · push_cast; linarith
      · push_cast; linarith
    simp only [fequal, absCall, hsub, toInt_fin, ht, kFloatEqualEpsilon_eq]
    have h1 : |(-1 : ℤ)| = 1 := by norm_num
    rw [h1, ofInt_eq 1 (by norm_num)]
    simp only [lt_fin_fin, decide_eq_false_iff_not, not_lt]
    norm_num

/-- At `d = (3, 4, 12)`, with the correctly rounded library and under either
`abs`, the `z` component of `forward` does not pass `fequal` with the `z`
component of `d.normalize()`. -/
theorem roundtrip_z_far (k : AbsKind) :
    ∃ f : Vector,
      Vector.angleVectors Libm.rounded
          ((⟨F32.fin 3, F32.fin 4, F32.fin 12⟩ : Vector).angles k Libm.rounded)
          (some ⟨F32.fin 0, F32.fin 0, F32.fin 0⟩) none none = (some f, none, none) ∧
        fequal k f.z ((⟨F32.fin 3, F32.fin 4, F32.fin 12⟩ : Vector).normalize k).z
          = false := by
  obtain ⟨hv, hn⟩ := branches_3_4_12 k
  obtain ⟨a, b, c, f, hfw, -, -, ⟨hfz, hnz⟩⟩ :=
    roundtrip_components k Libm.rounded Libm.rounded_accurate 3 4 12
      (by norm_num [abs_of_pos]) (by norm_num [abs_of_pos]) (by norm_num [abs_of_pos])
      hv hn ⟨F32.fin 0, F32.fin 0, F32.fin 0⟩
  refine ⟨f, hfw, ?_⟩
  rw [normalize_3_4_12 k] at hnz ⊢
  obtain ⟨p, hp, hperr⟩ := hfz
  obtain ⟨q, hq, hqerr⟩ := hnz
  have hq' : q = 7743331 / 8388608 := (F32.fin.inj hq).symm
  rw [hq'] at hqerr
  have h1 := abs_le.mp hperr
  have h2 := abs_le.mp hqerr
  have hpR : -(9232 / 10000 : ℝ) ≤ (p : ℝ) ∧ (p : ℝ) ≤ -(9229 / 10000 : ℝ) := by
    push_cast at h2
    constructor <;> linarith [h1.1, h1.2, h2.1, h2.2]
  have hp1 : -(9232 / 10000 : ℚ) ≤ p := by
    have : ((-(9232 / 10000) : ℚ) : ℝ) ≤ (p : ℝ) := by push_cast; exact hpR.1
    exact Rat.cast_le.mp this
  have hp2 : p ≤ -(9229 / 10000 : ℚ) := by
    have : (p : ℝ) ≤ ((-(9229 / 10000) : ℚ) : ℝ) := by push_cast; exact hpR.2
    exact Rat.cast_le.mp this
  rw [hp]
  exact fequal_opposite k p hp1 hp2

/-- Claim C2 fails as stated: at `d = (3, 4, 12)`, whose `x` and `y` are
nonzero, with the correctly rounded library, the `z` component of the
`forward` output of `angleVectors` on `d.angles()` is about `-0.923` while that
of `d.normalize()` is `7743331/8388608` (about `0.923`); `fequal` of the two is
false under either `abs`. -/
theorem angles_roundtrip_z_negated :
    (⟨F32.fin 3, F32.fin 4, F32.fin 12⟩ : Vector).normalize AbsKind.floating
        = ⟨F32.fin (7743331 / 33554432), F32.fin (10324441 / 33554432),
            F32.fin (7743331 / 8388608)⟩ ∧
    (∃ f : Vector,
      Vector.angleVectors Libm.rounded
          ((⟨F32.fin 3, F32.fin 4, F32.fin 12⟩ : Vector).angles AbsKind.floating Libm.rounded)
          (some ⟨F32.fin 0, F32.fin 0, F32.fin 0⟩) none none = (some f, none, none) ∧
        fequal AbsKind.floating f.z
          ((⟨F32.fin 3, F32.fin 4, F32.fin 12⟩ : Vector).normalize AbsKind.floating).z
          = false) ∧
    (∃ f : Vector,
      Vector.angleVectors Libm.rounded
          ((⟨F32.fin 3, F32.fin 4, F32.fin 12⟩ : Vector).angles AbsKind.integer Libm.rounded)
          (some ⟨F32.fin 0, F32.fin 0, F32.fin 0⟩) none none = (some f, none, none) ∧
        fequal AbsKind.integer f.z
          ((⟨F32.fin 3, F32.fin 4, F32.fin 12⟩ : Vector).normalize AbsKind.integer).z
          = false) :=
  ⟨normalize_3_4_12 AbsKind.floating, roundtrip_z_far AbsKind.floating,
    roundtrip_z_far AbsKind.integer⟩

/-- Witness of `angles_roundtrip32` at `d = (3, 4, 12)`, with the integer
`abs` and the correctly rounded library. -/
theorem angles_roundtrip32_witness :
    ∃ (f : Vector) (fx fy fz nx ny nz : ℚ),
      Vector.angleVectors Libm.rounded
        ((⟨F32.fin 3, F32.fin 4, F32.fin 12⟩ : Vector).angles AbsKind.integer Libm.rounded)
        (some ⟨F32.fin 0, F32.fin 0, F32.fin 0⟩) none none = (some f, none, none) ∧
      f = ⟨F32.fin fx, F32.fin fy, F32.fin fz⟩ ∧
      (⟨F32.fin 3, F32.fin 4, F32.fin 12⟩ : Vector).normalize AbsKind.integer
        = ⟨F32.fin nx, F32.fin ny, F32.fin nz⟩ ∧
      |(fx : ℝ) - nx| ≤ 1 / 10000 ∧ |(fy : ℝ) - ny| ≤ 1 / 10000 ∧
      |(fz : ℝ) + nz| ≤ 1 / 10000 :=
  angles_roundtrip32 AbsKind.integer Libm.rounded Libm.rounded_accurate 3 4 12
    (by norm_num [abs_of_pos]) (by norm_num [abs_of_pos]) (by norm_num [abs_of_pos])
    (branches_3_4_12 AbsKind.integer).1 (branches_3_4_12 AbsKind.integer).2
    ⟨F32.fin 0, F32.fin 0, F32.fin 0⟩

end Binary32

end HalfLife
